import Mathlib

/-! pdf-toolbox: the sortable, multi-select file list.

A shallow embedding of `internal/gui/sortablelist.go` (the `SortableList`
widget), of the button handlers of `internal/gui/app.go` that share its
item slice and its checked map, of `parsePageRange` of `app.go`, and of the
page loop of `Service.Split` of `internal/pdf/operations.go`.

Modelling conventions
* A Go `[]string` is a `List String`; slice expressions and `copy` are the
  list functions `slice` and `copyAt`.
* A Go `map[int]bool` is a partial function `Int → Option Bool`; reading a
  key that is absent yields `false`, as in Go.
* Go `int` indices are `Int` (they may be negative: `-1` means "none").
* `float32` drag offsets and row heights are values of `F32`: a finite value is the
  rational it stands for, and every sum and difference is rounded to nearest, ties to
  even, as IEEE 754 binary32 arithmetic does.
* Widgets carry no state of their own here: `rebuild` and
  `refreshRowStyles` only repaint rows from `items`, `selected`, `active`
  and the drag fields, so they are the identity on the model state.  The
  rendered height of a row is supplied by a height lookup.
* `notified` is a ghost counter of the invocations of the `onChange`
  callback made by the list methods themselves.
-/

namespace PdfToolbox

/-! ## Go maps and slices -/

/-- Model of a Go `map[int]bool`: `none` is an absent key. -/
abbrev SelMap := Int → Option Bool

namespace SelMap

/-- The map literal `map[int]bool{}`. -/
def empty : SelMap := fun _ => none

/-- The read `m[k]`: an absent key reads as `false`. -/
def get (m : SelMap) (k : Int) : Bool := (m k).getD false

/-- The assignment `m[k] = v`. -/
def set (m : SelMap) (k : Int) (v : Bool) : SelMap :=
  fun j => if j = k then some v else m j

end SelMap

/-- The slice expression `xs[lo:hi]`. -/
def slice {α : Type} (xs : List α) (lo hi : Nat) : List α :=
  (xs.drop lo).take (hi - lo)

/-- The call `copy(xs[lo:lo+len(src)], src)` where `src` was read before the
copy started (Go's `copy` handles overlapping slices). -/
def copyAt {α : Type} (xs : List α) (lo : Nat) (src : List α) : List α :=
  xs.take lo ++ src ++ xs.drop (lo + src.length)

/-! ## `float32`

The drag offset `dragDY`, the deltas and the row heights are `float32` in the code. -/

/-- A value of Go's `float32`: NaN, an infinity, or a finite value, given by the rational
number it stands for. The two zeroes are one value here: the code adds, subtracts,
halves and compares, and none of these tells them apart. -/
inductive F32 where
  | nan
  | inf (negative : Bool)
  | fin (q : ℚ)
  deriving DecidableEq

namespace F32

/-- Number of halvings that bring `n` below 2: `floor (log2 n)` for `n ≥ 1`. -/
def ilog2 : Nat → Nat → Nat
  | 0, _ => 0
  | k + 1, n => if 2 ≤ n then ilog2 k (n / 2) + 1 else 0

/-- The power `2 ^ e` of an integer exponent. -/
def pow2 (e : Int) : ℚ :=
  if 0 ≤ e then ((2 ^ e.toNat : Nat) : ℚ) else 1 / ((2 ^ (-e).toNat : Nat) : ℚ)

/-- The binary exponent of `x > 0`: the `e` with `2 ^ e ≤ x < 2 ^ (e + 1)`. -/
def exponent (x : ℚ) : Int :=
  let e : Int := (ilog2 x.num.natAbs x.num.natAbs : Int) - (ilog2 x.den x.den : Int)
  if pow2 e ≤ x then e else e - 1

/-- Nearest integer, a tie going to the even one. -/
def roundEven (y : ℚ) : Int :=
  let f := Rat.floor y
  let r := y - (f : ℚ)
  if r < 1 / 2 then f
  else if 1 / 2 < r then f + 1
  else if f % 2 = 0 then f else f + 1

/-- Rounding of an exact result to `float32` (IEEE 754 binary32, round to nearest, ties
to even): 24 significant bits, exponents from -126, subnormals in steps of `2 ^ -149`,
infinity from `2 ^ 128` on. -/
def round (x : ℚ) : F32 :=
  if x = 0 then .fin 0
  else
    let e := max (exponent |x|) (-126)
    let ulp := pow2 (e - 23)
    let y := (roundEven (x / ulp) : ℚ) * ulp
    if pow2 128 ≤ |y| then .inf (decide (x < 0)) else .fin y

/-- `x + y`. -/
def add : F32 → F32 → F32
  | .nan, _ => .nan
  | _, .nan => .nan
  | .inf a, .inf b => if a = b then .inf a else .nan
  | .inf a, .fin _ => .inf a
  | .fin _, .inf b => .inf b
  | .fin a, .fin b => round (a + b)

/-- `-x`. -/
def neg : F32 → F32
  | .nan => .nan
  | .inf a => .inf (!a)
  | .fin q => .fin (-q)

/-- `x - y`. -/
def sub (x y : F32) : F32 := add x (neg y)

/-- `x / 2`. -/
def half : F32 → F32
  | .nan => .nan
  | .inf a => .inf a
  | .fin q => round (q / 2)

/-- `x < y`; every comparison with NaN is false. -/
def lt : F32 → F32 → Bool
  | .nan, _ => false
  | _, .nan => false
  | .inf a, .inf b => a && !b
  | .inf a, .fin _ => a
  | .fin _, .inf b => !b
  | .fin a, .fin b => decide (a < b)

instance : Add F32 := ⟨add⟩
instance : Sub F32 := ⟨sub⟩
instance : Neg F32 := ⟨neg⟩
instance : LT F32 := ⟨fun x y => lt x y = true⟩
instance (x y : F32) : Decidable (x < y) := inferInstanceAs (Decidable (lt x y = true))
instance (n : Nat) : OfNat F32 n := ⟨round (n : ℚ)⟩

end F32

/-! ## State -/

/-- The fields of `SortableList` together with the two host variables of
`app.go` it is wired to: `items` is `selectedFiles`, `selected` is
`selectedMap` (both shared by pointer), `selectedIndex` is the host's own
focus index. -/
@[ext] structure State where
  items : List String
  selected : SelMap
  dragging : Bool
  dragFrom : Int
  dragIdx : Int
  dragDY : F32
  active : Int
  selectedIndex : Int
  notified : Nat

/-- The two tabs that own a `SortableList`. -/
inductive Tab where
  | merge
  | images
  deriving DecidableEq, Repr

/-- Rendered height of the row at a position of the row box built from the
given items (`s.box.Objects[i].Size().Height`). -/
abbrev HeightLookup := List String → Nat → F32

/-- Outcome of code that may hit a Go run-time panic. `fuel` is never
produced by a caller that supplies enough loop fuel. -/
inductive Err where
  | indexOutOfRange
  | fuel
  deriving DecidableEq, Repr

/-! ## `sortablelist.go` -/

/-- Repainting only: `rebuild` recreates the row widgets from `items`. -/
@[simp] def rebuild (s : State) : State := s

/-- Repainting only: `refreshRowStyles` restyles the rows. Callbacks that the widget
library fires from inside `SetChecked` are not counted in `notified`. -/
@[simp] def refreshRowStyles (s : State) : State := s

/-- The loop `for i := range selectedFiles { if selectedMap[i] { selectedIndex = i } }`
started from `selectedIndex = -1`. -/
def lastChecked (sel : SelMap) (n : Nat) : Int :=
  (List.range n).foldl (fun (acc : Int) (i : Nat) => if sel.get (i : Int) then (i : Int) else acc) (-1)

/-- The `onChange` closure installed by `makeMergeTab` and
`makeImagesToPDFTab`. -/
def onChange (s : State) : State :=
  let s1 := { s with notified := s.notified + 1 }
  if 0 ≤ s1.active ∧ s1.active < (s1.items.length : Int) then
    { s1 with selectedIndex := s1.active }
  else
    { s1 with selectedIndex := lastChecked s1.selected s1.items.length }

/-- `NewSortableList(items, selected, nil)` followed by the host's
`selectedIndex = -1`. -/
def NewSortableList (items : List String) (selected : SelMap) : State :=
  { items := items, selected := selected, dragging := false, dragFrom := 0,
    dragIdx := 0, dragDY := 0, active := -1, selectedIndex := -1, notified := 0 }

/-- `ActiveIndex`. -/
def ActiveIndex (s : State) : Int := s.active

/-- `onRowClick`. The pointer `s.selected` is never nil in `app.go`. -/
def onRowClick (s : State) (index : Int) (additive : Bool) : State :=
  let s1 := if additive then
      { s with selected := s.selected.set index (!s.selected.get index) }
    else s
  let s2 := { s1 with active := index }
  onChange (refreshRowStyles s2)

/-- The item part of `move`: save `items[from]`, shift the block between the
two positions with `copy`, store the saved item at `to`. -/
def moveItems {α : Type} (items : List α) (frm dst : Nat) : List α :=
  match items[frm]? with
  | none => items
  | some item =>
    let shifted :=
      if frm < dst then copyAt items frm (slice items (frm + 1) (dst + 1))
      else copyAt items (dst + 1) (slice items dst frm)
    shifted.set dst item

/-- The loop of `move` that rebuilds the checked map for `n` rows. -/
def moveSel (oldSel : SelMap) (n : Nat) (frm dst : Int) : SelMap :=
  (List.range n).foldl (fun (newSel : SelMap) (i : Nat) =>
    let idx : Int := (i : Int)
    if idx = dst then newSel.set idx (oldSel.get frm)
    else if frm < dst ∧ idx ≥ frm ∧ idx < dst then newSel.set idx (oldSel.get (idx + 1))
    else if dst < frm ∧ idx > dst ∧ idx ≤ frm then newSel.set idx (oldSel.get (idx - 1))
    else newSel.set idx (oldSel.get idx)) SelMap.empty

/-- `move`. -/
def move (s : State) (frm dst : Int) : State :=
  if frm = dst ∨ frm < 0 ∨ dst < 0 ∨ frm ≥ (s.items.length : Int)
      ∨ dst ≥ (s.items.length : Int) then s
  else
    let items := moveItems s.items frm.toNat dst.toNat
    let newSel := moveSel s.selected items.length frm dst
    onChange (rebuild { s with items := items, selected := newSel })

/-- The loop of `removeAt` that rebuilds the checked map for `n` rows. -/
def removeSel (oldSel : SelMap) (n : Nat) (index : Int) : SelMap :=
  (List.range n).foldl (fun (newSel : SelMap) (i : Nat) =>
    if (i : Int) < index then newSel.set (i : Int) (oldSel.get (i : Int))
    else newSel.set (i : Int) (oldSel.get ((i : Int) + 1))) SelMap.empty

/-- `removeAt`. -/
def removeAt (s : State) (index : Int) : State :=
  if index < 0 ∨ index ≥ (s.items.length : Int) then s
  else
    let items := s.items.take index.toNat ++ s.items.drop (index.toNat + 1)
    let newSel := removeSel s.selected items.length index
    onChange (rebuild { s with items := items, selected := newSel })

/-- `beginDrag` on the row with the given index. -/
def beginDrag (s : State) (index : Int) : State :=
  if s.dragging then s
  else { s with dragging := true, dragFrom := index, dragIdx := index, dragDY := 0 }

/-- The read `s.box.Objects[i].Size().Height`: the box holds one row per
item, so an index outside the rows panics. -/
def rowHeight (rowH : HeightLookup) (s : State) (i : Int) : Except Err F32 :=
  if 0 ≤ i ∧ i < (s.items.length : Int) then .ok (rowH s.items i.toNat)
  else .error .indexOutOfRange

/-- The "move downwards" loop of `onDragDelta`. -/
def dragDown (rowH : HeightLookup) : Nat → State → Except Err State
  | 0, _ => .error .fuel
  | k + 1, s =>
    if s.dragDY > 0 ∧ s.dragIdx < (s.items.length : Int) - 1 then
      match rowHeight rowH s (s.dragIdx + 1) with
      | .error e => .error e
      | .ok nextH =>
        if s.dragDY < nextH.half then .ok s
        else
          let s1 := { s with dragDY := s.dragDY - nextH }
          let s2 := move s1 s1.dragIdx (s1.dragIdx + 1)
          let s3 := { s2 with dragIdx := s2.dragIdx + 1 }
          dragDown rowH k (refreshRowStyles s3)
    else .ok s

/-- The "move upwards" loop of `onDragDelta`. -/
def dragUp (rowH : HeightLookup) : Nat → State → Except Err State
  | 0, _ => .error .fuel
  | k + 1, s =>
    if s.dragDY < 0 ∧ s.dragIdx > 0 then
      match rowHeight rowH s (s.dragIdx - 1) with
      | .error e => .error e
      | .ok prevH =>
        if -s.dragDY < prevH.half then .ok s
        else
          let s1 := { s with dragDY := s.dragDY + prevH }
          let s2 := move s1 s1.dragIdx (s1.dragIdx - 1)
          let s3 := { s2 with dragIdx := s2.dragIdx - 1 }
          dragUp rowH k (refreshRowStyles s3)
    else .ok s

/-- Loop fuel that covers every run of either loop of `onDragDelta`: each
iteration moves `dragIdx` one step towards an end of the list. -/
def dragFuel (s : State) : Nat := s.items.length + 2

/-- `onDragDelta`. -/
def onDragDelta (rowH : HeightLookup) (s : State) (deltaY : F32) : Except Err State :=
  if !s.dragging then .ok s
  else
    let s1 := { s with dragDY := s.dragDY + deltaY }
    match dragDown rowH (dragFuel s1) s1 with
    | .error e => .error e
    | .ok s2 => dragUp rowH (dragFuel s2) s2

/-- `endDrag`. -/
def endDrag (s : State) : State :=
  if !s.dragging then s
  else
    let s1 := refreshRowStyles s
    { s1 with dragging := false, dragFrom := -1, dragIdx := -1, dragDY := 0 }

/-- The closure `check.OnChanged` of the row with the given index. -/
def checkChanged (s : State) (index : Int) (v : Bool) : State :=
  onChange { s with selected := s.selected.set index v }

/-! ## Button handlers of `app.go` -/

/-- "Browse & Add": `paths` is what the native picker returned without
error. -/
def addFiles (s : State) (paths : List String) : State :=
  if paths.length > 0 then rebuild { s with items := s.items ++ paths }
  else s

/-- "Clear List". Only the images tab also resets `selectedIndex`. -/
def clearList (tab : Tab) (s : State) : State :=
  match tab with
  | .merge => rebuild { s with items := [] }
  | .images => rebuild { s with items := [], selectedIndex := -1 }

/-- The loop `for i := len(selectedFiles)-1; i >= 0; i-- { if selectedMap[i] { ... } }`
of "Remove Selected"; the first argument is `i + 1`. -/
def removeLoop (sel : SelMap) : Nat → List String → List String
  | 0, files => files
  | i + 1, files =>
    removeLoop sel i
      (if sel.get (i : Int) then files.take i ++ files.drop (i + 1) else files)

/-- "Remove Selected". -/
def removeSelected (s : State) : State :=
  if s.items.length = 0 then s
  else
    rebuild { s with items := removeLoop s.selected s.items.length s.items,
                     selected := SelMap.empty, selectedIndex := -1 }

/-- The "↑" button. -/
def moveUp (s : State) : State :=
  let i := s.selectedIndex
  if i ≤ 0 ∨ i ≥ (s.items.length : Int) then s
  else
    let a := s.items[(i - 1).toNat]?
    let b := s.items[i.toNat]?
    match a, b with
    | some x, some y =>
      rebuild { s with items := (s.items.set (i - 1).toNat y).set i.toNat x,
                       selectedIndex := i - 1 }
    | _, _ => s

/-- The "↓" button. -/
def moveDown (s : State) : State :=
  let i := s.selectedIndex
  if i < 0 ∨ i ≥ (s.items.length : Int) - 1 then s
  else
    let a := s.items[(i + 1).toNat]?
    let b := s.items[i.toNat]?
    match a, b with
    | some x, some y =>
      rebuild { s with items := (s.items.set (i + 1).toNat y).set i.toNat x,
                       selectedIndex := i + 1 }
    | _, _ => s

/-! ## `parsePageRange` of `app.go`

A Go string is the list of its runes. The functions of Go's standard library that
`parsePageRange` calls are modelled here: `strings.TrimSpace`, `strings.Split` with a
one-rune separator, `strings.Contains` with a one-rune pattern (list membership) and
`strconv.Atoi`. The table behind `unicode.IsDigit` is taken as a parameter `isDigit`;
all that is used of it is that it holds of the ASCII digits. Go's `int` is 64 bits wide
on the platforms the application is built for. The page slice is bounded by the memory
of the machine: see `appendPage`. -/

/-- Largest value of Go's `int`. -/
def maxInt : Int := 2 ^ 63 - 1

/-- Smallest value of Go's `int`. -/
def minInt : Int := -(2 ^ 63)

/-- Signed 64-bit wrap-around of an integer result. -/
def wrapInt (x : Int) : Int := (x + 2 ^ 63) % 2 ^ 64 - 2 ^ 63

/-- The ASCII digits `'0'..'9'`. -/
def asciiDigit (c : Char) : Bool := decide (48 ≤ c.toNat ∧ c.toNat ≤ 57)

/-- `unicode.IsSpace`: the Latin-1 white space and the Unicode `White_Space` property. -/
def isSpace (c : Char) : Bool :=
  decide (c.toNat = 9 ∨ c.toNat = 10 ∨ c.toNat = 11 ∨ c.toNat = 12 ∨ c.toNat = 13 ∨
    c.toNat = 32 ∨ c.toNat = 133 ∨ c.toNat = 160 ∨ c.toNat = 5760 ∨
    (8192 ≤ c.toNat ∧ c.toNat ≤ 8202) ∨ c.toNat = 8232 ∨ c.toNat = 8233 ∨
    c.toNat = 8239 ∨ c.toNat = 8287 ∨ c.toNat = 12288)

/-- `strings.TrimSpace`. -/
def trimSpace (s : List Char) : List Char :=
  ((s.dropWhile isSpace).reverse.dropWhile isSpace).reverse

/-- `strings.Split(s, sep)` for a separator of one rune. -/
def split (s : List Char) (sep : Char) : List (List Char) :=
  match s with
  | [] => [[]]
  | c :: cs =>
    if c = sep then [] :: split cs sep
    else
      match split cs sep with
      | [] => [[c]]
      | p :: ps => (c :: p) :: ps

/-- The digits loop of `strconv.Atoi`: the value of a run of ASCII digits read after
`acc`, or `none` at the first rune that is not an ASCII digit. -/
def parseDigits : List Char → Nat → Option Nat
  | [], acc => some acc
  | c :: cs, acc =>
    if asciiDigit c then parseDigits cs (acc * 10 + (c.toNat - 48)) else none

/-- `strconv.Atoi`: an optional sign, then one or more ASCII digits, the value within
the range of `int`; `none` stands for a returned error. -/
def Atoi (s : List Char) : Option Int :=
  let neg := s.head? = some '-'
  let body := if s.head? = some '-' ∨ s.head? = some '+' then s.tail else s
  if body = [] then none
  else
    match parseDigits body 0 with
    | none => none
    | some n =>
      let v : Int := if neg then -(n : Int) else (n : Int)
      if minInt ≤ v ∧ v ≤ maxInt then some v else none

/-- How a call of `parsePageRange` can fail: its five error returns, and `noReturn` for
a call that does not return, because the page slice outgrows what the run-time system
can allocate and the process is stopped. -/
inductive ParseErr where
  | emptyPageRange
  | invalidRange
  | startAfterEnd
  | invalidPageNumber
  | noPagesParsed
  | noReturn
  deriving DecidableEq, Repr

/-- Results of `parsePageRange` can be compared. -/
instance instDecidableEqParseResult : DecidableEq (Except ParseErr (List Int)) :=
  fun a b =>
    match a, b with
    | .ok x, .ok y =>
      if h : x = y then isTrue (by rw [h]) else isFalse (fun h2 => by cases h2; exact h rfl)
    | .error x, .error y =>
      if h : x = y then isTrue (by rw [h]) else isFalse (fun h2 => by cases h2; exact h rfl)
    | .ok _, .error _ => isFalse (fun h2 => by cases h2)
    | .error _, .ok _ => isFalse (fun h2 => by cases h2)

/-- The anonymous function given to `strings.Map`. -/
def normalizeRune (isDigit : Char → Bool) (r : Char) : Char :=
  if isDigit r ∨ r = '-' ∨ r = ',' then r else ','

/-- The call `strings.Map(..., rangeStr)`. -/
def normalize (isDigit : Char → Bool) (rangeStr : List Char) : List Char :=
  rangeStr.map (normalizeRune isDigit)

/-- The most elements a slice of `int` can have whatever the memory of the machine:
`growslice` refuses to allocate more than `maxAlloc = 2^48` bytes, and an `int` takes 8
of them. -/
def maxSliceLen : Nat := 2 ^ 45

/-- The number of elements to which the slice `pages` can grow: `sliceCap` is what the
memory of the machine at hand allows, and the run-time system never goes beyond
`maxSliceLen`. -/
def sliceLimit (sliceCap : Nat) : Nat := min sliceCap maxSliceLen

/-- The statement `pages = append(pages, x)` for a slice that can grow to `limit`
elements. A Go slice cannot grow without bound: an `append` beyond the limit does not
return, the run-time system stops the process in `growslice` (out of memory, or
"len out of range"). `none` stands for that. -/
def appendPage (limit : Nat) (pages : List Int) (x : Int) : Option (List Int) :=
  if pages.length < limit then some (pages ++ [x]) else none

/-- The loop `for i := start; i <= end; i++ { pages = append(pages, i) }`, `i++` wrapping
as Go's `int` does; `none` when the process is stopped in an `append`. Every iteration
appends, so `limit + 1` iterations are never completed: callers pass that as fuel, and
the fuel does not run out before the loop ends or the process is stopped. -/
def appendRange (limit : Nat) : Nat → Int → Int → List Int → Option (List Int)
  | 0, _, _, _ => none
  | k + 1, i, endPage, pages =>
    if i ≤ endPage then
      match appendPage limit pages i with
      | none => none
      | some pages1 => appendRange limit k (wrapInt (i + 1)) endPage pages1
    else some pages

/-- The loop over the parts of the normalized string. -/
def parseParts (sliceCap : Nat) : List (List Char) → List Int → Except ParseErr (List Int)
  | [], pages => .ok pages
  | raw :: rest, pages =>
    let part := trimSpace raw
    if part = [] then parseParts sliceCap rest pages
    else if '-' ∈ part then
      match split part '-' with
      | [seg0, seg1] =>
        match Atoi (trimSpace seg0), Atoi (trimSpace seg1) with
        | some start, some endPage =>
          if start < 1 ∨ endPage < 1 then .error .invalidRange
          else if start > endPage then .error .startAfterEnd
          else
            match appendRange (sliceLimit sliceCap) (sliceLimit sliceCap + 1) start endPage
                pages with
            | none => .error .noReturn
            | some pages1 => parseParts sliceCap rest pages1
        | _, _ => .error .invalidRange
      | _ => .error .invalidRange
    else
      match Atoi part with
      | none => .error .invalidPageNumber
      | some n =>
        if n < 1 then .error .invalidPageNumber
        else
          match appendPage (sliceLimit sliceCap) pages n with
          | none => .error .noReturn
          | some pages1 => parseParts sliceCap rest pages1

/-- `parsePageRange`. -/
def parsePageRange (sliceCap : Nat) (isDigit : Char → Bool) (rangeStr : List Char) :
    Except ParseErr (List Int) :=
  if trimSpace rangeStr = [] then .error .emptyPageRange
  else
    match parseParts sliceCap (split (normalize isDigit rangeStr) ',') [] with
    | .error e => .error e
    | .ok pages =>
      if pages.length = 0 then .error .noPagesParsed
      else .ok pages

variable {sliceCap limit : Nat}

/-! ## The page loop of `Service.Split` of `operations.go`

`api.TrimFile` belongs to the pdfcpu library. The loop uses only whether it returns an
error, so it is a parameter `trimFile start end` (`true`: no error). The page count is
what `GetPageCount` returned. -/

/-- How a run of the page loop of `Split` ends: `done` when the loop is left (`Split`
returns `nil`), `failed` when `TrimFile` returns an error for the span `start-end`
(`Split` returns "failed to split pages"). `written` lists the spans for which
`TrimFile` was called without an error, in order. -/
inductive SplitResult where
  | done (written : List (Int × Int))
  | failed (written : List (Int × Int)) (start endPage : Int)
  deriving DecidableEq

/-- Every span the loop has produced, the one `TrimFile` failed on included. -/
def SplitResult.spans : SplitResult → List (Int × Int)
  | .done written => written
  | .failed written start endPage => written ++ [(start, endPage)]

/-- The loop `for start := 1; start <= pageCount; start += config.PagesPerFile` of
`Split`, entered at the loop test with the current `start`; `+` and `-` wrap as Go's
`int` does; `none` when the fuel runs out. -/
def splitLoop (trimFile : Int → Int → Bool) (pageCount pagesPerFile : Int) :
    Nat → Int → List (Int × Int) → Option SplitResult
  | 0, _, _ => none
  | fuel + 1, start, written =>
    if start ≤ pageCount then
      let end0 := wrapInt (wrapInt (start + pagesPerFile) - 1)
      let endPage := if end0 > pageCount then pageCount else end0
      if trimFile start endPage then
        splitLoop trimFile pageCount pagesPerFile fuel (wrapInt (start + pagesPerFile))
          (written ++ [(start, endPage)])
      else some (.failed written start endPage)
    else some (.done written)

/-- `Split` from the point where the page count is known. -/
def Split (trimFile : Int → Int → Bool) (pageCount pagesPerFile : Int) (fuel : Nat) :
    Option SplitResult :=
  splitLoop trimFile pageCount pagesPerFile fuel 1 []

/-- Number of files of `k` pages needed for `P` pages, `ceil(P / k)`. -/
def ceilDiv (P k : Int) : Int := (P + k - 1) / k

/-- Closed form of the span of the file with index `i` (files are counted from 0). -/
def spanAt (P k : Int) (i : Nat) : Int × Int := (1 + i * k, min ((i + 1) * k) P)

/-- Stated from the specification: the spans partition the pages `1..P` into
`ceil(P / k)` files of `k` pages, the last one possibly shorter. -/
def IsPartition (P k : Int) (spans : List (Int × Int)) : Prop :=
  (∀ s, spans.head? = some s → s.1 = 1) ∧
  (∀ (i : Nat) (s t : Int × Int), spans[i]? = some s → spans[i + 1]? = some t →
    t.1 = s.2 + 1) ∧
  (∀ s, spans.getLast? = some s → s.2 = P) ∧
  (∀ (i : Nat) (s : Int × Int), spans[i]? = some s → i + 1 < spans.length →
    s.2 - s.1 + 1 = k) ∧
  (∀ s, spans.getLast? = some s → 1 ≤ s.2 - s.1 + 1 ∧ s.2 - s.1 + 1 ≤ k) ∧
  (spans.length : Int) = ⌈(P : ℚ) / (k : ℚ)⌉ ∧
  (∀ p : Int, 1 ≤ p → p ≤ P →
    ∃! i : Nat, ∃ s : Int × Int, spans[i]? = some s ∧ s.1 ≤ p ∧ p ≤ s.2)

/-! ## Lemmas on maps -/

/-- Filling keys `0..n-1` of a fresh map one by one, as the re-indexing
loops do. -/
def fillMap (f : Nat → Bool) (n : Nat) : SelMap :=
  (List.range n).foldl (fun (m : SelMap) (i : Nat) => m.set (i : Int) (f i)) SelMap.empty

theorem fillMap_apply (f : Nat → Bool) (n : Nat) (k : Int) :
    fillMap f n k = if 0 ≤ k ∧ k < (n : Int) then some (f k.toNat) else none := by
  induction n with
  | zero =>
    have h0 : ¬ (0 ≤ k ∧ k < ((0 : Nat) : Int)) := by omega
    rw [if_neg h0]
    rfl
  | succ n ih =>
    unfold fillMap at ih ⊢
    rw [List.range_succ, List.foldl_append]
    simp only [List.foldl_cons, List.foldl_nil, SelMap.set]
    by_cases hk : k = (n : Int)
    · subst hk
      simp
    · rw [if_neg hk, ih]
      by_cases h1 : 0 ≤ k ∧ k < (n : Int)
      · have h2 : 0 ≤ k ∧ k < ((n + 1 : Nat) : Int) := by omega
        rw [if_pos h1, if_pos h2]
      · have h2 : ¬ (0 ≤ k ∧ k < ((n + 1 : Nat) : Int)) := by omega
        rw [if_neg h1, if_neg h2]

theorem fillMap_get (f : Nat → Bool) (n : Nat) (k : Int) :
    (fillMap f n).get k = if 0 ≤ k ∧ k < (n : Int) then f k.toNat else false := by
  unfold SelMap.get
  rw [fillMap_apply]
  split_ifs <;> rfl

/-- Old position of the row that `move` puts at position `idx`. -/
def srcIdx (frm dst idx : Int) : Int :=
  if idx = dst then frm
  else if frm < dst ∧ idx ≥ frm ∧ idx < dst then idx + 1
  else if dst < frm ∧ idx > dst ∧ idx ≤ frm then idx - 1
  else idx

theorem moveSel_eq_fillMap (oldSel : SelMap) (n : Nat) (frm dst : Int) :
    moveSel oldSel n frm dst = fillMap (fun i => oldSel.get (srcIdx frm dst i)) n := by
  unfold moveSel fillMap
  congr 1
  funext m i
  simp only [srcIdx]
  split_ifs <;> rfl

theorem removeSel_eq_fillMap (oldSel : SelMap) (n : Nat) (index : Int) :
    removeSel oldSel n index
      = fillMap (fun i => oldSel.get (if (i : Int) < index then (i : Int) else (i : Int) + 1)) n := by
  unfold removeSel fillMap
  congr 1
  funext m i
  by_cases h : (i : Int) < index
  · simp only [if_pos h]
  · simp only [if_neg h]

/-! ## Lemmas on the item shift of `move` -/

theorem drop_length_cons {α : Type} (M : List α) : ∀ (x : α) (C : List α),
    ∃ z, List.drop M.length (x :: (M ++ C)) = z :: C := by
  induction M with
  | nil => intro x C; exact ⟨x, rfl⟩
  | cons m M ih =>
    intro x C
    obtain ⟨z, hz⟩ := ih m C
    exact ⟨z, by simpa using hz⟩

theorem getElem?_cut {α : Type} (A R : List α) (x : α) : (A ++ x :: R)[A.length]? = some x := by
  rw [List.getElem?_append_right (Nat.le_refl _), Nat.sub_self]
  simp

theorem drop_cut {α : Type} (A R : List α) (x : α) :
    List.drop (A.length + 1) (A ++ x :: R) = R := by
  have h : A ++ x :: R = (A ++ [x]) ++ R := by simp
  rw [h]
  exact List.drop_left' (by simp)

theorem moveItems_fwd {α : Type} (A M C : List α) (x : α) :
    moveItems (A ++ x :: (M ++ C)) A.length (A.length + M.length) = A ++ (M ++ x :: C) := by
  unfold moveItems
  rw [getElem?_cut]
  simp only [copyAt, slice]
  by_cases hM : M.length = 0
  · have hM0 : M = [] := List.length_eq_zero.mp hM
    subst hM0
    have ht : List.take (A.length + 1) (A ++ x :: C) = A ++ [x] := by
      have h : A ++ x :: C = (A ++ [x]) ++ C := by simp
      rw [h]
      exact List.take_left' (by simp)
    simp [ht]
  · have hlt : A.length < A.length + M.length := by omega
    rw [if_pos hlt, drop_cut]
    have e1 : A.length + M.length + 1 - (A.length + 1) = M.length := by omega
    rw [e1, List.take_left, List.take_left, List.drop_append]
    obtain ⟨z, hz⟩ := drop_length_cons M x C
    rw [hz]
    have e2 : A ++ M ++ z :: C = (A ++ M) ++ z :: C := rfl
    have e3 : A.length + M.length = (A ++ M).length := by simp
    rw [e3, List.set_append_right _ _ (Nat.le_refl _), Nat.sub_self]
    simp

theorem moveItems_bwd {α : Type} (A M C : List α) (x : α) :
    moveItems (A ++ (M ++ x :: C)) (A.length + M.length) A.length = A ++ x :: (M ++ C) := by
  unfold moveItems
  have hx : (A ++ (M ++ x :: C))[A.length + M.length]? = some x := by
    have e : A ++ (M ++ x :: C) = (A ++ M) ++ x :: C := by simp
    have e3 : A.length + M.length = (A ++ M).length := by simp
    rw [e, e3]
    exact getElem?_cut _ _ _
  rw [hx]
  simp only [copyAt, slice]
  have hlt : ¬ (A.length + M.length < A.length) := by omega
  rw [if_neg hlt]
  have e1 : A.length + M.length - A.length = M.length := by omega
  rw [e1, List.drop_left, List.take_left, List.take_append]
  have hd : List.drop (A.length + 1 + M.length) (A ++ (M ++ x :: C)) = C := by
    have e : A ++ (M ++ x :: C) = (A ++ (M ++ [x])) ++ C := by simp
    rw [e]
    exact List.drop_left' (by simp; omega)
  rw [hd]
  cases M with
  | nil => simp
  | cons m M => simp

theorem exists_cut_fwd {α : Type} (xs : List α) (a b : Nat) (hab : a ≤ b) (hb : b < xs.length) :
    ∃ A M C x, xs = A ++ x :: (M ++ C) ∧ A.length = a ∧ A.length + M.length = b := by
  have ha : a < xs.length := by omega
  refine ⟨xs.take a, (xs.drop (a + 1)).take (b - a), (xs.drop (a + 1)).drop (b - a), xs[a], ?_, ?_, ?_⟩
  · rw [List.take_append_drop, ← List.drop_eq_getElem_cons ha, List.take_append_drop]
  · simp only [List.length_take]; omega
  · simp only [List.length_take, List.length_drop]; omega

theorem exists_cut_bwd {α : Type} (xs : List α) (a b : Nat) (hab : a ≤ b) (hb : b < xs.length) :
    ∃ A M C x, xs = A ++ (M ++ x :: C) ∧ A.length = a ∧ A.length + M.length = b := by
  have hb2 : b - a < (xs.drop a).length := by simp only [List.length_drop]; omega
  refine ⟨xs.take a, (xs.drop a).take (b - a), (xs.drop a).drop (b - a + 1), (xs.drop a)[b - a], ?_, ?_, ?_⟩
  · rw [← List.drop_eq_getElem_cons hb2, List.take_append_drop, List.take_append_drop]
  · simp only [List.length_take]; omega
  · simp only [List.length_take, List.length_drop]; omega

theorem srcIdx_fwd_toNat (a m i : Nat) :
    (srcIdx (a : Int) ((a + m : Nat) : Int) (i : Int)).toNat
      = if i = a + m then a else if a ≤ i ∧ i < a + m then i + 1 else i := by
  unfold srcIdx
  split_ifs <;> omega

theorem srcIdx_bwd_toNat (a m i : Nat) :
    (srcIdx ((a + m : Nat) : Int) (a : Int) (i : Int)).toNat
      = if i = a then a + m else if a < i ∧ i ≤ a + m then i - 1 else i := by
  unfold srcIdx
  split_ifs <;> omega

theorem getElem?_fwd {α : Type} (A M C : List α) (x : α) (i : Nat) :
    (A ++ (M ++ x :: C))[i]?
      = (A ++ x :: (M ++ C))[(srcIdx (A.length : Int) ((A.length + M.length : Nat) : Int) (i : Int)).toNat]? := by
  rw [srcIdx_fwd_toNat]
  split_ifs with h1 h2
  · subst h1
    rw [getElem?_cut]
    have e : A ++ (M ++ x :: C) = (A ++ M) ++ x :: C := by simp
    have e3 : A.length + M.length = (A ++ M).length := by simp
    rw [e, e3]
    exact getElem?_cut _ _ _
  · rw [List.getElem?_append_right h2.1, List.getElem?_append_left (by omega),
      List.getElem?_append_right (by omega)]
    have e : i + 1 - A.length = (i - A.length) + 1 := by omega
    rw [e, List.getElem?_cons_succ, List.getElem?_append_left (by omega)]
  · by_cases h3 : i < A.length
    · rw [List.getElem?_append_left h3, List.getElem?_append_left h3]
    · have h4 : A.length + M.length < i := by omega
      rw [List.getElem?_append_right (by omega), List.getElem?_append_right (by omega),
        List.getElem?_append_right (by omega)]
      have e : i - A.length - M.length = (i - A.length - M.length - 1) + 1 := by omega
      have e' : i - A.length = (i - A.length - 1) + 1 := by omega
      rw [e, e', List.getElem?_cons_succ, List.getElem?_cons_succ,
        List.getElem?_append_right (by omega)]
      congr 1
      omega

theorem getElem?_bwd {α : Type} (A M C : List α) (x : α) (i : Nat) :
    (A ++ x :: (M ++ C))[i]?
      = (A ++ (M ++ x :: C))[(srcIdx ((A.length + M.length : Nat) : Int) (A.length : Int) (i : Int)).toNat]? := by
  rw [srcIdx_bwd_toNat]
  split_ifs with h1 h2
  · subst h1
    rw [getElem?_cut]
    have e : A ++ (M ++ x :: C) = (A ++ M) ++ x :: C := by simp
    have e3 : A.length + M.length = (A ++ M).length := by simp
    rw [e, e3]
    exact (getElem?_cut _ _ _).symm
  · rw [List.getElem?_append_right (by omega), List.getElem?_append_right (by omega)]
    have e : i - A.length = (i - 1 - A.length) + 1 := by omega
    rw [e, List.getElem?_cons_succ, List.getElem?_append_left (by omega),
      List.getElem?_append_left (by omega)]
  · by_cases h3 : i < A.length
    · rw [List.getElem?_append_left h3, List.getElem?_append_left h3]
    · have h4 : A.length + M.length < i := by omega
      rw [List.getElem?_append_right (by omega), List.getElem?_append_right (by omega),
        List.getElem?_append_right (by omega)]
      have e : i - A.length - M.length = (i - A.length - M.length - 1) + 1 := by omega
      have e' : i - A.length = (i - A.length - 1) + 1 := by omega
      rw [e, e', List.getElem?_cons_succ, List.getElem?_cons_succ,
        List.getElem?_append_right (by omega)]
      congr 1
      omega

theorem insertIdx_cut {α : Type} (L R : List α) (x : α) :
    (L ++ R).insertIdx L.length x = L ++ x :: R := by
  induction L with
  | nil => simp
  | cons a L ih =>
    simp only [List.cons_append, List.length_cons, List.insertIdx_succ_cons, ih]

theorem eraseIdx_cut {α : Type} (L R : List α) (x : α) :
    (L ++ x :: R).eraseIdx L.length = L ++ R := by
  rw [List.eraseIdx_append_of_length_le (Nat.le_refl _), Nat.sub_self]
  rfl

theorem eraseIdx_insertIdx_fwd {α : Type} (A M C : List α) (x : α) :
    ((A ++ x :: (M ++ C)).eraseIdx A.length).insertIdx (A.length + M.length) x
      = A ++ (M ++ x :: C) := by
  rw [eraseIdx_cut]
  have e : A ++ (M ++ C) = (A ++ M) ++ C := by simp
  have e3 : A.length + M.length = (A ++ M).length := by simp
  rw [e, e3, insertIdx_cut]
  simp

theorem eraseIdx_insertIdx_bwd {α : Type} (A M C : List α) (x : α) :
    ((A ++ (M ++ x :: C)).eraseIdx (A.length + M.length)).insertIdx A.length x
      = A ++ x :: (M ++ C) := by
  have e : A ++ (M ++ x :: C) = (A ++ M) ++ x :: C := by simp
  have e3 : A.length + M.length = (A ++ M).length := by simp
  rw [e, e3, eraseIdx_cut, List.append_assoc, insertIdx_cut]

/-- The item part of `move` removes the element at `frm` and re-inserts it
at `dst`. -/
theorem moveItems_eq_insertIdx {α : Type} (xs : List α) (frm dst : Nat) (x : α)
    (hf : frm < xs.length) (hd : dst < xs.length) (hx : xs[frm]? = some x) :
    moveItems xs frm dst = (xs.eraseIdx frm).insertIdx dst x := by
  by_cases h : frm ≤ dst
  · obtain ⟨A, M, C, y, rfl, rfl, rfl⟩ := exists_cut_fwd xs frm dst h hd
    rw [getElem?_cut] at hx
    cases hx
    rw [moveItems_fwd, eraseIdx_insertIdx_fwd]
  · obtain ⟨A, M, C, y, rfl, rfl, rfl⟩ := exists_cut_bwd xs dst frm (by omega) hf
    have hy : (A ++ (M ++ y :: C))[A.length + M.length]? = some y := by
      have e : A ++ (M ++ y :: C) = (A ++ M) ++ y :: C := by simp
      have e3 : A.length + M.length = (A ++ M).length := by simp
      rw [e, e3]
      exact getElem?_cut _ _ _
    rw [hy] at hx
    cases hx
    rw [moveItems_bwd, eraseIdx_insertIdx_bwd]

theorem moveItems_getElem? {α : Type} (xs : List α) (frm dst i : Nat)
    (hf : frm < xs.length) (hd : dst < xs.length) :
    (moveItems xs frm dst)[i]? = xs[(srcIdx (frm : Int) (dst : Int) (i : Int)).toNat]? := by
  by_cases h : frm ≤ dst
  · obtain ⟨A, M, C, y, rfl, rfl, rfl⟩ := exists_cut_fwd xs frm dst h hd
    rw [moveItems_fwd, getElem?_fwd]
  · obtain ⟨A, M, C, y, rfl, rfl, rfl⟩ := exists_cut_bwd xs dst frm (by omega) hf
    rw [moveItems_bwd, getElem?_bwd]

theorem moveItems_length {α : Type} (xs : List α) (frm dst : Nat)
    (hf : frm < xs.length) (hd : dst < xs.length) :
    (moveItems xs frm dst).length = xs.length := by
  by_cases h : frm ≤ dst
  · obtain ⟨A, M, C, y, rfl, rfl, rfl⟩ := exists_cut_fwd xs frm dst h hd
    rw [moveItems_fwd]
    simp only [List.length_append, List.length_cons]
    omega
  · obtain ⟨A, M, C, y, rfl, rfl, rfl⟩ := exists_cut_bwd xs dst frm (by omega) hf
    rw [moveItems_bwd]
    simp only [List.length_append, List.length_cons]
    omega

/-! ## `onChange` and `move` on the state -/

@[simp] theorem onChange_items (s : State) : (onChange s).items = s.items := by
  unfold onChange; dsimp only; split_ifs <;> rfl

@[simp] theorem onChange_selected (s : State) : (onChange s).selected = s.selected := by
  unfold onChange; dsimp only; split_ifs <;> rfl

@[simp] theorem onChange_active (s : State) : (onChange s).active = s.active := by
  unfold onChange; dsimp only; split_ifs <;> rfl

@[simp] theorem onChange_dragging (s : State) : (onChange s).dragging = s.dragging := by
  unfold onChange; dsimp only; split_ifs <;> rfl

@[simp] theorem onChange_dragFrom (s : State) : (onChange s).dragFrom = s.dragFrom := by
  unfold onChange; dsimp only; split_ifs <;> rfl

@[simp] theorem onChange_dragIdx (s : State) : (onChange s).dragIdx = s.dragIdx := by
  unfold onChange; dsimp only; split_ifs <;> rfl

@[simp] theorem onChange_dragDY (s : State) : (onChange s).dragDY = s.dragDY := by
  unfold onChange; dsimp only; split_ifs <;> rfl

@[simp] theorem onChange_notified (s : State) : (onChange s).notified = s.notified + 1 := by
  unfold onChange; dsimp only; split_ifs <;> rfl

/-- The guard of `move` holds: both positions are rows and they differ. -/
def MoveOk (s : State) (frm dst : Int) : Prop :=
  frm ≠ dst ∧ 0 ≤ frm ∧ 0 ≤ dst ∧ frm < (s.items.length : Int) ∧ dst < (s.items.length : Int)

theorem move_of_ok (s : State) (frm dst : Int) (h : MoveOk s frm dst) :
    move s frm dst = onChange { s with
      items := moveItems s.items frm.toNat dst.toNat,
      selected := moveSel s.selected (moveItems s.items frm.toNat dst.toNat).length frm dst } := by
  obtain ⟨h1, h2, h3, h4, h5⟩ := h
  unfold move
  have hg : ¬ (frm = dst ∨ frm < 0 ∨ dst < 0 ∨ frm ≥ (s.items.length : Int)
      ∨ dst ≥ (s.items.length : Int)) := by omega
  rw [if_neg hg]
  rfl

theorem move_of_not_ok (s : State) (frm dst : Int) (h : ¬ MoveOk s frm dst) :
    move s frm dst = s := by
  unfold move
  have hg : (frm = dst ∨ frm < 0 ∨ dst < 0 ∨ frm ≥ (s.items.length : Int)
      ∨ dst ≥ (s.items.length : Int)) := by
    unfold MoveOk at h
    omega
  rw [if_pos hg]

theorem move_items (s : State) (frm dst : Int) (h : MoveOk s frm dst) :
    (move s frm dst).items = moveItems s.items frm.toNat dst.toNat := by
  rw [move_of_ok s frm dst h, onChange_items]

theorem move_items_length (s : State) (frm dst : Int) :
    (move s frm dst).items.length = s.items.length := by
  by_cases h : MoveOk s frm dst
  · rw [move_items s frm dst h]
    obtain ⟨_, h2, h3, h4, h5⟩ := h
    exact moveItems_length _ _ _ (by omega) (by omega)
  · rw [move_of_not_ok s frm dst h]

theorem move_selected (s : State) (frm dst : Int) (h : MoveOk s frm dst) :
    (move s frm dst).selected
      = fillMap (fun i => s.selected.get (srcIdx frm dst i)) s.items.length := by
  rw [move_of_ok s frm dst h, onChange_selected]
  obtain ⟨_, h2, h3, h4, h5⟩ := h
  show moveSel s.selected (moveItems s.items frm.toNat dst.toNat).length frm dst = _
  rw [moveItems_length _ _ _ (by omega) (by omega), moveSel_eq_fillMap]

theorem move_selected_get (s : State) (frm dst : Int) (h : MoveOk s frm dst) (k : Int)
    (hk0 : 0 ≤ k) (hk : k < (s.items.length : Int)) :
    (move s frm dst).selected.get k = s.selected.get (srcIdx frm dst k) := by
  rw [move_selected s frm dst h, fillMap_get, if_pos ⟨hk0, hk⟩]
  have : ((k.toNat : Nat) : Int) = k := Int.toNat_of_nonneg hk0
  simp only [this]

theorem move_items_getElem? (s : State) (frm dst : Int) (h : MoveOk s frm dst) (i : Nat) :
    (move s frm dst).items[i]? = s.items[(srcIdx frm dst (i : Int)).toNat]? := by
  rw [move_items s frm dst h]
  obtain ⟨_, h2, h3, h4, h5⟩ := h
  rw [moveItems_getElem? _ _ _ _ (by omega) (by omega)]
  rw [Int.toNat_of_nonneg h2, Int.toNat_of_nonneg h3]

@[simp] theorem move_active (s : State) (frm dst : Int) : (move s frm dst).active = s.active := by
  unfold move; dsimp only; split_ifs <;> simp

@[simp] theorem move_dragging (s : State) (frm dst : Int) :
    (move s frm dst).dragging = s.dragging := by
  unfold move; dsimp only; split_ifs <;> simp

@[simp] theorem move_dragIdx (s : State) (frm dst : Int) : (move s frm dst).dragIdx = s.dragIdx := by
  unfold move; dsimp only; split_ifs <;> simp

@[simp] theorem move_dragFrom (s : State) (frm dst : Int) :
    (move s frm dst).dragFrom = s.dragFrom := by
  unfold move; dsimp only; split_ifs <;> simp

@[simp] theorem move_dragDY (s : State) (frm dst : Int) : (move s frm dst).dragDY = s.dragDY := by
  unfold move; dsimp only; split_ifs <;> simp

@[simp] theorem move_notified (s : State) (frm dst : Int) (h : MoveOk s frm dst) :
    (move s frm dst).notified = s.notified + 1 := by
  rw [move_of_ok s frm dst h, onChange_notified]

/-- For a move between neighbours the two rows trade places and no other row moves. -/
theorem srcIdx_neighbour (pos d j : Int) (hd : d = 1 ∨ d = -1) :
    srcIdx pos (pos + d) j = if j = pos then pos + d else if j = pos + d then pos else j := by
  unfold srcIdx
  split_ifs <;> omega

/-- Items after a move between two neighbouring rows, position by position. -/
theorem move_neighbour_items (s : State) (pos d : Int) (hd : d = 1 ∨ d = -1)
    (hpos : 0 ≤ pos ∧ pos < (s.items.length : Int))
    (hnb : 0 ≤ pos + d ∧ pos + d < (s.items.length : Int)) (j : Nat) :
    (move s pos (pos + d)).items[j]?
      = s.items[(if (j : Int) = pos then pos + d
          else if (j : Int) = pos + d then pos else (j : Int)).toNat]? := by
  have hok : MoveOk s pos (pos + d) := by
    unfold MoveOk
    omega
  rw [move_items_getElem? s _ _ hok, srcIdx_neighbour pos d j hd]

/-- What `move` does to the items and the checked map depends on these two only. -/
theorem move_congr (s t : State) (a b : Int) (hi : s.items = t.items)
    (hs : s.selected = t.selected) :
    (move s a b).items = (move t a b).items ∧
    (move s a b).selected = (move t a b).selected := by
  by_cases h : MoveOk s a b
  · have h2 : MoveOk t a b := by
      unfold MoveOk at h ⊢
      rw [← hi]
      exact h
    rw [move_of_ok s a b h, move_of_ok t a b h2]
    simp only [onChange_items, onChange_selected, hi, hs]
    exact ⟨trivial, trivial⟩
  · have h2 : ¬ MoveOk t a b := by
      unfold MoveOk at h ⊢
      rw [← hi]
      exact h
    rw [move_of_not_ok s a b h, move_of_not_ok t a b h2]
    exact ⟨hi, hs⟩

/-! ## Checked flags listed by position -/

/-- The checked values of rows `0..n-1`, in row order. -/
def checkedFlags (sel : SelMap) (n : Nat) : List Bool :=
  (List.range n).map (fun (i : Nat) => sel.get (i : Int))

/-- Number of rows among `0..n-1` whose checked value is true. -/
def checkedCount (sel : SelMap) (n : Nat) : Nat :=
  (checkedFlags sel n).count true

theorem checkedFlags_length (sel : SelMap) (n : Nat) : (checkedFlags sel n).length = n := by
  simp [checkedFlags]

theorem checkedFlags_getElem? (sel : SelMap) (n j : Nat) :
    (checkedFlags sel n)[j]? = if j < n then some (sel.get (j : Int)) else none := by
  unfold checkedFlags
  rw [List.getElem?_map]
  by_cases h : j < n
  · rw [List.getElem?_range h, if_pos h]
    rfl
  · rw [if_neg h, List.getElem?_eq_none (by simp; omega)]
    rfl

theorem srcIdx_range (frm dst i n : Int) (hf : 0 ≤ frm ∧ frm < n) (hd : 0 ≤ dst ∧ dst < n)
    (hi : 0 ≤ i ∧ i < n) : 0 ≤ srcIdx frm dst i ∧ srcIdx frm dst i < n := by
  unfold srcIdx
  split_ifs <;> omega

theorem srcIdx_outside (frm dst i n : Int) (hf : 0 ≤ frm ∧ frm < n) (hd : 0 ≤ dst ∧ dst < n)
    (hi : n ≤ i) : srcIdx frm dst i = i := by
  unfold srcIdx
  split_ifs <;> omega

theorem srcIdx_inverse (frm dst j : Int) : srcIdx frm dst (srcIdx dst frm j) = j := by
  unfold srcIdx
  split_ifs <;> omega

theorem srcIdx_injective (frm dst i j : Int) (h : srcIdx frm dst i = srcIdx frm dst j) :
    i = j := by
  unfold srcIdx at h
  split_ifs at h <;> omega

/-- Removing an element and inserting it again only permutes a list. -/
theorem eraseIdx_insertIdx_perm {α : Type} (xs : List α) (a b : Nat) (x : α)
    (hx : xs[a]? = some x) (hb : b < xs.length) :
    List.Perm ((xs.eraseIdx a).insertIdx b x) xs := by
  have ha : a < xs.length := by
    by_contra hcon
    rw [List.getElem?_eq_none (by omega)] at hx
    cases hx
  have hlen : (xs.eraseIdx a).length = xs.length - 1 := List.length_eraseIdx_of_lt ha
  refine (List.perm_insertIdx x _ (by omega)).trans ?_
  obtain ⟨A, M, C, y, rfl, rfl, _⟩ := exists_cut_fwd xs a a (Nat.le_refl _) ha
  rw [getElem?_cut] at hx
  cases hx
  rw [eraseIdx_cut]
  exact List.perm_middle.symm

/-- The checked flags of the rows are shifted by `move` exactly as the items are. -/
theorem move_checkedFlags (s : State) (frm dst : Int) (h : MoveOk s frm dst) :
    checkedFlags (move s frm dst).selected s.items.length
      = moveItems (checkedFlags s.selected s.items.length) frm.toNat dst.toNat := by
  have hok := h
  obtain ⟨_, h2, h3, h4, h5⟩ := h
  apply List.ext_getElem?
  intro i
  rw [moveItems_getElem? _ _ _ _ (by rw [checkedFlags_length]; omega)
    (by rw [checkedFlags_length]; omega)]
  rw [Int.toNat_of_nonneg h2, Int.toNat_of_nonneg h3]
  rw [checkedFlags_getElem?, checkedFlags_getElem?]
  by_cases hi : i < s.items.length
  · have hr := srcIdx_range frm dst (i : Int) (s.items.length : Int) ⟨h2, h4⟩ ⟨h3, h5⟩
      ⟨by omega, by omega⟩
    rw [if_pos hi, if_pos (by omega), Int.toNat_of_nonneg hr.1]
    rw [move_selected_get s frm dst hok (i : Int) (by omega) (by omega)]
  · have ho := srcIdx_outside frm dst (i : Int) (s.items.length : Int) ⟨h2, h4⟩ ⟨h3, h5⟩
      (by omega)
    rw [if_neg hi, ho, Int.toNat_ofNat, if_neg hi]

/-! ## "Remove Selected" -/

/-- Stated from the specification: the items whose position is not checked, in their
original order. -/
def keepUnchecked (sel : SelMap) (items : List String) : List String :=
  (items.enum.filter (fun p => !sel.get (p.1 : Int))).map Prod.snd

theorem keepUnchecked_concat (sel : SelMap) (pre : List String) (x : String) :
    keepUnchecked sel (pre ++ [x])
      = keepUnchecked sel pre ++ (if sel.get (pre.length : Int) then [] else [x]) := by
  unfold keepUnchecked
  rw [List.enum_append, List.filter_append, List.map_append]
  by_cases h : sel.get (pre.length : Int) = true
  · simp [List.enumFrom, h]
  · simp [List.enumFrom, h]

theorem removeLoop_prefix (sel : SelMap) : ∀ (i : Nat) (pre suf : List String),
    pre.length = i → removeLoop sel i (pre ++ suf) = keepUnchecked sel pre ++ suf := by
  intro i
  induction i with
  | zero =>
    intro pre suf h
    have : pre = [] := List.length_eq_zero.mp h
    subst this
    rfl
  | succ i ih =>
    intro pre suf h
    rcases List.eq_nil_or_concat pre with hnil | ⟨pre0, x, hpre⟩
    · subst hnil
      cases h
    · rw [List.concat_eq_append] at hpre
      subst hpre
      have hlen : pre0.length = i := by
        simp only [List.length_append, List.length_cons, List.length_nil] at h
        omega
      have e1 : List.take i (pre0 ++ [x] ++ suf) = pre0 := by
        rw [List.append_assoc]
        exact List.take_left' hlen
      have e2 : List.drop (i + 1) (pre0 ++ [x] ++ suf) = suf :=
        List.drop_left' (by simp [hlen])
      show removeLoop sel i (if sel.get (i : Int) then
          List.take i (pre0 ++ [x] ++ suf) ++ List.drop (i + 1) (pre0 ++ [x] ++ suf)
        else pre0 ++ [x] ++ suf) = _
      rw [e1, e2, keepUnchecked_concat, hlen]
      by_cases hc : sel.get (i : Int) = true
      · rw [if_pos hc, if_pos hc, ih pre0 suf hlen, List.append_nil]
      · rw [if_neg hc, if_neg hc, List.append_assoc, ih pre0 ([x] ++ suf) hlen]
        simp

theorem removeLoop_eq_keepUnchecked (sel : SelMap) (items : List String) :
    removeLoop sel items.length items = keepUnchecked sel items := by
  have h := removeLoop_prefix sel items.length items [] rfl
  simpa using h

/-! ## Following one row through successive neighbour moves -/

theorem srcIdx_self (o i : Int) : srcIdx o o i = i := by
  unfold srcIdx
  split_ifs <;> omega

theorem srcIdx_nonneg (frm dst i : Int) (hf : 0 ≤ frm) (hd : 0 ≤ dst) (hi : 0 ≤ i) :
    0 ≤ srcIdx frm dst i := by
  unfold srcIdx
  split_ifs <;> omega

theorem srcIdx_comp (o j d i : Int) :
    srcIdx o j (srcIdx j (j + d) i) = srcIdx o (j + d) i := by
  unfold srcIdx
  split_ifs <;> omega

theorem moveItems_self {α : Type} (xs : List α) (a : Nat) (ha : a < xs.length) :
    moveItems xs a a = xs := by
  apply List.ext_getElem?
  intro i
  rw [moveItems_getElem? xs a a i ha ha, srcIdx_self, Int.toNat_ofNat]

theorem moveItems_comp {α : Type} (xs : List α) (o j j2 : Nat) (ho : o < xs.length)
    (hj : j < xs.length) (hj2 : j2 < xs.length)
    (hadj : (j2 : Int) = (j : Int) + 1 ∨ (j2 : Int) = (j : Int) + -1) :
    moveItems (moveItems xs o j) j j2 = moveItems xs o j2 := by
  have hlen := moveItems_length xs o j ho hj
  apply List.ext_getElem?
  intro i
  rw [moveItems_getElem? _ j j2 i (by omega) (by omega), moveItems_getElem? xs o j _ ho hj,
    moveItems_getElem? xs o j2 i ho hj2]
  have hnn : 0 ≤ srcIdx (j : Int) (j2 : Int) (i : Int) :=
    srcIdx_nonneg _ _ _ (by omega) (by omega) (by omega)
  rw [Int.toNat_of_nonneg hnn]
  rcases hadj with h | h
  · rw [h, srcIdx_comp o j 1 i]
  · rw [h, srcIdx_comp o j (-1) i]

/-- The items and checked values of a list in which row `o` of `s0` has been carried
to position `j`, every row in between shifted by one. -/
def Tracks (s0 : State) (o j : Int) (items : List String) (sel : SelMap) : Prop :=
  items = moveItems s0.items o.toNat j.toNat ∧
  (∀ i : Int, 0 ≤ i → i < (s0.items.length : Int) →
    sel.get i = s0.selected.get (srcIdx o j i)) ∧
  (∀ i : Int, ¬ (0 ≤ i ∧ i < (s0.items.length : Int)) → sel.get i = true →
    s0.selected.get i = true)

theorem tracks_init (s0 : State) (o : Int) (ho : 0 ≤ o ∧ o < (s0.items.length : Int)) :
    Tracks s0 o o s0.items s0.selected := by
  refine ⟨(moveItems_self _ _ (by omega)).symm, ?_, fun i _ h => h⟩
  intro i _ _
  rw [srcIdx_self]

theorem tracks_length (s0 : State) (o j : Int) (items : List String) (sel : SelMap)
    (ho : 0 ≤ o ∧ o < (s0.items.length : Int)) (hj : 0 ≤ j ∧ j < (s0.items.length : Int))
    (h : Tracks s0 o j items sel) : items.length = s0.items.length := by
  rw [h.1]
  exact moveItems_length _ _ _ (by omega) (by omega)

theorem tracks_step (s0 t : State) (o j d : Int) (hd : d = 1 ∨ d = -1)
    (ho : 0 ≤ o ∧ o < (s0.items.length : Int)) (hj : 0 ≤ j ∧ j < (s0.items.length : Int))
    (hjd : 0 ≤ j + d ∧ j + d < (s0.items.length : Int))
    (h : Tracks s0 o j t.items t.selected) :
    Tracks s0 o (j + d) (move t j (j + d)).items (move t j (j + d)).selected := by
  have hlen := tracks_length s0 o j _ _ ho hj h
  have hok : MoveOk t j (j + d) := by
    unfold MoveOk
    rw [hlen]
    omega
  refine ⟨?_, ?_, ?_⟩
  · rw [move_items t j (j + d) hok, h.1]
    apply moveItems_comp
    · omega
    · omega
    · omega
    · rw [Int.toNat_of_nonneg hj.1, Int.toNat_of_nonneg hjd.1]
      rcases hd with h1 | h1
      · left; rw [h1]
      · right; rw [h1]
  · intro i hi0 hi1
    rw [move_selected_get t j (j + d) hok i hi0 (by rw [hlen]; exact hi1)]
    have hr := srcIdx_range j (j + d) i (s0.items.length : Int) hj hjd ⟨hi0, hi1⟩
    rw [h.2.1 _ hr.1 hr.2, srcIdx_comp o j d i]
  · intro i hi hget
    rw [move_selected t j (j + d) hok, fillMap_get, hlen, if_neg hi] at hget
    cases hget

theorem tracks_move (s0 : State) (o j : Int) (ho : 0 ≤ o ∧ o < (s0.items.length : Int))
    (hj : 0 ≤ j ∧ j < (s0.items.length : Int)) :
    Tracks s0 o j (move s0 o j).items (move s0 o j).selected := by
  by_cases hoj : o = j
  · subst hoj
    rw [move_of_not_ok s0 o o (fun h => h.1 rfl)]
    exact tracks_init s0 o ho
  · have hok : MoveOk s0 o j := ⟨hoj, ho.1, hj.1, ho.2, hj.2⟩
    refine ⟨move_items s0 o j hok, ?_, ?_⟩
    · intro i hi0 hi1
      exact move_selected_get s0 o j hok i hi0 hi1
    · intro i hi hget
      rw [move_selected s0 o j hok, fillMap_get, if_neg hi] at hget
      cases hget

/-- Two lists and maps that both track row `o` at position `j` agree on the items and on
the checked value of every row; they agree on every key when the original map has no
true key outside the rows. -/
theorem tracks_agree (s0 : State) (o j : Int) (items1 items2 : List String)
    (sel1 sel2 : SelMap) (h1 : Tracks s0 o j items1 sel1) (h2 : Tracks s0 o j items2 sel2) :
    items1 = items2 ∧
    (∀ i : Int, 0 ≤ i → i < (s0.items.length : Int) → sel1.get i = sel2.get i) ∧
    ((∀ k : Int, s0.selected.get k = true → 0 ≤ k ∧ k < (s0.items.length : Int)) →
      ∀ i : Int, sel1.get i = sel2.get i) := by
  refine ⟨h1.1.trans h2.1.symm, ?_, ?_⟩
  · intro i hi0 hi1
    rw [h1.2.1 i hi0 hi1, h2.2.1 i hi0 hi1]
  · intro hkeys i
    by_cases hi : 0 ≤ i ∧ i < (s0.items.length : Int)
    · rw [h1.2.1 i hi.1 hi.2, h2.2.1 i hi.1 hi.2]
    · have f1 : sel1.get i = false := by
        cases hg : sel1.get i
        · rfl
        · exact absurd (hkeys i (h1.2.2 i hi hg)) hi
      have f2 : sel2.get i = false := by
        cases hg : sel2.get i
        · rfl
        · exact absurd (hkeys i (h2.2.2 i hi hg)) hi
      rw [f1, f2]

/-! ## Replaying a displacement by neighbour moves -/

/-- Stated from the specification: `k` successive neighbour moves, each in direction `d`, of the
row that starts at `pos`. -/
def neighbourMoves (d : Int) : Nat → State → Int → State
  | 0, s, _ => s
  | k + 1, s, pos => neighbourMoves d k (move s pos (pos + d)) (pos + d)

/-- Stated from the specification: the net displacement `disp` of row `origin` replayed as
`|disp|` successive neighbour moves. -/
def replayDisplacement (s : State) (origin disp : Int) : State :=
  neighbourMoves (Int.sign disp) disp.natAbs s origin

theorem neighbourMoves_tracks (s0 : State) (o d : Int) (hd : d = 1 ∨ d = -1)
    (ho : 0 ≤ o ∧ o < (s0.items.length : Int)) :
    ∀ (k : Nat) (t : State) (pos : Int),
      0 ≤ pos ∧ pos < (s0.items.length : Int) →
      0 ≤ pos + k * d ∧ pos + k * d < (s0.items.length : Int) →
      Tracks s0 o pos t.items t.selected →
      Tracks s0 o (pos + k * d) (neighbourMoves d k t pos).items
        (neighbourMoves d k t pos).selected := by
  intro k
  induction k with
  | zero =>
    intro t pos _ _ h
    simpa [neighbourMoves] using h
  | succ k ih =>
    intro t pos hpos hend h
    have hmid : 0 ≤ pos + d ∧ pos + d < (s0.items.length : Int) := by
      rcases hd with h1 | h1 <;> subst h1 <;> push_cast at hend <;> omega
    have hstep := tracks_step s0 t o pos d hd ho hpos hmid h
    have e : pos + ((k + 1 : Nat) : Int) * d = pos + d + (k : Int) * d := by
      push_cast
      ring
    rw [e]
    exact ih (move t pos (pos + d)) (pos + d) hmid (by rw [← e]; exact hend) hstep

theorem replayDisplacement_tracks (s0 : State) (o j : Int)
    (ho : 0 ≤ o ∧ o < (s0.items.length : Int)) (hj : 0 ≤ j ∧ j < (s0.items.length : Int)) :
    Tracks s0 o j (replayDisplacement s0 o (j - o)).items
      (replayDisplacement s0 o (j - o)).selected := by
  unfold replayDisplacement
  rcases lt_trichotomy (j - o) 0 with hlt | heq | hgt
  · have hs : Int.sign (j - o) = -1 := Int.sign_eq_neg_one_of_neg hlt
    have hk : o + ((j - o).natAbs : Int) * (-1) = j := by omega
    rw [hs]
    have := neighbourMoves_tracks s0 o (-1) (Or.inr rfl) ho (j - o).natAbs s0 o ho
      (by rw [hk]; exact hj) (tracks_init s0 o ho)
    rw [hk] at this
    exact this
  · have hjo : j = o := by omega
    subst hjo
    simp only [sub_self, Int.natAbs_zero, neighbourMoves]
    exact tracks_init s0 j ho
  · have hs : Int.sign (j - o) = 1 := Int.sign_eq_one_of_pos hgt
    have hk : o + ((j - o).natAbs : Int) * 1 = j := by omega
    rw [hs]
    have := neighbourMoves_tracks s0 o 1 (Or.inl rfl) ho (j - o).natAbs s0 o ho
      (by rw [hk]; exact hj) (tracks_init s0 o ho)
    rw [hk] at this
    exact this

/-! ## Comparisons of `float32` values -/

theorem F32.lt_asymm {x y : F32} (h : x < y) : ¬ y < x := by
  change F32.lt x y = true at h
  change ¬ F32.lt y x = true
  cases x with
  | nan => simp [F32.lt] at h
  | inf a =>
    cases y with
    | nan => simp [F32.lt] at h
    | inf b => cases a <;> cases b <;> simp [F32.lt] at h ⊢
    | fin q =>
      simp only [F32.lt] at h ⊢
      simp [h]
  | fin p =>
    cases y with
    | nan => simp [F32.lt] at h
    | inf b =>
      simp only [F32.lt] at h ⊢
      cases b <;> simp at h ⊢
    | fin q =>
      simp only [F32.lt, decide_eq_true_eq] at h ⊢
      exact not_lt.mpr (le_of_lt h)

theorem F32.lt_irrefl (x : F32) : ¬ x < x := fun h => F32.lt_asymm h h

/-! ## The two loops of `onDragDelta` -/

/-- State after one committed swap in direction `d` against a row of height `h`. -/
def swapStep (s : State) (d : Int) (h : F32) : State :=
  { move s s.dragIdx (s.dragIdx + d) with
    dragDY := if d = 1 then s.dragDY - h else s.dragDY + h, dragIdx := s.dragIdx + d }

theorem move_with_dragDY (s : State) (x : F32) (a b : Int) :
    move { s with dragDY := x } a b = { move s a b with dragDY := x } := by
  unfold move onChange
  dsimp only [rebuild]
  split_ifs <;> rfl

theorem dragDown_exit (rowH : HeightLookup) (k : Nat) (s : State)
    (h : ¬ (s.dragDY > 0 ∧ s.dragIdx < (s.items.length : Int) - 1)) :
    dragDown rowH (k + 1) s = .ok s := by
  rw [dragDown, if_neg h]

theorem dragDown_hold (rowH : HeightLookup) (k : Nat) (s : State)
    (h : s.dragDY > 0 ∧ s.dragIdx < (s.items.length : Int) - 1) (h0 : -1 ≤ s.dragIdx)
    (hlt : s.dragDY < (rowH s.items (s.dragIdx + 1).toNat).half) :
    dragDown rowH (k + 1) s = .ok s := by
  have hr : 0 ≤ s.dragIdx + 1 ∧ s.dragIdx + 1 < (s.items.length : Int) := by omega
  rw [dragDown, if_pos h]
  simp only [rowHeight, if_pos hr, if_pos hlt]

theorem dragDown_swap (rowH : HeightLookup) (k : Nat) (s : State)
    (h : s.dragDY > 0 ∧ s.dragIdx < (s.items.length : Int) - 1) (h0 : -1 ≤ s.dragIdx)
    (hge : ¬ s.dragDY < (rowH s.items (s.dragIdx + 1).toNat).half) :
    dragDown rowH (k + 1) s
      = dragDown rowH k (swapStep s 1 (rowH s.items (s.dragIdx + 1).toNat)) := by
  have hr : 0 ≤ s.dragIdx + 1 ∧ s.dragIdx + 1 < (s.items.length : Int) := by omega
  rw [dragDown, if_pos h]
  simp only [rowHeight, if_pos hr, if_neg hge, refreshRowStyles, move_with_dragDY, swapStep]
  congr 1
  apply State.ext <;> simp [sub_eq_add_neg]

theorem dragUp_exit (rowH : HeightLookup) (k : Nat) (s : State)
    (h : ¬ (s.dragDY < 0 ∧ s.dragIdx > 0)) :
    dragUp rowH (k + 1) s = .ok s := by
  rw [dragUp, if_neg h]

theorem dragUp_hold (rowH : HeightLookup) (k : Nat) (s : State)
    (h : s.dragDY < 0 ∧ s.dragIdx > 0) (h1 : s.dragIdx ≤ (s.items.length : Int))
    (hlt : -s.dragDY < (rowH s.items (s.dragIdx - 1).toNat).half) :
    dragUp rowH (k + 1) s = .ok s := by
  have hr : 0 ≤ s.dragIdx - 1 ∧ s.dragIdx - 1 < (s.items.length : Int) := by omega
  rw [dragUp, if_pos h]
  simp only [rowHeight, if_pos hr, if_pos hlt]

theorem dragUp_swap (rowH : HeightLookup) (k : Nat) (s : State)
    (h : s.dragDY < 0 ∧ s.dragIdx > 0) (h1 : s.dragIdx ≤ (s.items.length : Int))
    (hge : ¬ -s.dragDY < (rowH s.items (s.dragIdx - 1).toNat).half) :
    dragUp rowH (k + 1) s
      = dragUp rowH k (swapStep s (-1) (rowH s.items (s.dragIdx - 1).toNat)) := by
  have hr : 0 ≤ s.dragIdx - 1 ∧ s.dragIdx - 1 < (s.items.length : Int) := by omega
  rw [dragUp, if_pos h]
  simp only [rowHeight, if_pos hr, if_neg hge, refreshRowStyles, move_with_dragDY, swapStep]
  congr 1
  apply State.ext <;> simp [sub_eq_add_neg]

@[simp] theorem swapStep_dragIdx (s : State) (d : Int) (h : F32) :
    (swapStep s d h).dragIdx = s.dragIdx + d := rfl

@[simp] theorem swapStep_dragDY_down (s : State) (h : F32) :
    (swapStep s 1 h).dragDY = s.dragDY - h := rfl

@[simp] theorem swapStep_dragDY_up (s : State) (h : F32) :
    (swapStep s (-1) h).dragDY = s.dragDY + h := rfl

@[simp] theorem swapStep_items (s : State) (d : Int) (h : F32) :
    (swapStep s d h).items = (move s s.dragIdx (s.dragIdx + d)).items := rfl

@[simp] theorem swapStep_selected (s : State) (d : Int) (h : F32) :
    (swapStep s d h).selected = (move s s.dragIdx (s.dragIdx + d)).selected := rfl

@[simp] theorem swapStep_active (s : State) (d : Int) (h : F32) :
    (swapStep s d h).active = s.active := by
  simp [swapStep]

@[simp] theorem swapStep_dragging (s : State) (d : Int) (h : F32) :
    (swapStep s d h).dragging = s.dragging := by
  simp [swapStep]

/-- An invariant that bounds the drag position by the rows is kept by the downward
loop, and the loop ends normally within the fuel that `onDragDelta` supplies. -/
theorem dragDown_run (rowH : HeightLookup) (n : Nat) (P : State → Prop)
    (hP : ∀ s, P s → s.items.length = n ∧ 0 ≤ s.dragIdx ∧ s.dragIdx < (n : Int))
    (hstep : ∀ s h, P s → s.dragDY > 0 → s.dragIdx < (n : Int) - 1 →
      ¬ s.dragDY < h.half → h = rowH s.items (s.dragIdx + 1).toNat → P (swapStep s 1 h)) :
    ∀ (k : Nat) (s : State), P s → ((n : Int) - 1 - s.dragIdx).toNat < k →
      ∃ s', dragDown rowH k s = .ok s' ∧ P s' := by
  intro k
  induction k with
  | zero => intro s _ hk; omega
  | succ k ih =>
    intro s hs hk
    obtain ⟨hlen, hlo, hhi⟩ := hP s hs
    by_cases hc : s.dragDY > 0 ∧ s.dragIdx < (s.items.length : Int) - 1
    · by_cases hlt : s.dragDY < (rowH s.items (s.dragIdx + 1).toNat).half
      · exact ⟨s, dragDown_hold rowH k s hc (by omega) hlt, hs⟩
      · rw [dragDown_swap rowH k s hc (by omega) hlt]
        have hc2 : s.dragIdx < (n : Int) - 1 := by rw [← hlen]; exact hc.2
        apply ih
        · exact hstep s _ hs hc.1 hc2 hlt rfl
        · rw [swapStep_dragIdx]
          omega
    · exact ⟨s, dragDown_exit rowH k s hc, hs⟩

/-- The same for the upward loop. -/
theorem dragUp_run (rowH : HeightLookup) (n : Nat) (P : State → Prop)
    (hP : ∀ s, P s → s.items.length = n ∧ 0 ≤ s.dragIdx ∧ s.dragIdx < (n : Int))
    (hstep : ∀ s h, P s → s.dragDY < 0 → s.dragIdx > 0 →
      ¬ -s.dragDY < h.half → h = rowH s.items (s.dragIdx - 1).toNat → P (swapStep s (-1) h)) :
    ∀ (k : Nat) (s : State), P s → s.dragIdx.toNat < k →
      ∃ s', dragUp rowH k s = .ok s' ∧ P s' := by
  intro k
  induction k with
  | zero => intro s _ hk; omega
  | succ k ih =>
    intro s hs hk
    obtain ⟨hlen, hlo, hhi⟩ := hP s hs
    by_cases hc : s.dragDY < 0 ∧ s.dragIdx > 0
    · by_cases hlt : -s.dragDY < (rowH s.items (s.dragIdx - 1).toNat).half
      · exact ⟨s, dragUp_hold rowH k s hc (by omega) hlt, hs⟩
      · rw [dragUp_swap rowH k s hc (by omega) hlt]
        apply ih
        · exact hstep s _ hs hc.1 hc.2 hlt rfl
        · rw [swapStep_dragIdx]
          omega
    · exact ⟨s, dragUp_exit rowH k s hc, hs⟩

/-- An invariant kept by adding to the accumulator and by every committed swap is kept
by `onDragDelta`, which then returns normally. -/
theorem onDragDelta_run (rowH : HeightLookup) (n : Nat) (P : State → Prop)
    (hP : ∀ s, P s → s.items.length = n ∧ 0 ≤ s.dragIdx ∧ s.dragIdx < (n : Int))
    (hacc : ∀ s x, P s → P { s with dragDY := s.dragDY + x })
    (hdown : ∀ s h, P s → s.dragDY > 0 → s.dragIdx < (n : Int) - 1 →
      ¬ s.dragDY < h.half → h = rowH s.items (s.dragIdx + 1).toNat → P (swapStep s 1 h))
    (hup : ∀ s h, P s → s.dragDY < 0 → s.dragIdx > 0 →
      ¬ -s.dragDY < h.half → h = rowH s.items (s.dragIdx - 1).toNat → P (swapStep s (-1) h))
    (s : State) (deltaY : F32) (hs : P s) :
    ∃ s', onDragDelta rowH s deltaY = .ok s' ∧ P s' := by
  unfold onDragDelta
  by_cases hd : (!s.dragging) = true
  · exact ⟨s, by rw [if_pos hd], hs⟩
  · have h1 := hacc s deltaY hs
    obtain ⟨hlen, hlo, hhi⟩ := hP _ h1
    obtain ⟨s2, e2, h2⟩ := dragDown_run rowH n P hP hdown (dragFuel { s with dragDY := s.dragDY + deltaY })
      _ h1 (by unfold dragFuel; omega)
    obtain ⟨hlen2, hlo2, hhi2⟩ := hP _ h2
    obtain ⟨s3, e3, h3⟩ := dragUp_run rowH n P hP hup (dragFuel s2) s2 h2
      (by unfold dragFuel; omega)
    refine ⟨s3, ?_, h3⟩
    rw [if_neg hd]
    dsimp only
    rw [e2]
    exact e3

/-! ## The loop fuel is never used up -/

theorem dragDown_fuel_ok (rowH : HeightLookup) : ∀ (k : Nat) (s : State),
    (s.dragIdx < -1 ∧ 0 < k) ∨ ((s.items.length : Int) - 1 - s.dragIdx).toNat < k →
    dragDown rowH k s ≠ .error .fuel := by
  intro k
  induction k with
  | zero => intro s h; omega
  | succ k ih =>
    intro s h
    rw [dragDown]
    split_ifs with hc
    · by_cases hr : 0 ≤ s.dragIdx + 1 ∧ s.dragIdx + 1 < (s.items.length : Int)
      · simp only [rowHeight, if_pos hr]
        split_ifs with hlt
        · exact fun hcon => by cases hcon
        · apply ih
          right
          simp only [refreshRowStyles, move_items_length, move_dragIdx]
          omega
      · simp only [rowHeight, if_neg hr]
        exact fun hcon => by cases hcon
    · exact fun hcon => by cases hcon

theorem dragUp_fuel_ok (rowH : HeightLookup) : ∀ (k : Nat) (s : State),
    ((s.items.length : Int) < s.dragIdx ∧ 0 < k) ∨ s.dragIdx.toNat < k →
    dragUp rowH k s ≠ .error .fuel := by
  intro k
  induction k with
  | zero => intro s h; omega
  | succ k ih =>
    intro s h
    rw [dragUp]
    split_ifs with hc
    · by_cases hr : 0 ≤ s.dragIdx - 1 ∧ s.dragIdx - 1 < (s.items.length : Int)
      · simp only [rowHeight, if_pos hr]
        split_ifs with hlt
        · exact fun hcon => by cases hcon
        · apply ih
          right
          simp only [refreshRowStyles, move_items_length, move_dragIdx]
          omega
      · simp only [rowHeight, if_neg hr]
        exact fun hcon => by cases hcon
    · exact fun hcon => by cases hcon

/-- In every state `onDragDelta` either returns or panics on a row lookup: the fuel of
the model never runs out. -/
theorem onDragDelta_fuel_ok (rowH : HeightLookup) (s : State) (deltaY : F32) :
    onDragDelta rowH s deltaY ≠ .error .fuel := by
  unfold onDragDelta
  split_ifs with hd
  · exact fun hcon => by cases hcon
  · dsimp only
    cases h2 : dragDown rowH (dragFuel { s with dragDY := s.dragDY + deltaY })
        { s with dragDY := s.dragDY + deltaY } with
    | error e =>
      intro hcon
      cases hcon
      refine dragDown_fuel_ok rowH _ _ ?_ h2
      unfold dragFuel
      dsimp only
      omega
    | ok s2 =>
      dsimp only
      apply dragUp_fuel_ok
      unfold dragFuel
      omega

/-! ## A whole drag gesture -/

/-- The `onDragDelta` calls of one gesture, one per delta, in order; a panic ends the
run. -/
def dragAll (rowH : HeightLookup) : State → List F32 → Except Err State
  | s, [] => .ok s
  | s, d :: ds =>
    match onDragDelta rowH s d with
    | .error e => .error e
    | .ok s1 => dragAll rowH s1 ds

/-- While a gesture that grabbed row `o` of `s0` is in progress, the drag position is a
row and the list is `s0` with row `o` carried to the drag position. -/
def DragInv (s0 : State) (o : Int) (u : State) : Prop :=
  u.dragging = true ∧ u.items.length = s0.items.length ∧
  (0 ≤ u.dragIdx ∧ u.dragIdx < (s0.items.length : Int)) ∧
  Tracks s0 o u.dragIdx u.items u.selected

theorem dragInv_swapStep (s0 : State) (o : Int) (ho : 0 ≤ o ∧ o < (s0.items.length : Int))
    (u : State) (d : Int) (h : F32) (hd : d = 1 ∨ d = -1) (hu : DragInv s0 o u)
    (hnew : 0 ≤ u.dragIdx + d ∧ u.dragIdx + d < (s0.items.length : Int)) :
    DragInv s0 o (swapStep u d h) := by
  obtain ⟨h1, h2, h3, h4⟩ := hu
  refine ⟨?_, ?_, ?_, ?_⟩
  · rw [swapStep_dragging]; exact h1
  · rw [swapStep_items, move_items_length]; exact h2
  · rw [swapStep_dragIdx]; exact hnew
  · rw [swapStep_dragIdx, swapStep_items, swapStep_selected]
    exact tracks_step s0 u o u.dragIdx d hd ho h3 hnew h4

theorem onDragDelta_dragInv (rowH : HeightLookup) (s0 : State) (o : Int)
    (ho : 0 ≤ o ∧ o < (s0.items.length : Int)) (u : State) (deltaY : F32)
    (hu : DragInv s0 o u) :
    ∃ u', onDragDelta rowH u deltaY = .ok u' ∧ DragInv s0 o u' := by
  apply onDragDelta_run rowH s0.items.length (DragInv s0 o)
  · intro s hs
    exact ⟨hs.2.1, hs.2.2.1.1, hs.2.2.1.2⟩
  · intro s x hs
    exact hs
  · intro s h hs _ hlt _ _
    exact dragInv_swapStep s0 o ho s 1 h (Or.inl rfl) hs (by have := hs.2.2.1; omega)
  · intro s h hs _ hgt _ _
    exact dragInv_swapStep s0 o ho s (-1) h (Or.inr rfl) hs (by have := hs.2.2.1; omega)
  · exact hu

theorem dragAll_dragInv (rowH : HeightLookup) (s0 : State) (o : Int)
    (ho : 0 ≤ o ∧ o < (s0.items.length : Int)) :
    ∀ (ds : List F32) (u : State), DragInv s0 o u →
      ∃ sf, dragAll rowH u ds = .ok sf ∧ DragInv s0 o sf := by
  intro ds
  induction ds with
  | nil => intro u hu; exact ⟨u, rfl, hu⟩
  | cons d ds ih =>
    intro u hu
    obtain ⟨u1, e1, h1⟩ := onDragDelta_dragInv rowH s0 o ho u d hu
    obtain ⟨sf, e2, h2⟩ := ih u1 h1
    refine ⟨sf, ?_, h2⟩
    rw [dragAll, e1]
    exact e2

/-! ## Sequences of user actions -/

/-- The actions a user can take on a tab that owns a `SortableList`. -/
inductive Op where
  | click (index : Int) (additive : Bool)
  | check (index : Int) (v : Bool)
  | move (frm dst : Int)
  | removeAt (index : Int)
  | beginDrag (index : Int)
  | dragDelta (deltaY : F32)
  | endDrag
  | add (paths : List String)
  | clear
  | removeSelected
  | moveUp
  | moveDown

/-- An action that names a row widget can only come from a row that exists. -/
def Op.enabled (s : State) : Op → Prop
  | .click index _ => 0 ≤ index ∧ index < (s.items.length : Int)
  | .check index _ => 0 ≤ index ∧ index < (s.items.length : Int)
  | .beginDrag index => 0 ≤ index ∧ index < (s.items.length : Int)
  | _ => True

/-- Effect of one action. -/
def Op.run (tab : Tab) (rowH : HeightLookup) (s : State) : Op → Except Err State
  | .click index additive => .ok (onRowClick s index additive)
  | .check index v => .ok (checkChanged s index v)
  | .move frm dst => .ok (PdfToolbox.move s frm dst)
  | .removeAt index => .ok (PdfToolbox.removeAt s index)
  | .beginDrag index => .ok (PdfToolbox.beginDrag s index)
  | .dragDelta deltaY => onDragDelta rowH s deltaY
  | .endDrag => .ok (PdfToolbox.endDrag s)
  | .add paths => .ok (addFiles s paths)
  | .clear => .ok (clearList tab s)
  | .removeSelected => .ok (PdfToolbox.removeSelected s)
  | .moveUp => .ok (PdfToolbox.moveUp s)
  | .moveDown => .ok (PdfToolbox.moveDown s)

/-- States reached from a fresh `NewSortableList` by actions taken from `allowed`. -/
inductive Reachable (tab : Tab) (rowH : HeightLookup) (allowed : Op → Prop) : State → Prop
  | init (items : List String) (selected : SelMap) :
      Reachable tab rowH allowed (NewSortableList items selected)
  | step (s s1 : State) (op : Op) :
      Reachable tab rowH allowed s → allowed op → op.enabled s →
      op.run tab rowH s = .ok s1 → Reachable tab rowH allowed s1

/-- Row clicks, `move`, `removeAt`, the drag operations and the add, clear and
remove-selected handlers. -/
def listOps : Op → Prop
  | .click _ _ => True
  | .move _ _ => True
  | .removeAt _ => True
  | .beginDrag _ => True
  | .dragDelta _ => True
  | .endDrag => True
  | .add _ => True
  | .clear => True
  | .removeSelected => True
  | _ => False

/-- The actions of `listOps` that never take a row away. -/
def keepingOps : Op → Prop
  | .click _ _ => True
  | .move _ _ => True
  | .beginDrag _ => True
  | .dragDelta _ => True
  | .endDrag => True
  | .add _ => True
  | _ => False

theorem dragDown_frame (rowH : HeightLookup) : ∀ (k : Nat) (s s1 : State),
    dragDown rowH k s = .ok s1 →
    s1.active = s.active ∧ s1.items.length = s.items.length := by
  intro k
  induction k with
  | zero => intro s s1 h; cases h
  | succ k ih =>
    intro s s1 h
    rw [dragDown] at h
    split_ifs at h with hc
    · cases hr : rowHeight rowH s (s.dragIdx + 1) with
      | error e => rw [hr] at h; cases h
      | ok nextH =>
        rw [hr] at h
        dsimp only at h
        split_ifs at h with hlt
        · cases h; exact ⟨rfl, rfl⟩
        · obtain ⟨h1, h2⟩ := ih _ _ h
          simp only [refreshRowStyles, move_active, move_items_length] at h1 h2
          exact ⟨h1, h2⟩
    · cases h; exact ⟨rfl, rfl⟩

theorem dragUp_frame (rowH : HeightLookup) : ∀ (k : Nat) (s s1 : State),
    dragUp rowH k s = .ok s1 →
    s1.active = s.active ∧ s1.items.length = s.items.length := by
  intro k
  induction k with
  | zero => intro s s1 h; cases h
  | succ k ih =>
    intro s s1 h
    rw [dragUp] at h
    split_ifs at h with hc
    · cases hr : rowHeight rowH s (s.dragIdx - 1) with
      | error e => rw [hr] at h; cases h
      | ok prevH =>
        rw [hr] at h
        dsimp only at h
        split_ifs at h with hlt
        · cases h; exact ⟨rfl, rfl⟩
        · obtain ⟨h1, h2⟩ := ih _ _ h
          simp only [refreshRowStyles, move_active, move_items_length] at h1 h2
          exact ⟨h1, h2⟩
    · cases h; exact ⟨rfl, rfl⟩

/-- `onDragDelta` never changes the active index or the number of items. -/
theorem onDragDelta_frame (rowH : HeightLookup) (s s1 : State) (deltaY : F32)
    (h : onDragDelta rowH s deltaY = .ok s1) :
    s1.active = s.active ∧ s1.items.length = s.items.length := by
  unfold onDragDelta at h
  split_ifs at h with hd
  · cases h; exact ⟨rfl, rfl⟩
  · dsimp only at h
    cases h2 : dragDown rowH (dragFuel { s with dragDY := s.dragDY + deltaY })
        { s with dragDY := s.dragDY + deltaY } with
    | error e => rw [h2] at h; cases h
    | ok s2 =>
      rw [h2] at h
      obtain ⟨a1, a2⟩ := dragDown_frame rowH _ _ _ h2
      obtain ⟨b1, b2⟩ := dragUp_frame rowH _ _ _ h
      exact ⟨b1.trans a1, b2.trans a2⟩

/-! ## Uniform row heights -/

/-- Every row has the same rendered height `h`. -/
def uniformH (h : F32) : HeightLookup := fun _ _ => h

/-- The offset `a` after `k` subtractions of `h`, each rounded to `float32`. -/
def subRows (a h : F32) : Nat → F32
  | 0 => a
  | k + 1 => subRows a h k - h

/-- The offset `a` after `k` additions of `h`, each rounded to `float32`. -/
def addRows (a h : F32) : Nat → F32
  | 0 => a
  | k + 1 => addRows a h k + h

/-- A call whose accumulated offset stays strictly between `0` and half a row only
stores the offset. -/
theorem onDragDelta_below_half (h : F32) (t : State) (deltaY : F32)
    (hdrag : t.dragging = true) (hidx : 0 ≤ t.dragIdx ∧ t.dragIdx < (t.items.length : Int))
    (ha0 : 0 < t.dragDY + deltaY) (ha1 : t.dragDY + deltaY < h.half) :
    onDragDelta (uniformH h) t deltaY = .ok { t with dragDY := t.dragDY + deltaY } := by
  unfold onDragDelta
  have hd : ¬ ((!t.dragging) = true) := by simp [hdrag]
  rw [if_neg hd]
  dsimp only
  have e1 : dragDown (uniformH h) (dragFuel { t with dragDY := t.dragDY + deltaY })
      { t with dragDY := t.dragDY + deltaY } = .ok { t with dragDY := t.dragDY + deltaY } := by
    by_cases hc : t.dragIdx < (t.items.length : Int) - 1
    · exact dragDown_hold _ _ _ ⟨ha0, hc⟩ (by show -1 ≤ t.dragIdx; omega) ha1
    · exact dragDown_exit _ _ _ (fun hcon => hc hcon.2)
  rw [e1]
  exact dragUp_exit _ _ _ (fun hcon => F32.lt_asymm ha0 hcon.1)

theorem loops_one_swap_down (h : F32) (u : State)
    (hidx : 0 ≤ u.dragIdx ∧ u.dragIdx < (u.items.length : Int) - 1)
    (hpos : 0 < u.dragDY) (hswap : ¬ u.dragDY < h.half)
    (hlow : u.dragDY - h < h.half) (hhigh : -(u.dragDY - h) < h.half) :
    dragDown (uniformH h) (dragFuel u) u = .ok (swapStep u 1 h) ∧
    dragUp (uniformH h) (dragFuel (swapStep u 1 h)) (swapStep u 1 h)
      = .ok (swapStep u 1 h) := by
  have hlen : (swapStep u 1 h).items.length = u.items.length := by
    rw [swapStep_items]
    exact move_items_length _ _ _
  have hdy : (swapStep u 1 h).dragDY = u.dragDY - h := rfl
  constructor
  · show dragDown (uniformH h) (u.items.length + 1 + 1) u = _
    rw [dragDown_swap (uniformH h) (u.items.length + 1) u ⟨hpos, hidx.2⟩ (by omega) hswap]
    show dragDown (uniformH h) (u.items.length + 1) (swapStep u 1 h) = _
    by_cases hc : (swapStep u 1 h).dragDY > 0 ∧
        (swapStep u 1 h).dragIdx < ((swapStep u 1 h).items.length : Int) - 1
    · refine dragDown_hold (uniformH h) u.items.length (swapStep u 1 h) hc ?_ ?_
      · rw [swapStep_dragIdx]
        omega
      · rw [hdy]
        exact hlow
    · exact dragDown_exit (uniformH h) u.items.length (swapStep u 1 h) hc
  · show dragUp (uniformH h) ((swapStep u 1 h).items.length + 1 + 1) (swapStep u 1 h) = _
    by_cases hc : (swapStep u 1 h).dragDY < 0 ∧ (swapStep u 1 h).dragIdx > 0
    · refine dragUp_hold (uniformH h) _ (swapStep u 1 h) hc ?_ ?_
      · rw [swapStep_dragIdx, hlen]
        omega
      · rw [hdy]
        exact hhigh
    · exact dragUp_exit (uniformH h) _ (swapStep u 1 h) hc

/-- A call whose accumulated offset `a` has reached half a row, with `a - h` (rounded)
within half a row of zero, commits exactly one downward swap and leaves `a - h`. -/
theorem onDragDelta_one_swap_down (h : F32) (t : State) (deltaY : F32)
    (hdrag : t.dragging = true) (hidx : 0 ≤ t.dragIdx ∧ t.dragIdx < (t.items.length : Int) - 1)
    (hpos : 0 < t.dragDY + deltaY) (hswap : ¬ t.dragDY + deltaY < h.half)
    (hlow : t.dragDY + deltaY - h < h.half) (hhigh : -(t.dragDY + deltaY - h) < h.half) :
    onDragDelta (uniformH h) t deltaY
      = .ok (swapStep { t with dragDY := t.dragDY + deltaY } 1 h) := by
  unfold onDragDelta
  have hd : ¬ ((!t.dragging) = true) := by simp [hdrag]
  rw [if_neg hd]
  dsimp only
  obtain ⟨e1, e2⟩ := loops_one_swap_down h { t with dragDY := t.dragDY + deltaY } hidx
    hpos hswap hlow hhigh
  rw [e1]
  exact e2

/-- With uniform row height `h` every call returns, and each committed swap takes one row
height off the accumulated offset (or puts one back, for a swap upwards), the result
rounded each time: after `down` swaps downwards and `up` swaps upwards what is left is
the accumulated offset with `h` subtracted `down` times and then added `up` times. -/
theorem onDragDelta_uniform_remainder (h : F32) (t : State) (deltaY : F32)
    (hdrag : t.dragging = true) (hidx : 0 ≤ t.dragIdx ∧ t.dragIdx < (t.items.length : Int)) :
    ∃ (t' : State) (down up : Nat), onDragDelta (uniformH h) t deltaY = .ok t' ∧
      t'.dragIdx = t.dragIdx + down - up ∧
      t'.dragDY = addRows (subRows (t.dragDY + deltaY) h down) h up := by
  let P : State → Prop := fun u =>
    u.items.length = t.items.length ∧ 0 ≤ u.dragIdx ∧ u.dragIdx < (t.items.length : Int) ∧
      ∃ k : Nat, u.dragIdx = t.dragIdx + k ∧ u.dragDY = subRows (t.dragDY + deltaY) h k
  have hP : ∀ u, P u → u.items.length = t.items.length ∧ 0 ≤ u.dragIdx ∧
      u.dragIdx < (t.items.length : Int) := fun u hu => ⟨hu.1, hu.2.1, hu.2.2.1⟩
  have hdown : ∀ u x, P u → u.dragDY > 0 → u.dragIdx < (t.items.length : Int) - 1 →
      ¬ u.dragDY < x.half → x = uniformH h u.items (u.dragIdx + 1).toNat →
      P (swapStep u 1 x) := by
    intro u x hu _ hlt _ hx
    have hxh : x = h := hx
    obtain ⟨k, hk1, hk2⟩ := hu.2.2.2
    refine ⟨?_, ?_, ?_, k + 1, ?_, ?_⟩
    · rw [swapStep_items, move_items_length]; exact hu.1
    · rw [swapStep_dragIdx]; omega
    · rw [swapStep_dragIdx]; omega
    · rw [swapStep_dragIdx, hk1]; push_cast; ring
    · rw [swapStep_dragDY_down, hk2, hxh]
      rfl
  have h1 : P { t with dragDY := t.dragDY + deltaY } :=
    ⟨rfl, hidx.1, hidx.2, 0, by simp, rfl⟩
  obtain ⟨t2, e2, h2⟩ := dragDown_run (uniformH h) t.items.length P hP hdown
    (dragFuel { t with dragDY := t.dragDY + deltaY }) _ h1
    (by show _ < t.items.length + 2; omega)
  obtain ⟨down, hd1, hd2⟩ := h2.2.2.2
  let Q : State → Prop := fun u =>
    u.items.length = t.items.length ∧ 0 ≤ u.dragIdx ∧ u.dragIdx < (t.items.length : Int) ∧
      ∃ j : Nat, u.dragIdx = t2.dragIdx - j ∧ u.dragDY = addRows t2.dragDY h j
  have hQ : ∀ u, Q u → u.items.length = t.items.length ∧ 0 ≤ u.dragIdx ∧
      u.dragIdx < (t.items.length : Int) := fun u hu => ⟨hu.1, hu.2.1, hu.2.2.1⟩
  have hup : ∀ u x, Q u → u.dragDY < 0 → u.dragIdx > 0 →
      ¬ -u.dragDY < x.half → x = uniformH h u.items (u.dragIdx - 1).toNat →
      Q (swapStep u (-1) x) := by
    intro u x hu _ hgt _ hx
    have hxh : x = h := hx
    obtain ⟨j, hj1, hj2⟩ := hu.2.2.2
    refine ⟨?_, ?_, ?_, j + 1, ?_, ?_⟩
    · rw [swapStep_items, move_items_length]; exact hu.1
    · rw [swapStep_dragIdx]; omega
    · rw [swapStep_dragIdx]; have := hu.2.2.1; omega
    · rw [swapStep_dragIdx, hj1]; push_cast; ring
    · rw [swapStep_dragDY_up, hj2, hxh]
      rfl
  have hq0 : Q t2 := ⟨h2.1, h2.2.1, h2.2.2.1, 0, by simp, rfl⟩
  obtain ⟨t3, e3, h3⟩ := dragUp_run (uniformH h) t.items.length Q hQ hup (dragFuel t2) t2 hq0
    (by unfold dragFuel; rw [h2.1]; have := h2.2.2.1; omega)
  obtain ⟨up, hu1, hu2⟩ := h3.2.2.2
  refine ⟨t3, down, up, ?_, ?_, ?_⟩
  · unfold onDragDelta
    have hd : ¬ ((!t.dragging) = true) := by simp [hdrag]
    rw [if_neg hd]
    dsimp only
    rw [e2]
    exact e3
  · rw [hu1, hd1]
  · rw [hu2, hd2]

theorem beginDrag_idle (s : State) (index : Int) (h : s.dragging = false) :
    beginDrag s index
      = { s with dragging := true, dragFrom := index, dragIdx := index, dragDY := 0 } := by
  unfold beginDrag
  rw [h]
  rfl

/-! ## Page tokens and what they stand for -/

/-- Value of a run of ASCII digits read as a decimal numeral. -/
def decimal (ds : List Char) : Nat :=
  ds.foldl (fun (acc : Nat) (c : Char) => acc * 10 + (c.toNat - 48)) 0

/-- A run of ASCII digits. -/
def IsDigits (ds : List Char) : Prop := ∀ c ∈ ds, asciiDigit c = true

/-- The `n` consecutive integers that start at `a`. -/
def consecutive (a : Int) : Nat → List Int
  | 0 => []
  | n + 1 => a :: consecutive (a + 1) n

/-- A token of a page list: a single page number or a range `lo-hi`, each number
written as a decimal numeral. -/
inductive Token where
  | page (digits : List Char)
  | range (lo hi : List Char)

/-- The runes of a token. -/
def Token.text : Token → List Char
  | .page digits => digits
  | .range lo hi => lo ++ '-' :: hi

/-- A page number `N` with `1 ≤ N` that fits `int`, or a range `A-B` with
`1 ≤ A ≤ B` whose end is below the largest `int`. -/
def Token.Valid : Token → Prop
  | .page digits =>
    digits ≠ [] ∧ IsDigits digits ∧ 1 ≤ decimal digits ∧ (decimal digits : Int) ≤ maxInt
  | .range lo hi =>
    lo ≠ [] ∧ hi ≠ [] ∧ IsDigits lo ∧ IsDigits hi ∧ 1 ≤ decimal lo ∧
      decimal lo ≤ decimal hi ∧ (decimal hi : Int) < maxInt

instance instDecidableIsDigits (ds : List Char) : Decidable (IsDigits ds) := by
  unfold IsDigits
  infer_instance

instance instDecidableTokenValid (t : Token) : Decidable t.Valid := by
  cases t <;> (unfold Token.Valid; infer_instance)

/-- Stated from the specification: `[N]` for a page, `[A, A+1, ..., B]` for a range. -/
def Token.pages : Token → List Int
  | .page digits => [(decimal digits : Int)]
  | .range lo hi => consecutive (decimal lo : Int) (decimal hi + 1 - decimal lo)

/-! ## Lemmas on the string functions -/

theorem parseDigits_digits : ∀ (ds : List Char) (acc : Nat), IsDigits ds →
    parseDigits ds acc
      = some (ds.foldl (fun (a : Nat) (c : Char) => a * 10 + (c.toNat - 48)) acc) := by
  intro ds
  induction ds with
  | nil => intro acc _; rfl
  | cons c cs ih =>
    intro acc h
    have hc : asciiDigit c = true := h c (List.mem_cons_self _ _)
    rw [parseDigits, if_pos hc, ih _ (fun d hd => h d (List.mem_cons_of_mem _ hd))]
    rfl

theorem asciiDigit_ne_minus (c : Char) (h : asciiDigit c = true) : c ≠ '-' := by
  intro hc
  subst hc
  revert h
  decide

theorem asciiDigit_ne_plus (c : Char) (h : asciiDigit c = true) : c ≠ '+' := by
  intro hc
  subst hc
  revert h
  decide

theorem asciiDigit_ne_comma (c : Char) (h : asciiDigit c = true) : c ≠ ',' := by
  intro hc
  subst hc
  revert h
  decide

theorem asciiDigit_not_space (c : Char) (h : asciiDigit c = true) : isSpace c = false := by
  unfold asciiDigit at h
  unfold isSpace
  simp only [decide_eq_true_eq] at h
  simp only [decide_eq_false_iff_not]
  omega

theorem minus_not_space : isSpace '-' = false := by decide

/-- `Atoi` on a non-empty run of ASCII digits whose value fits `int`. -/
theorem Atoi_digits (ds : List Char) (hne : ds ≠ []) (hd : IsDigits ds)
    (hmax : (decimal ds : Int) ≤ maxInt) : Atoi ds = some (decimal ds : Int) := by
  obtain ⟨c, cs, rfl⟩ := List.exists_cons_of_ne_nil hne
  have hc : asciiDigit c = true := hd c (List.mem_cons_self _ _)
  have h1 : ¬ ((c :: cs).head? = some '-' ∨ (c :: cs).head? = some '+') := by
    simp only [List.head?_cons, Option.some.injEq]
    exact fun h => h.elim (asciiDigit_ne_minus c hc) (asciiDigit_ne_plus c hc)
  have h2 : ¬ ((c :: cs).head? = some '-') := fun h => h1 (Or.inl h)
  unfold Atoi
  simp only [if_neg h1, if_neg h2, decide_False]
  rw [if_neg (by simp), parseDigits_digits _ _ hd]
  have hv : minInt ≤ ((decimal (c :: cs) : Nat) : Int) ∧ ((decimal (c :: cs) : Nat) : Int) ≤ maxInt := by
    refine ⟨?_, hmax⟩
    unfold minInt
    have : (0 : Int) ≤ ((decimal (c :: cs) : Nat) : Int) := Int.ofNat_nonneg _
    omega
  simp only [Bool.false_eq_true, if_false]
  unfold decimal at hv ⊢
  rw [if_pos hv]

/-- `Atoi` rejects a run of digits whose value is beyond the largest `int`. -/
theorem Atoi_too_large (ds : List Char) (hd : IsDigits ds)
    (hmax : maxInt < (decimal ds : Int)) : Atoi ds = none := by
  cases ds with
  | nil => rfl
  | cons c cs =>
    have hc : asciiDigit c = true := hd c (List.mem_cons_self _ _)
    have h1 : ¬ ((c :: cs).head? = some '-' ∨ (c :: cs).head? = some '+') := by
      simp only [List.head?_cons, Option.some.injEq]
      exact fun h => h.elim (asciiDigit_ne_minus c hc) (asciiDigit_ne_plus c hc)
    have h2 : ¬ ((c :: cs).head? = some '-') := fun h => h1 (Or.inl h)
    unfold Atoi
    simp only [if_neg h1, if_neg h2, decide_False]
    rw [if_neg (by simp), parseDigits_digits _ _ hd]
    simp only [Bool.false_eq_true, if_false]
    unfold decimal at hmax
    rw [if_neg (by omega)]

theorem Atoi_nil : Atoi [] = none := rfl

theorem dropWhile_of_all_not {p : Char → Bool} (l : List Char)
    (h : ∀ c ∈ l, p c = false) : l.dropWhile p = l := by
  cases l with
  | nil => rfl
  | cons c cs =>
    rw [List.dropWhile_cons_of_neg]
    rw [h c (List.mem_cons_self _ _)]
    simp

/-- `strings.TrimSpace` keeps a string without white space. -/
theorem trimSpace_of_no_space (s : List Char) (h : ∀ c ∈ s, isSpace c = false) :
    trimSpace s = s := by
  unfold trimSpace
  rw [dropWhile_of_all_not s h, dropWhile_of_all_not s.reverse
    (fun c hc => h c (List.mem_reverse.mp hc)), List.reverse_reverse]

theorem trimSpace_digits (ds : List Char) (hd : IsDigits ds) : trimSpace ds = ds :=
  trimSpace_of_no_space ds (fun c hc => asciiDigit_not_space c (hd c hc))

theorem mem_dropWhile_of_not {p : Char → Bool} : ∀ (l : List Char) (c : Char),
    c ∈ l → ¬ (p c = true) → c ∈ l.dropWhile p := by
  intro l
  induction l with
  | nil => intro c hc _; cases hc
  | cons a l ih =>
    intro c hc hp
    by_cases ha : p a = true
    · rw [List.dropWhile_cons_of_pos ha]
      rcases List.mem_cons.mp hc with h | h
      · subst h
        exact absurd ha hp
      · exact ih c h hp
    · rw [List.dropWhile_cons_of_neg ha]
      exact hc

/-- `strings.TrimSpace` gives the empty string exactly on white space only. -/
theorem trimSpace_eq_nil_iff (s : List Char) :
    trimSpace s = [] ↔ ∀ c ∈ s, isSpace c = true := by
  unfold trimSpace
  rw [List.reverse_eq_nil_iff, List.dropWhile_eq_nil_iff]
  constructor
  · intro h c hc
    by_contra hcon
    have hmem : c ∈ List.dropWhile isSpace s := mem_dropWhile_of_not s c hc hcon
    exact hcon (h c (List.mem_reverse.mpr hmem))
  · intro h c hc
    exact h c ((List.dropWhile_sublist _).subset (List.mem_reverse.mp hc))

theorem split_ne_nil : ∀ (s : List Char) (sep : Char), split s sep ≠ [] := by
  intro s sep
  cases s with
  | nil => simp [split]
  | cons c cs =>
    rw [split]
    split_ifs
    · simp
    · cases split cs sep <;> simp

theorem split_cons_sep (ys : List Char) (sep : Char) :
    split (sep :: ys) sep = [] :: split ys sep := by
  rw [split, if_pos rfl]

theorem split_append_sep : ∀ (x ys : List Char) (sep : Char), sep ∉ x →
    split (x ++ sep :: ys) sep = x :: split ys sep := by
  intro x
  induction x with
  | nil => intro ys sep _; exact split_cons_sep ys sep
  | cons c cs ih =>
    intro ys sep h
    have hc : ¬ c = sep := fun e => h (by rw [e]; exact List.mem_cons_self _ _)
    have hcs : sep ∉ cs := fun e => h (List.mem_cons_of_mem _ e)
    rw [List.cons_append, split, if_neg hc, ih ys sep hcs]

theorem split_of_not_mem : ∀ (x : List Char) (sep : Char), sep ∉ x → split x sep = [x] := by
  intro x
  induction x with
  | nil => intro sep _; rfl
  | cons c cs ih =>
    intro sep h
    have hc : ¬ c = sep := fun e => h (by rw [e]; exact List.mem_cons_self _ _)
    have hcs : sep ∉ cs := fun e => h (List.mem_cons_of_mem _ e)
    rw [split, if_neg hc, ih sep hcs]

theorem wrapInt_range (x : Int) : minInt ≤ wrapInt x ∧ wrapInt x ≤ maxInt := by
  unfold wrapInt minInt maxInt
  omega

theorem wrapInt_of_range (x : Int) (h : minInt ≤ x ∧ x ≤ maxInt) : wrapInt x = x := by
  unfold wrapInt
  unfold minInt maxInt at h
  omega

theorem appendPage_of_lt (pages : List Int) (x : Int) (h : pages.length < limit) :
    appendPage limit pages x = some (pages ++ [x]) := by
  unfold appendPage
  rw [if_pos h]

theorem appendPage_some (pages out : List Int) (x : Int)
    (h : appendPage limit pages x = some out) :
    pages.length < limit ∧ out = pages ++ [x] := by
  unfold appendPage at h
  split_ifs at h with h1
  cases h
  exact ⟨h1, rfl⟩

/-- Below the largest `int`, and while the slice can take the pages, the page loop
appends the consecutive integers and ends within its fuel. -/
theorem appendRange_consecutive : ∀ (n fuel : Nat) (i : Int) (pages : List Int),
    minInt ≤ i → i + n ≤ maxInt → n < fuel → pages.length + n ≤ limit →
    appendRange limit fuel i (i + n - 1) pages = some (pages ++ consecutive i n) := by
  intro n
  induction n with
  | zero =>
    intro fuel i pages _ _ hf _
    obtain ⟨k, rfl⟩ : ∃ k, fuel = k + 1 := ⟨fuel - 1, by omega⟩
    rw [appendRange, if_neg (by omega)]
    simp [consecutive]
  | succ n ih =>
    intro fuel i pages h0 h1 hf hcap
    obtain ⟨k, rfl⟩ : ∃ k, fuel = k + 1 := ⟨fuel - 1, by omega⟩
    push_cast at h1 ⊢
    rw [appendRange, if_pos (by omega), appendPage_of_lt pages i (by omega)]
    dsimp only
    rw [wrapInt_of_range (i + 1) ⟨by omega, by omega⟩]
    have e : i + (↑n + 1) - 1 = (i + 1) + (n : Int) - 1 := by ring
    rw [e, ih k (i + 1) (pages ++ [i]) (by omega) (by omega) (by omega)
      (by rw [List.length_append]; simp; omega)]
    simp [consecutive]

/-- With the largest `int` as its end the page loop is never left: `i <= end` holds of
every `int`, so the loop appends until the process is stopped. -/
theorem appendRange_maxInt_none : ∀ (fuel : Nat) (i : Int) (pages : List Int),
    i ≤ maxInt → appendRange limit fuel i maxInt pages = none := by
  intro fuel
  induction fuel with
  | zero => intro i pages _; rfl
  | succ k ih =>
    intro i pages hi
    rw [appendRange, if_pos hi]
    cases h : appendPage limit pages i with
    | none => rfl
    | some pages1 => exact ih _ _ (wrapInt_range (i + 1)).2

/-- A range with more pages than the slice can still take stops the process. -/
theorem appendRange_too_long : ∀ (fuel : Nat) (i endPage : Int) (pages : List Int),
    i ≤ endPage → endPage ≤ maxInt → minInt ≤ i →
    (limit : Int) - pages.length < endPage - i + 1 →
    appendRange limit fuel i endPage pages = none := by
  intro fuel
  induction fuel with
  | zero => intro i endPage pages _ _ _ _; rfl
  | succ k ih =>
    intro i endPage pages hle hmax hmin hlong
    rw [appendRange, if_pos hle]
    cases h : appendPage limit pages i with
    | none => rfl
    | some pages1 =>
      obtain ⟨hlt, rfl⟩ := appendPage_some pages pages1 i h
      dsimp only
      have hw : wrapInt (i + 1) = i + 1 := by
        by_cases hlast : i = endPage
        · omega
        · exact wrapInt_of_range _ ⟨by omega, by omega⟩
      rw [hw]
      by_cases hlast : i = endPage
      · omega
      · exact ih (i + 1) endPage (pages ++ [i]) (by omega) hmax (by omega)
          (by rw [List.length_append]; simp; omega)

/-- The fuel passed by the callers is never what ends the loop: with any two amounts of
fuel above the room left in the slice the loop gives the same result. -/
theorem appendRange_fuel : ∀ (f1 f2 : Nat) (i endPage : Int) (pages : List Int),
    pages.length ≤ limit → limit < f1 + pages.length → limit < f2 + pages.length →
    appendRange limit f1 i endPage pages = appendRange limit f2 i endPage pages := by
  intro f1
  induction f1 with
  | zero => intro f2 i endPage pages h0 h1 h2; omega
  | succ k1 ih =>
    intro f2 i endPage pages h0 h1 h2
    cases f2 with
    | zero => omega
    | succ k2 =>
      rw [appendRange, appendRange]
      split_ifs with hle
      · cases h : appendPage limit pages i with
        | none => rfl
        | some pages1 =>
          obtain ⟨hlt, rfl⟩ := appendPage_some pages pages1 i h
          exact ih k2 _ _ _ (by rw [List.length_append]; simp; omega)
            (by rw [List.length_append]; simp; omega)
            (by rw [List.length_append]; simp; omega)
      · rfl

theorem consecutive_length (a : Int) (n : Nat) : (consecutive a n).length = n := by
  induction n generalizing a with
  | zero => rfl
  | succ n ih => simp [consecutive, ih]

/-! ## Lemmas on the parts loop -/

theorem parseParts_nil_part (rest : List (List Char)) (pages : List Int) :
    parseParts sliceCap ([] :: rest) pages = parseParts sliceCap rest pages := by
  rw [parseParts]
  have h : trimSpace [] = [] := rfl
  simp only [h, if_true]

theorem parseParts_replicate_nil : ∀ (k : Nat) (rest : List (List Char)) (pages : List Int),
    parseParts sliceCap (List.replicate k [] ++ rest) pages = parseParts sliceCap rest pages := by
  intro k
  induction k with
  | zero => intro rest pages; rfl
  | succ k ih =>
    intro rest pages
    rw [List.replicate_succ, List.cons_append, parseParts_nil_part, ih]

theorem isDigits_not_mem_minus (ds : List Char) (hd : IsDigits ds) : '-' ∉ ds :=
  fun h => asciiDigit_ne_minus _ (hd _ h) rfl

theorem isDigits_not_mem_comma (ds : List Char) (hd : IsDigits ds) : ',' ∉ ds :=
  fun h => asciiDigit_ne_comma _ (hd _ h) rfl

/-- A part made of digits only: the single-page branch of the loop body. -/
theorem parseParts_digits (ds : List Char) (hne : ds ≠ []) (hd : IsDigits ds)
    (rest : List (List Char)) (pages : List Int) :
    parseParts sliceCap (ds :: rest) pages
      = match Atoi ds with
        | none => .error .invalidPageNumber
        | some n =>
          if n < 1 then .error .invalidPageNumber
          else
            match appendPage (sliceLimit sliceCap) pages n with
            | none => .error .noReturn
            | some pages1 => parseParts sliceCap rest pages1 := by
  rw [parseParts]
  simp only [trimSpace_digits ds hd, if_neg hne, if_neg (isDigits_not_mem_minus ds hd)]

/-- A part `lo-hi` with digits on both sides: the range branch of the loop body. -/
theorem parseParts_range (lo hi : List Char) (hl : IsDigits lo) (hh : IsDigits hi)
    (rest : List (List Char)) (pages : List Int) :
    parseParts sliceCap ((lo ++ '-' :: hi) :: rest) pages
      = match Atoi lo, Atoi hi with
        | some start, some endPage =>
          if start < 1 ∨ endPage < 1 then .error .invalidRange
          else if start > endPage then .error .startAfterEnd
          else
            match appendRange (sliceLimit sliceCap) (sliceLimit sliceCap + 1) start endPage
                pages with
            | none => .error .noReturn
            | some pages1 => parseParts sliceCap rest pages1
        | _, _ => .error .invalidRange := by
  have hns : ∀ c ∈ lo ++ '-' :: hi, isSpace c = false := by
    intro c hc
    rcases List.mem_append.mp hc with h | h
    · exact asciiDigit_not_space c (hl c h)
    · rcases List.mem_cons.mp h with h | h
      · rw [h]; exact minus_not_space
      · exact asciiDigit_not_space c (hh c h)
  have hmem : '-' ∈ lo ++ '-' :: hi := by simp
  have hne : lo ++ '-' :: hi ≠ [] := by simp
  rw [parseParts]
  simp only [trimSpace_of_no_space _ hns, if_neg hne, if_pos hmem]
  rw [split_append_sep lo hi '-' (isDigits_not_mem_minus lo hl),
    split_of_not_mem hi '-' (isDigits_not_mem_minus hi hh)]
  simp only [trimSpace_digits lo hl, trimSpace_digits hi hh]

/-- A valid token whose pages the slice can take adds its pages and the loop goes on. -/
theorem parseParts_token (t : Token) (ht : t.Valid) (rest : List (List Char))
    (pages : List Int) (hfit : pages.length + t.pages.length ≤ sliceLimit sliceCap) :
    parseParts sliceCap (t.text :: rest) pages = parseParts sliceCap rest (pages ++ t.pages) := by
  cases t with
  | page digits =>
    obtain ⟨hne, hd, h1, hmax⟩ := ht
    have hfit1 : pages.length < sliceLimit sliceCap := by
      have : (Token.page digits).pages.length = 1 := rfl
      omega
    show parseParts sliceCap (digits :: rest) pages = _
    rw [parseParts_digits digits hne hd, Atoi_digits digits hne hd hmax]
    simp only
    rw [if_neg (by omega), appendPage_of_lt pages _ hfit1]
    rfl
  | range lo hi =>
    obtain ⟨hne1, hne2, hl, hh, h1, hle, hmax⟩ := ht
    have hfit1 : pages.length + (decimal hi + 1 - decimal lo) ≤ sliceLimit sliceCap := by
      have : (Token.range lo hi).pages.length = decimal hi + 1 - decimal lo :=
        consecutive_length _ _
      omega
    show parseParts sliceCap ((lo ++ '-' :: hi) :: rest) pages = _
    have hmaxlo : (decimal lo : Int) ≤ maxInt := by omega
    rw [parseParts_range lo hi hl hh, Atoi_digits lo hne1 hl hmaxlo,
      Atoi_digits hi hne2 hh (le_of_lt hmax)]
    simp only
    rw [if_neg (by omega), if_neg (by omega)]
    have hn : ((decimal hi : Int)) = (decimal lo : Int) + ((decimal hi + 1 - decimal lo : Nat) : Int) - 1 := by
      omega
    have happ := appendRange_consecutive (decimal hi + 1 - decimal lo)
      (sliceLimit sliceCap + 1) (decimal lo : Int) pages
      (by unfold minInt; omega) (by omega) (by omega) hfit1
    rw [← hn] at happ
    rw [happ]
    rfl

/-- A range whose end is the largest `int`: the page loop is never left, and the process
is stopped when the slice is full. -/
theorem parseParts_range_maxInt (lo hi : List Char) (hne1 : lo ≠ []) (hne2 : hi ≠ [])
    (hl : IsDigits lo) (hh : IsDigits hi) (h1 : 1 ≤ decimal lo)
    (hmax : (decimal hi : Int) = maxInt) (hle : decimal lo ≤ decimal hi)
    (rest : List (List Char)) (pages : List Int) :
    parseParts sliceCap ((lo ++ '-' :: hi) :: rest) pages = .error .noReturn := by
  have hmaxlo : (decimal lo : Int) ≤ maxInt := by omega
  rw [parseParts_range lo hi hl hh, Atoi_digits lo hne1 hl hmaxlo,
    Atoi_digits hi hne2 hh (le_of_eq hmax)]
  simp only
  rw [if_neg (by unfold maxInt at hmax; omega), if_neg (by omega), hmax,
    appendRange_maxInt_none _ _ pages hmaxlo]

/-- A range with more pages than the slice can still take: the process is stopped in
the page loop. -/
theorem parseParts_range_too_long (lo hi : List Char) (hne1 : lo ≠ []) (hne2 : hi ≠ [])
    (hl : IsDigits lo) (hh : IsDigits hi) (h1 : 1 ≤ decimal lo)
    (hmax : (decimal hi : Int) ≤ maxInt) (hle : decimal lo ≤ decimal hi)
    (rest : List (List Char)) (pages : List Int)
    (hlong : sliceLimit sliceCap < pages.length + (decimal hi + 1 - decimal lo)) :
    parseParts sliceCap ((lo ++ '-' :: hi) :: rest) pages = .error .noReturn := by
  have hmaxlo : (decimal lo : Int) ≤ maxInt := by omega
  rw [parseParts_range lo hi hl hh, Atoi_digits lo hne1 hl hmaxlo,
    Atoi_digits hi hne2 hh hmax]
  simp only
  rw [if_neg (by omega), if_neg (by omega),
    appendRange_too_long _ _ _ pages (by omega) hmax (by unfold minInt; omega) (by omega)]

/-! ## Inputs built from tokens and separators -/

/-- A rune that separates tokens: a comma, or any rune that is neither a digit (for
`unicode.IsDigit`) nor `'-'`. -/
def SepRune (isDigit : Char → Bool) (c : Char) : Prop :=
  c = ',' ∨ (isDigit c = false ∧ c ≠ '-')

/-- A rune of a token: an ASCII digit or `'-'`. -/
def TokenRune (c : Char) : Prop := asciiDigit c = true ∨ c = '-'

instance instDecidableTokenRune (c : Char) : Decidable (TokenRune c) := by
  unfold TokenRune
  infer_instance

/-- What is known of `unicode.IsDigit`: it holds of the ASCII digits. -/
def DigitTable (isDigit : Char → Bool) : Prop := ∀ c, asciiDigit c = true → isDigit c = true

/-- Tokens, each followed by a separator. -/
def pairsText : List (Token × List Char) → List Char
  | [] => []
  | (t, sep) :: rest => t.text ++ sep ++ pairsText rest

/-- Stated from the specification: the pages of the tokens, concatenated in input order. -/
def pairsPages : List (Token × List Char) → List Int
  | [] => []
  | (t, _) :: rest => t.pages ++ pairsPages rest

/-- The parts loop run on a normalized string. -/
def parseNorm (sliceCap : Nat) (s : List Char) (pages : List Int) :
    Except ParseErr (List Int) :=
  parseParts sliceCap (split s ',') pages

theorem normalize_append (isDigit : Char → Bool) (a b : List Char) :
    normalize isDigit (a ++ b) = normalize isDigit a ++ normalize isDigit b := by
  unfold normalize
  rw [List.map_append]

theorem normalize_token_runes (isDigit : Char → Bool) (hd : DigitTable isDigit)
    (x : List Char) (hx : ∀ c ∈ x, TokenRune c ∨ c = ',') : normalize isDigit x = x := by
  unfold normalize
  conv_rhs => rw [← List.map_id x]
  apply List.map_congr_left
  intro c hc
  unfold normalizeRune
  rcases hx c hc with (h | h) | h
  · rw [if_pos (Or.inl (hd c h))]; rfl
  · rw [if_pos (Or.inr (Or.inl h))]; rfl
  · rw [if_pos (Or.inr (Or.inr h))]; rfl

theorem normalize_seps (isDigit : Char → Bool) (sep : List Char)
    (hs : ∀ c ∈ sep, SepRune isDigit c) :
    normalize isDigit sep = List.replicate sep.length ',' := by
  induction sep with
  | nil => rfl
  | cons c cs ih =>
    have hc : normalizeRune isDigit c = ',' := by
      unfold normalizeRune
      rcases hs c (List.mem_cons_self _ _) with h | ⟨h1, h2⟩
      · rw [h]; split_ifs <;> rfl
      · by_cases h3 : c = ','
        · rw [h3]; split_ifs <;> rfl
        · rw [if_neg]
          rw [h1]
          simp [h2, h3]
    have ih2 := ih (fun d hd => hs d (List.mem_cons_of_mem _ hd))
    unfold normalize at ih2 ⊢
    rw [List.map_cons, hc, ih2]
    rfl

theorem parseNorm_nil (pages : List Int) : parseNorm sliceCap [] pages = .ok pages := by
  unfold parseNorm
  rw [split, parseParts_nil_part]
  rfl

theorem parseNorm_comma (s : List Char) (pages : List Int) :
    parseNorm sliceCap (',' :: s) pages = parseNorm sliceCap s pages := by
  unfold parseNorm
  rw [split_cons_sep, parseParts_nil_part]

theorem parseNorm_commas : ∀ (k : Nat) (s : List Char) (pages : List Int),
    parseNorm sliceCap (List.replicate k ',' ++ s) pages = parseNorm sliceCap s pages := by
  intro k
  induction k with
  | zero => intro s pages; rfl
  | succ k ih =>
    intro s pages
    rw [List.replicate_succ, List.cons_append, parseNorm_comma, ih]

/-- What may follow a token in a normalized string: the end or a comma. -/
def AfterToken (s : List Char) : Prop := s = [] ∨ ∃ s1, s = ',' :: s1

/-- The part that a comma-free text followed by the end or a comma makes. -/
theorem parseNorm_text (x s : List Char) (hx : ',' ∉ x) (hs : AfterToken s)
    (pages : List Int) :
    ∃ rest, parseNorm sliceCap (x ++ s) pages = parseParts sliceCap (x :: rest) pages ∧
      parseNorm sliceCap s pages = parseParts sliceCap rest pages := by
  rcases hs with rfl | ⟨s1, rfl⟩
  · refine ⟨[], ?_, ?_⟩
    · unfold parseNorm
      rw [List.append_nil, split_of_not_mem x ',' hx]
    · rw [parseNorm_nil]
      rfl
  · refine ⟨split s1 ',', ?_, ?_⟩
    · unfold parseNorm
      rw [split_append_sep x s1 ',' hx]
    · rw [parseNorm_comma]
      rfl

theorem token_text_runes (t : Token) (ht : t.Valid) :
    (∀ c ∈ t.text, TokenRune c) ∧ ',' ∉ t.text ∧ t.text ≠ [] ∧
      (∀ c ∈ t.text, isSpace c = false) := by
  have key : (∀ c ∈ t.text, TokenRune c) ∧ t.text ≠ [] := by
    cases t with
    | page digits =>
      obtain ⟨hne, hd, _, _⟩ := ht
      exact ⟨fun c hc => Or.inl (hd c hc), hne⟩
    | range lo hi =>
      obtain ⟨_, _, hl, hh, _, _, _⟩ := ht
      refine ⟨?_, by simp [Token.text]⟩
      intro c hc
      rcases List.mem_append.mp hc with h | h
      · exact Or.inl (hl c h)
      · rcases List.mem_cons.mp h with h | h
        · exact Or.inr h
        · exact Or.inl (hh c h)
  refine ⟨key.1, ?_, key.2, ?_⟩
  · intro hmem
    rcases key.1 _ hmem with h | h
    · exact asciiDigit_ne_comma _ h rfl
    · revert h; decide
  · intro c hc
    rcases key.1 c hc with h | h
    · exact asciiDigit_not_space c h
    · rw [h]; exact minus_not_space

/-- A valid token followed by the end or a comma adds its pages. -/
theorem parseNorm_token (t : Token) (ht : t.Valid) (s : List Char) (hs : AfterToken s)
    (pages : List Int) (hfit : pages.length + t.pages.length ≤ sliceLimit sliceCap) :
    parseNorm sliceCap (t.text ++ s) pages = parseNorm sliceCap s (pages ++ t.pages) := by
  rcases hs with rfl | ⟨s1, rfl⟩
  · unfold parseNorm
    rw [List.append_nil, split_of_not_mem _ ',' (token_text_runes t ht).2.1,
      parseParts_token t ht _ _ hfit]
    rfl
  · unfold parseNorm
    rw [split_append_sep _ s1 ',' (token_text_runes t ht).2.1, parseParts_token t ht _ _ hfit,
      split_cons_sep, parseParts_nil_part]

/-- Each token of the list is valid and is followed by a non-empty run of separators. -/
def PairsOk (isDigit : Char → Bool) (pre : List (Token × List Char)) : Prop :=
  ∀ p ∈ pre, p.1.Valid ∧ p.2 ≠ [] ∧ ∀ c ∈ p.2, SepRune isDigit c

instance instDecidableSepRune (isDigit : Char → Bool) (c : Char) :
    Decidable (SepRune isDigit c) := by
  unfold SepRune
  infer_instance

instance instDecidablePairsOk (isDigit : Char → Bool) (pre : List (Token × List Char)) :
    Decidable (PairsOk isDigit pre) := by
  unfold PairsOk
  infer_instance

/-- Valid tokens, each followed by separators, add their pages in order, as long as the
slice can take them; the loop then goes on with what follows. -/
theorem parseNorm_pairs (isDigit : Char → Bool) (hd : DigitTable isDigit) :
    ∀ (pre : List (Token × List Char)) (s : List Char) (pages : List Int),
      PairsOk isDigit pre → pages.length + (pairsPages pre).length ≤ sliceLimit sliceCap →
      parseNorm sliceCap (normalize isDigit (pairsText pre) ++ s) pages
        = parseNorm sliceCap s (pages ++ pairsPages pre) := by
  intro pre
  induction pre with
  | nil =>
    intro s pages _ _
    simp [pairsText, pairsPages, normalize]
  | cons p rest ih =>
    intro s pages hok hfit
    obtain ⟨t, sep⟩ := p
    have hfit2 : pages.length + (t.pages.length + (pairsPages rest).length)
        ≤ sliceLimit sliceCap := by
      rw [pairsPages, List.length_append] at hfit
      exact hfit
    obtain ⟨ht, hne, hsep⟩ := hok (t, sep) (List.mem_cons_self _ _)
    have hrest : PairsOk isDigit rest := fun q hq => hok q (List.mem_cons_of_mem _ hq)
    have htr := token_text_runes t ht
    have hne2 : sep ≠ [] := hne
    obtain ⟨k, hk⟩ : ∃ k, sep.length = k + 1 :=
      ⟨sep.length - 1, by have := List.length_pos.mpr hne2; omega⟩
    have hnorm : normalize isDigit (pairsText ((t, sep) :: rest)) ++ s
        = t.text ++ (',' :: (List.replicate k ',' ++ (normalize isDigit (pairsText rest) ++ s))) := by
      rw [pairsText, normalize_append, normalize_append,
        normalize_token_runes isDigit hd t.text (fun c hc => Or.inl (htr.1 c hc)),
        normalize_seps isDigit sep hsep, hk, List.replicate_succ]
      simp
    rw [hnorm, parseNorm_token t ht _ (Or.inr ⟨_, rfl⟩) _ (by omega), parseNorm_comma,
      parseNorm_commas,
      ih s _ hrest (by rw [List.length_append]; omega), pairsPages, List.append_assoc]

theorem consecutive_ne_nil (a : Int) (n : Nat) (hn : 0 < n) : consecutive a n ≠ [] := by
  cases n with
  | zero => omega
  | succ n => simp [consecutive]

theorem token_pages_ne_nil (t : Token) (ht : t.Valid) : t.pages ≠ [] := by
  cases t with
  | page digits => simp [Token.pages]
  | range lo hi =>
    obtain ⟨_, _, _, _, _, hle, _⟩ := ht
    exact consecutive_ne_nil _ _ (by omega)

/-- A string that holds a valid token is not white space only. -/
theorem trimSpace_ne_nil_of_token (a b : List Char) (t : Token) (ht : t.Valid) :
    trimSpace (a ++ t.text ++ b) ≠ [] := by
  intro h
  rw [trimSpace_eq_nil_iff] at h
  obtain ⟨_, _, hne, hns⟩ := token_text_runes t ht
  obtain ⟨c, cs, hc⟩ := List.exists_cons_of_ne_nil hne
  have hmem : c ∈ t.text := by rw [hc]; exact List.mem_cons_self _ _
  have h1 := h c (by simp [hmem])
  rw [hns c hmem] at h1
  cases h1

/-! ## Tokens the parser rejects -/

/-- A token that is not a page of the list: the page number 0, a range with a bound of 0,
a range whose start is after its end, a range with a missing bound, or a token with more
than one hyphen. -/
inductive BadToken : List Char → Prop
  | pageZero (ds : List Char) :
      ds ≠ [] → IsDigits ds → decimal ds = 0 → BadToken ds
  | zeroBound (lo hi : List Char) :
      lo ≠ [] → hi ≠ [] → IsDigits lo → IsDigits hi →
      (decimal lo = 0 ∨ decimal hi = 0) → BadToken (lo ++ '-' :: hi)
  | startAfterEnd (lo hi : List Char) :
      lo ≠ [] → hi ≠ [] → IsDigits lo → IsDigits hi →
      decimal hi < decimal lo → BadToken (lo ++ '-' :: hi)
  | missingBound (lo hi : List Char) :
      IsDigits lo → IsDigits hi → (lo = [] ∨ hi = []) → BadToken (lo ++ '-' :: hi)
  | manyHyphens (lo more : List Char) :
      IsDigits lo → (∀ c ∈ more, TokenRune c) → '-' ∈ more → BadToken (lo ++ '-' :: more)

/-- The three error returns a rejected token leads to. -/
def TokenError (r : Except ParseErr (List Int)) : Prop :=
  r = .error .invalidPageNumber ∨ r = .error .invalidRange ∨ r = .error .startAfterEnd

theorem Atoi_digits_cases (ds : List Char) (hd : IsDigits ds) :
    Atoi ds = none ∨ (ds ≠ [] ∧ Atoi ds = some (decimal ds : Int)) := by
  by_cases hne : ds = []
  · left; rw [hne]; rfl
  · by_cases hmax : (decimal ds : Int) ≤ maxInt
    · exact Or.inr ⟨hne, Atoi_digits ds hne hd hmax⟩
    · exact Or.inl (Atoi_too_large ds hd (by omega))

theorem split_length_of_mem : ∀ (s : List Char) (sep : Char), sep ∈ s →
    2 ≤ (split s sep).length := by
  intro s
  induction s with
  | nil => intro sep h; cases h
  | cons c cs ih =>
    intro sep h
    rw [split]
    by_cases hc : c = sep
    · rw [if_pos hc, List.length_cons]
      have := List.length_pos.mpr (split_ne_nil cs sep)
      omega
    · rw [if_neg hc]
      have hmem : sep ∈ cs := by
        rcases List.mem_cons.mp h with h1 | h1
        · exact absurd h1.symm hc
        · exact h1
      have := ih sep hmem
      cases hsp : split cs sep with
      | nil => rw [hsp] at this; simp at this
      | cons q qs =>
        rw [hsp] at this
        simpa using this

theorem badToken_runes (x : List Char) (hx : BadToken x) :
    (∀ c ∈ x, TokenRune c) ∧ x ≠ [] := by
  have two : ∀ (lo hi : List Char), (∀ c ∈ lo, TokenRune c) → (∀ c ∈ hi, TokenRune c) →
      (∀ c ∈ lo ++ '-' :: hi, TokenRune c) ∧ lo ++ '-' :: hi ≠ [] := by
    intro lo hi hl hh
    refine ⟨?_, by simp⟩
    intro c hc
    rcases List.mem_append.mp hc with h | h
    · exact hl c h
    · rcases List.mem_cons.mp h with h | h
      · exact Or.inr h
      · exact hh c h
  cases hx with
  | pageZero _ hne hd _ => exact ⟨fun c hc => Or.inl (hd c hc), hne⟩
  | zeroBound lo hi _ _ hl hh _ =>
    exact two lo hi (fun c hc => Or.inl (hl c hc)) (fun c hc => Or.inl (hh c hc))
  | startAfterEnd lo hi _ _ hl hh _ =>
    exact two lo hi (fun c hc => Or.inl (hl c hc)) (fun c hc => Or.inl (hh c hc))
  | missingBound lo hi hl hh _ =>
    exact two lo hi (fun c hc => Or.inl (hl c hc)) (fun c hc => Or.inl (hh c hc))
  | manyHyphens lo more hl hm _ =>
    exact two lo more (fun c hc => Or.inl (hl c hc)) hm

theorem tokenRune_not_space (c : Char) (h : TokenRune c) : isSpace c = false := by
  rcases h with h | h
  · exact asciiDigit_not_space c h
  · rw [h]; exact minus_not_space

theorem tokenRune_ne_comma (c : Char) (h : TokenRune c) : c ≠ ',' := by
  rcases h with h | h
  · exact asciiDigit_ne_comma c h
  · rw [h]; decide

/-- The loop body returns an error at a rejected token. -/
theorem parseParts_bad (x : List Char) (hx : BadToken x) (rest : List (List Char))
    (pages : List Int) : TokenError (parseParts sliceCap (x :: rest) pages) := by
  unfold TokenError
  cases hx with
  | pageZero _ hne hd h0 =>
    rw [parseParts_digits x hne hd, Atoi_digits x hne hd (by rw [h0]; decide), h0]
    left
    rfl
  | zeroBound lo hi _ _ hl hh h0 =>
    rw [parseParts_range lo hi hl hh]
    right; left
    rcases Atoi_digits_cases lo hl with h1 | ⟨_, h1⟩ <;>
      rcases Atoi_digits_cases hi hh with h2 | ⟨_, h2⟩ <;> rw [h1, h2]
    simp only
    rw [if_pos (by omega)]
  | startAfterEnd lo hi _ _ hl hh hlt =>
    rw [parseParts_range lo hi hl hh]
    rcases Atoi_digits_cases lo hl with h1 | ⟨_, h1⟩ <;>
      rcases Atoi_digits_cases hi hh with h2 | ⟨_, h2⟩ <;> rw [h1, h2]
    · right; left; rfl
    · right; left; rfl
    · right; left; rfl
    · simp only
      by_cases hz : (decimal lo : Int) < 1 ∨ (decimal hi : Int) < 1
      · rw [if_pos hz]
        right; left; rfl
      · rw [if_neg hz, if_pos (by omega)]
        right; right; rfl
  | missingBound lo hi hl hh hemp =>
    rw [parseParts_range lo hi hl hh]
    right; left
    rcases hemp with h | h
    · rw [h, Atoi_nil]
    · rw [h, Atoi_nil]
      cases Atoi lo <;> rfl
  | manyHyphens lo more hl hm hmem =>
    right; left
    have hns : ∀ c ∈ lo ++ '-' :: more, isSpace c = false := by
      intro c hc
      rcases List.mem_append.mp hc with h | h
      · exact asciiDigit_not_space c (hl c h)
      · rcases List.mem_cons.mp h with h | h
        · rw [h]; exact minus_not_space
        · exact tokenRune_not_space c (hm c h)
    have hin : '-' ∈ lo ++ '-' :: more := by simp
    have hne : lo ++ '-' :: more ≠ [] := by simp
    have hlen := split_length_of_mem more '-' hmem
    rw [parseParts]
    simp only [trimSpace_of_no_space _ hns, if_neg hne, if_pos hin]
    rw [split_append_sep lo more '-' (isDigits_not_mem_minus lo hl)]
    cases hsp : split more '-' with
    | nil => rfl
    | cons q qs =>
      cases qs with
      | nil =>
        rw [hsp] at hlen
        simp at hlen
      | cons q2 qs2 => rfl

/-- A rejected token followed by the end or a comma stops the loop with an error,
whatever follows. -/
theorem parseNorm_bad (x s : List Char) (hx : BadToken x) (hs : AfterToken s)
    (pages : List Int) : TokenError (parseNorm sliceCap (x ++ s) pages) := by
  have hc : ',' ∉ x := fun h => tokenRune_ne_comma _ ((badToken_runes x hx).1 _ h) rfl
  obtain ⟨rest, h1, _⟩ := parseNorm_text x s hc hs pages
  rw [h1]
  exact parseParts_bad x hx rest pages

theorem trimSpace_ne_nil_of_mem (s : List Char) (c : Char) (hc : c ∈ s)
    (hns : isSpace c = false) : trimSpace s ≠ [] := by
  intro h
  rw [trimSpace_eq_nil_iff] at h
  have h1 := h c hc
  rw [hns] at h1
  cases h1

/-- A tail that is empty or starts with a separator is, once normalized, the end or a
comma. -/
theorem afterToken_normalize (isDigit : Char → Bool) (tail : List Char)
    (ht : tail = [] ∨ ∃ c more, tail = c :: more ∧ SepRune isDigit c) :
    AfterToken (normalize isDigit tail) := by
  rcases ht with rfl | ⟨c, more, rfl, hc⟩
  · left; rfl
  · right
    refine ⟨normalize isDigit more, ?_⟩
    have h1 := normalize_seps isDigit [c] (by
      intro d hd
      rw [List.mem_singleton.mp hd]
      exact hc)
    have h2 : normalize isDigit (c :: more) = normalize isDigit [c] ++ normalize isDigit more :=
      normalize_append isDigit [c] more
    rw [h2, h1]
    rfl

/-- The first rejected token, after separators and valid tokens whose pages the slice can
take, decides the call. -/
theorem parsePageRange_first_bad (isDigit : Char → Bool) (hd : DigitTable isDigit)
    (lead : List Char) (pre : List (Token × List Char)) (bad tail : List Char)
    (hlead : ∀ c ∈ lead, SepRune isDigit c) (hpre : PairsOk isDigit pre)
    (hfit : (pairsPages pre).length ≤ sliceLimit sliceCap) (hbad : BadToken bad)
    (htail : tail = [] ∨ ∃ c more, tail = c :: more ∧ SepRune isDigit c) :
    TokenError (parsePageRange sliceCap isDigit (lead ++ pairsText pre ++ bad ++ tail)) := by
  obtain ⟨hruns, hne⟩ := badToken_runes bad hbad
  obtain ⟨c, cs, hc⟩ := List.exists_cons_of_ne_nil hne
  have hcmem : c ∈ bad := by rw [hc]; exact List.mem_cons_self _ _
  have hts : trimSpace (lead ++ pairsText pre ++ bad ++ tail) ≠ [] :=
    trimSpace_ne_nil_of_mem _ c (by simp [hcmem]) (tokenRune_not_space c (hruns c hcmem))
  have hnorm : normalize isDigit (lead ++ pairsText pre ++ bad ++ tail)
      = List.replicate lead.length ',' ++
          (normalize isDigit (pairsText pre) ++ (bad ++ normalize isDigit tail)) := by
    rw [normalize_append, normalize_append, normalize_append, normalize_seps isDigit lead hlead,
      normalize_token_runes isDigit hd bad (fun d hd2 => Or.inl (hruns d hd2))]
    simp
  have hloop : TokenError
      (parseParts sliceCap (split (normalize isDigit (lead ++ pairsText pre ++ bad ++ tail)) ',') []) := by
    show TokenError (parseNorm sliceCap _ [])
    rw [hnorm, parseNorm_commas, parseNorm_pairs isDigit hd pre _ [] hpre (by simpa using hfit)]
    exact parseNorm_bad bad _ hbad (afterToken_normalize isDigit tail htail) _
  unfold parsePageRange
  rw [if_neg hts]
  unfold TokenError at hloop ⊢
  rcases hloop with h | h | h <;> rw [h]
  · left; rfl
  · right; left; rfl
  · right; right; rfl

/-! ## What a successful parse returns -/

theorem Atoi_le_maxInt (s : List Char) (v : Int) (h : Atoi s = some v) : v ≤ maxInt := by
  unfold Atoi at h
  dsimp only at h
  split_ifs at h
  all_goals
    split at h
    · cases h
    · split_ifs at h with hv
      cases h
      exact hv.2

theorem mem_consecutive (a : Int) : ∀ (n : Nat) (b : Int), a ≤ b → ∀ p ∈ consecutive b n, a ≤ p := by
  intro n
  induction n with
  | zero => intro b _ p hp; simp [consecutive] at hp
  | succ n ih =>
    intro b hb p hp
    simp only [consecutive, List.mem_cons] at hp
    rcases hp with rfl | hp
    · exact hb
    · exact ih (b + 1) (by omega) p hp

/-- The page loop entered with `i ≥ 1`, when it ends, has appended pages that are at
least 1: `i` wraps only after the largest `int`, and then the loop is never left. -/
theorem appendRange_pos : ∀ (fuel : Nat) (i endPage : Int) (pages out : List Int),
    1 ≤ i → endPage ≤ maxInt → appendRange limit fuel i endPage pages = some out →
    (∀ p ∈ pages, 1 ≤ p) → ∀ p ∈ out, 1 ≤ p := by
  intro fuel
  induction fuel with
  | zero =>
    intro i endPage pages out _ _ h _
    rw [appendRange] at h
    cases h
  | succ k ih =>
    intro i endPage pages out hi he h hp
    rw [appendRange] at h
    split_ifs at h with hle
    · cases h1 : appendPage limit pages i with
      | none => rw [h1] at h; cases h
      | some pages1 =>
        rw [h1] at h
        dsimp only at h
        obtain ⟨_, rfl⟩ := appendPage_some pages pages1 i h1
        have hp1 : ∀ p ∈ pages ++ [i], 1 ≤ p := by
          intro p hp2
          rcases List.mem_append.mp hp2 with h5 | h5
          · exact hp p h5
          · simp only [List.mem_singleton] at h5
            omega
        by_cases hmax : i = maxInt
        · have he2 : endPage = maxInt := by omega
          rw [he2, appendRange_maxInt_none k _ _ (wrapInt_range (i + 1)).2] at h
          cases h
        · rw [wrapInt_of_range (i + 1) ⟨by unfold minInt; omega, by omega⟩] at h
          exact ih (i + 1) endPage _ out (by omega) he h hp1
    · cases h
      exact hp

/-- The parts loop keeps every page number at least 1. -/
theorem parseParts_pos : ∀ (parts : List (List Char)) (pages out : List Int),
    parseParts sliceCap parts pages = .ok out → (∀ p ∈ pages, 1 ≤ p) → ∀ p ∈ out, 1 ≤ p := by
  intro parts
  induction parts with
  | nil =>
    intro pages out h hp
    rw [parseParts] at h
    cases h
    exact hp
  | cons raw rest ih =>
    intro pages out h hp
    rw [parseParts] at h
    split_ifs at h with h1 h2
    · exact ih pages out h hp
    · split at h
      · split at h
        · rename_i start endPage hs he
          split_ifs at h with h3 h4
          split at h
          · cases h
          · rename_i pages1 hap
            refine ih pages1 out h ?_
            exact appendRange_pos _ start endPage pages pages1 (by omega)
              (Atoi_le_maxInt _ _ he) hap hp
        · cases h
      · cases h
    · split at h
      · cases h
      · rename_i n hn
        split_ifs at h with h3
        split at h
        · cases h
        · rename_i pages1 hap
          obtain ⟨_, rfl⟩ := appendPage_some pages pages1 n hap
          refine ih _ out h ?_
          intro p hp2
          rcases List.mem_append.mp hp2 with h5 | h5
          · exact hp p h5
          · simp only [List.mem_singleton] at h5
            omega

/-! ## Lemmas on the page loop of `Split` -/

theorem ceilDiv_bounds (P k : Int) (hk : 1 ≤ k) :
    P ≤ ceilDiv P k * k ∧ (ceilDiv P k - 1) * k < P := by
  unfold ceilDiv
  have h1 := Int.ediv_add_emod (P + k - 1) k
  have h2 := Int.emod_nonneg (P + k - 1) (by omega : k ≠ 0)
  have h3 := Int.emod_lt_of_pos (P + k - 1) (by omega : 0 < k)
  have h4 : ((P + k - 1) / k - 1) * k = (P + k - 1) / k * k - k := by ring
  have h5 : k * ((P + k - 1) / k) = (P + k - 1) / k * k := by ring
  rw [h4]
  rw [h5] at h1
  constructor <;> omega

theorem ceilDiv_nonneg (P k : Int) (hP : 0 ≤ P) (hk : 1 ≤ k) : 0 ≤ ceilDiv P k := by
  unfold ceilDiv
  exact Int.ediv_nonneg (by omega) (by omega)

/-- The quotient `ceilDiv P k` is the ceiling of the fraction `P / k`. -/
theorem ceilDiv_eq_ceil (P k : Int) (hk : 1 ≤ k) : ceilDiv P k = ⌈(P : ℚ) / (k : ℚ)⌉ := by
  have hb := ceilDiv_bounds P k hk
  have hk0 : (0 : ℚ) < (k : ℚ) := by exact_mod_cast (by omega : 0 < k)
  symm
  rw [Int.ceil_eq_iff]
  constructor
  · rw [lt_div_iff₀ hk0]
    exact_mod_cast hb.2
  · rw [div_le_iff₀ hk0]
    exact_mod_cast hb.1

/-- With `n` files, `P ≤ n * k`, `(n - 1) * k < P` and no overflow of `start`, the loop
entered at the start of file `i` runs to its end within `n - i + 1` tests and produces
the spans of the files `i..n-1`. -/
theorem splitLoop_run (trimFile : Int → Int → Bool) (P k : Int) (n : Nat)
    (hk : 1 ≤ k) (hn1 : P ≤ n * k) (hn2 : ((n : Int) - 1) * k < P)
    (hfit : (n : Int) * k < maxInt)
    (htrim : ∀ a b : Int, 1 ≤ a → a ≤ b → b ≤ P → trimFile a b = true) :
    ∀ (d i fuel : Nat), i + d = n → d < fuel →
      splitLoop trimFile P k fuel (1 + i * k) ((List.range i).map (spanAt P k))
        = some (.done ((List.range n).map (spanAt P k))) := by
  intro d
  induction d with
  | zero =>
    intro i fuel hi hf
    obtain ⟨f, rfl⟩ : ∃ f, fuel = f + 1 := ⟨fuel - 1, by omega⟩
    have hin : i = n := by omega
    subst hin
    rw [splitLoop, if_neg (by omega)]
  | succ d ih =>
    intro i fuel hi hf
    obtain ⟨f, rfl⟩ : ∃ f, fuel = f + 1 := ⟨fuel - 1, by omega⟩
    have hmono : (i : Int) * k + k ≤ n * k := by
      have h := mul_le_mul_of_nonneg_right (by omega : (i : Int) + 1 ≤ n) (by omega : 0 ≤ k)
      have h2 : ((i : Int) + 1) * k = i * k + k := by ring
      rw [h2] at h
      exact h
    have hn3 : (n : Int) * k - k < P := by
      have h2 : ((n : Int) - 1) * k = n * k - k := by ring
      rw [h2] at hn2
      exact hn2
    have hexp : ((i : Int) + 1) * k = i * k + k := by ring
    have hi0 : 0 ≤ (i : Int) * k := mul_nonneg (by omega) (by omega)
    have hw : wrapInt (1 + i * k + k) = 1 + i * k + k :=
      wrapInt_of_range _ ⟨by unfold minInt; omega, by unfold maxInt at *; omega⟩
    have hw2 : wrapInt (1 + i * k + k - 1) = 1 + i * k + k - 1 :=
      wrapInt_of_range _ ⟨by unfold minInt; omega, by unfold maxInt at *; omega⟩
    rw [splitLoop, if_pos (by omega)]
    dsimp only
    rw [hw, hw2]
    have hend : (if 1 + (i : Int) * k + k - 1 > P then P else 1 + i * k + k - 1)
        = min (((i : Int) + 1) * k) P := by
      rw [hexp]
      split_ifs with h
      · rw [min_eq_right (by omega)]
      · rw [min_eq_left (by omega)]
        omega
    rw [hend, if_pos (htrim _ _ (by omega) (by rw [hexp]; exact le_min (by omega) (by omega))
      (min_le_right _ _))]
    have hacc : (List.range i).map (spanAt P k) ++ [(1 + (i : Int) * k, min (((i : Int) + 1) * k) P)]
        = (List.range (i + 1)).map (spanAt P k) := by
      rw [List.range_succ, List.map_append]
      rfl
    rw [hacc]
    have hstart : 1 + (i : Int) * k + k = 1 + ((i + 1 : Nat) : Int) * k := by
      push_cast
      ring
    rw [hstart]
    exact ih (i + 1) f (by omega) (by omega)

theorem getElem?_spans (P k : Int) (n i : Nat) (s : Int × Int)
    (h : ((List.range n).map (spanAt P k))[i]? = some s) : i < n ∧ s = spanAt P k i := by
  rw [List.getElem?_map] at h
  by_cases hi : i < n
  · rw [List.getElem?_range hi] at h
    rw [Option.map_some'] at h
    cases h
    exact ⟨hi, rfl⟩
  · rw [List.getElem?_eq_none (by simp; omega)] at h
    cases h

theorem getElem?_spans_of_lt (P k : Int) (n i : Nat) (hi : i < n) :
    ((List.range n).map (spanAt P k))[i]? = some (spanAt P k i) := by
  rw [List.getElem?_map, List.getElem?_range hi]
  rfl

theorem cast_mul_mono (i j : Nat) (k : Int) (hk : 0 ≤ k) (h : i ≤ j) : (i : Int) * k ≤ j * k :=
  mul_le_mul_of_nonneg_right (by omega) hk

/-- The spans `spanAt P k 0, ..., spanAt P k (n - 1)` partition `1..P` when `n` is the
number of files. -/
theorem spans_isPartition (P k : Int) (n : Nat) (hk : 1 ≤ k)
    (hn : (n : Int) = ceilDiv P k) :
    IsPartition P k ((List.range n).map (spanAt P k)) := by
  have hb := ceilDiv_bounds P k hk
  rw [← hn] at hb
  obtain ⟨hn1, hn2⟩ := hb
  have hn3 : (n : Int) * k - k < P := by
    have h2 : ((n : Int) - 1) * k = n * k - k := by ring
    rw [h2] at hn2
    exact hn2
  have hexp : ∀ i : Nat, ((i : Int) + 1) * k = i * k + k := fun i => by ring
  have hsucc : ∀ i : Nat, ((i + 1 : Nat) : Int) * k = i * k + k := fun i => by
    push_cast
    ring
  have hlen : ((List.range n).map (spanAt P k)).length = n := by simp
  have hlast : ∀ s, ((List.range n).map (spanAt P k)).getLast? = some s →
      0 < n ∧ s = spanAt P k (n - 1) := by
    intro s hs
    rw [List.getLast?_eq_getElem?, hlen] at hs
    have h := getElem?_spans P k n (n - 1) s hs
    exact ⟨by omega, h.2⟩
  refine ⟨?_, ?_, ?_, ?_, ?_, ?_, ?_⟩
  · intro s hs
    rw [List.head?_eq_getElem?] at hs
    obtain ⟨_, rfl⟩ := getElem?_spans P k n 0 s hs
    simp [spanAt]
  · intro i s t hs ht
    obtain ⟨_, rfl⟩ := getElem?_spans P k n i s hs
    obtain ⟨hi, rfl⟩ := getElem?_spans P k n (i + 1) t ht
    have hm := cast_mul_mono (i + 1) (n - 1) k (by omega) (by omega)
    have hc : ((n - 1 : Nat) : Int) * k = n * k - k := by
      rw [Nat.cast_sub (by omega)]
      push_cast
      ring
    rw [hsucc, hc] at hm
    show 1 + ((i + 1 : Nat) : Int) * k = min (((i : Int) + 1) * k) P + 1
    rw [hsucc, hexp, min_eq_left (by omega)]
    omega
  · intro s hs
    obtain ⟨h0, rfl⟩ := hlast s hs
    show min ((((n - 1 : Nat) : Int) + 1) * k) P = P
    have hc : (((n - 1 : Nat) : Int) + 1) = n := by omega
    rw [hc, min_eq_right hn1]
  · intro i s hs hi
    rw [hlen] at hi
    obtain ⟨_, rfl⟩ := getElem?_spans P k n i s hs
    have hm := cast_mul_mono (i + 1) (n - 1) k (by omega) (by omega)
    have hc : ((n - 1 : Nat) : Int) * k = n * k - k := by
      rw [Nat.cast_sub (by omega)]
      push_cast
      ring
    rw [hsucc, hc] at hm
    show min (((i : Int) + 1) * k) P - (1 + i * k) + 1 = k
    rw [hexp, min_eq_left (by omega)]
    omega
  · intro s hs
    obtain ⟨h0, rfl⟩ := hlast s hs
    have hc : (((n - 1 : Nat) : Int) + 1) = n := by omega
    have hc2 : ((n - 1 : Nat) : Int) * k = n * k - k := by
      rw [Nat.cast_sub (by omega)]
      push_cast
      ring
    show 1 ≤ min ((((n - 1 : Nat) : Int) + 1) * k) P - (1 + ((n - 1 : Nat) : Int) * k) + 1 ∧
      min ((((n - 1 : Nat) : Int) + 1) * k) P - (1 + ((n - 1 : Nat) : Int) * k) + 1 ≤ k
    rw [hc, min_eq_right hn1, hc2]
    constructor <;> omega
  · rw [hlen, hn]
    exact ceilDiv_eq_ceil P k hk
  · intro p hp1 hpP
    have h1 := Int.ediv_add_emod (p - 1) k
    have h2 := Int.emod_nonneg (p - 1) (by omega : k ≠ 0)
    have h3 := Int.emod_lt_of_pos (p - 1) (by omega : 0 < k)
    have hq0 : 0 ≤ (p - 1) / k := Int.ediv_nonneg (by omega) (by omega)
    obtain ⟨q, hq⟩ : ∃ q : Nat, (q : Int) = (p - 1) / k := ⟨((p - 1) / k).toNat, by omega⟩
    rw [← hq, mul_comm] at h1
    have hqn : q < n := by
      by_contra hcon
      have hm := cast_mul_mono n q k (by omega) (by omega)
      omega
    have hin : ∀ j : Nat, j < n → (spanAt P k j).1 ≤ p → p ≤ (spanAt P k j).2 → j = q := by
      intro j _ hj1 hj2
      have hj3 : 1 + (j : Int) * k ≤ p := hj1
      have hj4 : p ≤ (j : Int) * k + k := by
        have h : p ≤ min (((j : Int) + 1) * k) P := hj2
        rw [hexp] at h
        exact le_trans h (min_le_left _ _)
      rcases Nat.lt_trichotomy j q with hlt | heq | hgt
      · have hm := cast_mul_mono (j + 1) q k (by omega) (by omega)
        rw [hsucc] at hm
        omega
      · exact heq
      · have hm := cast_mul_mono (q + 1) j k (by omega) (by omega)
        rw [hsucc] at hm
        omega
    refine ⟨q, ⟨spanAt P k q, getElem?_spans_of_lt P k n q hqn, ?_, ?_⟩, ?_⟩
    · show 1 + (q : Int) * k ≤ p
      omega
    · show p ≤ min (((q : Int) + 1) * k) P
      rw [hexp]
      exact le_min (by omega) hpP
    · rintro j ⟨s, hs, hs1, hs2⟩
      obtain ⟨hj, rfl⟩ := getElem?_spans P k n j s hs
      exact hin j hj hs1 hs2

/-- Spans already produced stay at the front of the result. -/
theorem splitLoop_prefix (trimFile : Int → Int → Bool) (P k : Int) :
    ∀ (fuel : Nat) (start : Int) (written : List (Int × Int)) (r : SplitResult),
      splitLoop trimFile P k fuel start written = some r → written <+: r.spans := by
  intro fuel
  induction fuel with
  | zero =>
    intro start written r h
    rw [splitLoop] at h
    cases h
  | succ f ih =>
    intro start written r h
    rw [splitLoop] at h
    dsimp only at h
    split_ifs at h with h1 h2 h3
    · have := ih _ _ r h
      exact (List.prefix_append _ _).trans this
    · cases h
      exact List.prefix_append _ _
    · have := ih _ _ r h
      exact (List.prefix_append _ _).trans this
    · cases h
      exact List.prefix_append _ _
    · cases h
      exact List.prefix_refl _

/-- With one page and `PagesPerFile` the largest `int`, `start += PagesPerFile` wraps
to the smallest `int`, so after the span 1-1 the loop goes on to the span that starts
there. -/
theorem split_maxInt_spans (trimFile : Int → Int → Bool) (h11 : trimFile 1 1 = true)
    (fuel : Nat) (r : SplitResult) (h : Split trimFile 1 maxInt fuel = some r) :
    [((1 : Int), (1 : Int)), (minInt, -2)] <+: r.spans := by
  have e1 : wrapInt (1 + maxInt) = minInt := by decide
  have e2 : wrapInt (minInt - 1) = maxInt := by decide
  have e3 : wrapInt (minInt + maxInt) = -1 := by decide
  have e4 : wrapInt (-1 - 1) = -2 := by decide
  have e5 : (if maxInt > 1 then (1 : Int) else maxInt) = 1 := by decide
  have e6 : (if (-2 : Int) > 1 then (1 : Int) else -2) = -2 := by decide
  unfold Split at h
  obtain _ | _ | f := fuel
  · cases h
  · rw [splitLoop, if_pos (le_refl _)] at h
    dsimp only at h
    rw [e1, e2, e5, h11, if_pos rfl, splitLoop] at h
    cases h
  · rw [splitLoop, if_pos (le_refl _)] at h
    dsimp only at h
    rw [e1, e2, e5, h11, if_pos rfl, splitLoop, if_pos (by decide : minInt ≤ 1)] at h
    dsimp only at h
    rw [e3, e4, e6] at h
    split_ifs at h with h2
    · exact splitLoop_prefix _ _ _ _ _ _ r h
    · cases h
      exact List.prefix_refl _

/-! ## Sample states -/

/-- Three files, the first one checked. -/
def sampleABC : State :=
  NewSortableList ["a.pdf", "b.pdf", "c.pdf"] (SelMap.empty.set 0 true)

/-- Four files, the second and the fourth checked. -/
def sampleABCD : State :=
  NewSortableList ["A", "B", "C", "D"] ((SelMap.empty.set 1 true).set 3 true)

/-- One file added and checked, then "Clear List" on the merge tab: the list is
empty and the checked map still holds key 0. -/
def clearedWithStaleCheck : State :=
  clearList Tab.merge (checkChanged (addFiles (NewSortableList [] SelMap.empty) ["a.pdf"]) 0 true)

/-- Three files added, the third checked, "Clear List", then two new files added: two
rows, and the checked map still holds key 2. -/
def twoRowsStaleKey : State :=
  addFiles (clearList Tab.merge
    (checkChanged (addFiles (NewSortableList [] SelMap.empty) ["a.pdf", "b.pdf", "c.pdf"]) 2 true))
    ["x.pdf", "y.pdf"]

/-- Three files added to a fresh list, row 2 clicked, then row 2 deleted with its
delete button. -/
def clickedThenRemoved : State :=
  removeAt (onRowClick (addFiles (NewSortableList [] SelMap.empty)
    ["a.pdf", "b.pdf", "c.pdf"]) 2 false) 2

/-- Three files with row 0 clicked: row 0 is the active row. -/
def firstRowActive : State := onRowClick sampleABC 0 false

/-- Two files added to a fresh list and the checkbox of row 0 ticked: the host's focus
index follows the last ticked checkbox, row 0. -/
def checkedFirstOfTwo : State :=
  checkChanged (addFiles (NewSortableList [] SelMap.empty) ["A", "B"]) 0 true

/-- Two files added, row 0 ctrl-clicked (checked and active), the handle of row 1
pressed (a drag has begun). -/
def draggingCheckedActive : State :=
  beginDrag (onRowClick (addFiles (NewSortableList [] SelMap.empty) ["a.pdf", "b.pdf"]) 0 true) 1

/-- Three files, row 0 checked, then the unchecked row 2 clicked: row 2 is active. -/
def uncheckedRowActive : State := onRowClick sampleABC 2 false

/-- Three files, the handle of the last row pressed (a drag has begun on row 2), then
the first row deleted twice with its delete button: one row is left. -/
def dragThenRemoved : State := removeAt (removeAt (beginDrag sampleABC 2) 0) 0

/-- Whether a call ended in the index-out-of-range panic. -/
def panicked (r : Except Err State) : Bool :=
  match r with
  | .error .indexOutOfRange => true
  | _ => false

theorem eq_of_panicked (r : Except Err State) (h : panicked r = true) :
    r = .error .indexOutOfRange := by
  cases r with
  | error e => cases e <;> simp [panicked] at h ⊢
  | ok s => simp [panicked] at h

/-! ## Theorems -/

/-- C1: `move(pos, pos+d)` with `d = 1` or `d = -1` and both positions in range
exchanges the two items, keeps every other item and the length, exchanges the two
checked values and keeps the checked value of every other position in range. -/
theorem move_neighbour_swap (s : State) (pos d : Int) (hd : d = 1 ∨ d = -1)
    (hpos : 0 ≤ pos ∧ pos < (s.items.length : Int))
    (hnb : 0 ≤ pos + d ∧ pos + d < (s.items.length : Int)) :
    (move s pos (pos + d)).items.length = s.items.length ∧
    (move s pos (pos + d)).items[pos.toNat]? = s.items[(pos + d).toNat]? ∧
    (move s pos (pos + d)).items[(pos + d).toNat]? = s.items[pos.toNat]? ∧
    (∀ j : Nat, (j : Int) ≠ pos → (j : Int) ≠ pos + d →
        (move s pos (pos + d)).items[j]? = s.items[j]?) ∧
    (move s pos (pos + d)).selected.get pos = s.selected.get (pos + d) ∧
    (move s pos (pos + d)).selected.get (pos + d) = s.selected.get pos ∧
    (∀ j : Int, 0 ≤ j → j < (s.items.length : Int) → j ≠ pos → j ≠ pos + d →
        (move s pos (pos + d)).selected.get j = s.selected.get j) := by
  have hok : MoveOk s pos (pos + d) := by
    unfold MoveOk
    omega
  have e1 : srcIdx pos (pos + d) pos = pos + d := by
    unfold srcIdx
    split_ifs <;> omega
  have e2 : srcIdx pos (pos + d) (pos + d) = pos := by
    unfold srcIdx
    split_ifs <;> omega
  have e3 : ∀ j : Int, j ≠ pos → j ≠ pos + d → srcIdx pos (pos + d) j = j := by
    intro j h1 h2
    unfold srcIdx
    split_ifs <;> omega
  refine ⟨move_items_length s pos (pos + d), ?_, ?_, ?_, ?_, ?_, ?_⟩
  · rw [move_items_getElem? s _ _ hok, Int.toNat_of_nonneg hpos.1, e1]
  · rw [move_items_getElem? s _ _ hok, Int.toNat_of_nonneg hnb.1, e2]
  · intro j h1 h2
    rw [move_items_getElem? s _ _ hok, e3 j h1 h2, Int.toNat_ofNat]
  · rw [move_selected_get s _ _ hok pos hpos.1 hpos.2, e1]
  · rw [move_selected_get s _ _ hok (pos + d) hnb.1 hnb.2, e2]
  · intro j h0 h1 h2 h3
    rw [move_selected_get s _ _ hok j h0 h1, e3 j h2 h3]

/-- C1 at `sampleABC`: moving row 0 down puts `b.pdf` first, and the checked
flag of row 0 travels to row 1. -/
theorem move_neighbour_swap_witness :
    (move sampleABC 0 (0 + 1)).items[(0 : Int).toNat]? = some "b.pdf" ∧
    (move sampleABC 0 (0 + 1)).selected.get (0 + 1) = true :=
  have h := move_neighbour_swap sampleABC 0 1 (Or.inl rfl) (by decide) (by decide)
  ⟨h.2.1.trans (by decide), h.2.2.2.2.2.1.trans (by decide)⟩

/-- C2: for `from ≠ to`, both in range, and a checked map whose true keys are rows,
`move(from, to)` removes the item at `from` and re-inserts it at `to`; the row now at
position `i` is the old row `srcIdx from to i` and carries that row's checked value (the
moved row keeps its own at `to`); the checked flags are shifted like the items, the number
of rows marked true is unchanged and no key outside the rows is true. -/
theorem move_reinserts_and_keeps_checked (s : State) (frm dst : Int) (hne : frm ≠ dst)
    (hf : 0 ≤ frm ∧ frm < (s.items.length : Int))
    (hd : 0 ≤ dst ∧ dst < (s.items.length : Int))
    (hkeys : ∀ k : Int, s.selected.get k = true → 0 ≤ k ∧ k < (s.items.length : Int)) :
    (∃ x, s.items[frm.toNat]? = some x ∧
        (move s frm dst).items = (s.items.eraseIdx frm.toNat).insertIdx dst.toNat x) ∧
    (∀ i : Nat, i < s.items.length →
        (0 ≤ srcIdx frm dst i ∧ srcIdx frm dst i < (s.items.length : Int)) ∧
        (move s frm dst).items[i]? = s.items[(srcIdx frm dst i).toNat]? ∧
        (move s frm dst).selected.get i = s.selected.get (srcIdx frm dst i)) ∧
    (move s frm dst).selected.get dst = s.selected.get frm ∧
    checkedFlags (move s frm dst).selected (move s frm dst).items.length
      = ((checkedFlags s.selected s.items.length).eraseIdx frm.toNat).insertIdx dst.toNat
          (s.selected.get frm) ∧
    checkedCount (move s frm dst).selected (move s frm dst).items.length
      = checkedCount s.selected s.items.length ∧
    Set.ncard {k : Int | (move s frm dst).selected.get k = true}
      = Set.ncard {k : Int | s.selected.get k = true} ∧
    (∀ k : Int, (move s frm dst).selected.get k = true →
        0 ≤ k ∧ k < ((move s frm dst).items.length : Int)) := by
  have hok : MoveOk s frm dst := ⟨hne, hf.1, hd.1, hf.2, hd.2⟩
  have hfn : frm.toNat < s.items.length := by omega
  have hdn : dst.toNat < s.items.length := by omega
  have hflags : (checkedFlags s.selected s.items.length)[frm.toNat]?
      = some (s.selected.get frm) := by
    rw [checkedFlags_getElem?, if_pos hfn, Int.toNat_of_nonneg hf.1]
  have hshift : checkedFlags (move s frm dst).selected (move s frm dst).items.length
      = ((checkedFlags s.selected s.items.length).eraseIdx frm.toNat).insertIdx dst.toNat
          (s.selected.get frm) := by
    rw [move_items_length, move_checkedFlags s frm dst hok]
    exact moveItems_eq_insertIdx _ _ _ _ (by rw [checkedFlags_length]; exact hfn)
      (by rw [checkedFlags_length]; exact hdn) hflags
  have hin : ∀ k : Int, (move s frm dst).selected.get k = true →
      0 ≤ k ∧ k < (s.items.length : Int) := by
    intro k hk
    rw [move_selected s frm dst hok, fillMap_get] at hk
    by_contra hcon
    rw [if_neg hcon] at hk
    cases hk
  refine ⟨⟨s.items[frm.toNat], List.getElem?_eq_getElem hfn, ?_⟩, ?_, ?_, hshift, ?_, ?_, ?_⟩
  · rw [move_items s frm dst hok]
    exact moveItems_eq_insertIdx _ _ _ _ hfn hdn (List.getElem?_eq_getElem hfn)
  · intro i hi
    refine ⟨srcIdx_range frm dst (i : Int) _ hf hd ⟨by omega, by omega⟩, ?_, ?_⟩
    · exact move_items_getElem? s frm dst hok i
    · exact move_selected_get s frm dst hok (i : Int) (by omega) (by omega)
  · rw [move_selected_get s frm dst hok dst hd.1 hd.2]
    congr 1
    unfold srcIdx
    rw [if_pos rfl]
  · unfold checkedCount
    rw [hshift]
    exact (eraseIdx_insertIdx_perm _ _ _ _ hflags
      (by rw [checkedFlags_length]; exact hdn)).count_eq true
  · have hset : {k : Int | (move s frm dst).selected.get k = true}
        = Set.image (srcIdx dst frm) {k : Int | s.selected.get k = true} := by
      ext k
      simp only [Set.mem_setOf_eq, Set.mem_image]
      constructor
      · intro hk
        have hr := hin k hk
        rw [move_selected_get s frm dst hok k hr.1 hr.2] at hk
        exact ⟨srcIdx frm dst k, hk, srcIdx_inverse dst frm k⟩
      · rintro ⟨j, hj, rfl⟩
        have hr := srcIdx_range dst frm j _ hd hf (hkeys j hj)
        rw [move_selected_get s frm dst hok _ hr.1 hr.2, srcIdx_inverse frm dst j]
        exact hj
    rw [hset]
    exact Set.ncard_image_of_injective _ (fun a b hab => srcIdx_injective dst frm a b hab)
  · intro k hk
    rw [move_items_length]
    exact hin k hk

/-- C2 at `sampleABCD`: moving row 3 to row 0 keeps `D` checked at row 0 and keeps two
rows checked. -/
theorem move_reinserts_and_keeps_checked_witness :
    (move sampleABCD 3 0).selected.get 0 = true ∧
    checkedCount (move sampleABCD 3 0).selected (move sampleABCD 3 0).items.length = 2 :=
  have h := move_reinserts_and_keeps_checked sampleABCD 3 0 (by decide) (by decide)
    (by decide) (by
      intro k hk
      by_contra hcon
      have h1 : k ≠ 1 := by intro h; subst h; exact hcon (by decide)
      have h3 : k ≠ 3 := by intro h; subst h; exact hcon (by decide)
      simp [sampleABCD, NewSortableList, SelMap.get, SelMap.set, SelMap.empty, h1, h3] at hk)
  ⟨h.2.2.1.trans (by decide), h.2.2.2.2.1.trans (by decide)⟩

/-- C3 (as stated) fails on an empty list: "Remove Selected" returns at its
`len(selectedFiles) == 0` guard, so a checked map left over by "Clear List" is not reset. -/
theorem removeSelected_empty_list_keeps_map :
    clearedWithStaleCheck.items = [] ∧
    (removeSelected clearedWithStaleCheck).selected.get 0 = true ∧
    ¬ ((removeSelected clearedWithStaleCheck).items
          = keepUnchecked clearedWithStaleCheck.selected clearedWithStaleCheck.items ∧
        (removeSelected clearedWithStaleCheck).selected = SelMap.empty) := by
  refine ⟨by decide, by decide, ?_⟩
  rintro ⟨_, h⟩
  have h0 : (removeSelected clearedWithStaleCheck).selected.get 0 = SelMap.empty.get 0 := by
    rw [h]
  revert h0
  decide

/-- C3 (amended): "Remove Selected" always leaves exactly the unchecked items in their
original order; on a non-empty list it also resets the checked map to empty, on an empty
list it changes nothing; `[A,B,C,D]` with rows 1 and 3 checked becomes `[A,C]` with an
empty checked map. -/
theorem removeSelected_keeps_unchecked (s : State) :
    (removeSelected s).items = keepUnchecked s.selected s.items ∧
    (s.items ≠ [] → (removeSelected s).selected = SelMap.empty) ∧
    (s.items = [] → removeSelected s = s) ∧
    ((removeSelected sampleABCD).items = ["A", "C"] ∧
      (removeSelected sampleABCD).selected = SelMap.empty) := by
  refine ⟨?_, ?_, ?_, by decide, rfl⟩
  · unfold removeSelected
    split_ifs with h
    · have : s.items = [] := List.length_eq_zero.mp h
      rw [this]
      rfl
    · exact removeLoop_eq_keepUnchecked s.selected s.items
  · intro hne
    unfold removeSelected
    have : ¬ s.items.length = 0 := fun h => hne (List.length_eq_zero.mp h)
    rw [if_neg this]
    rfl
  · intro h
    unfold removeSelected
    rw [if_pos (by rw [h]; rfl)]

/-- C3 (amended) at `sampleABC`, a non-empty list: the checked first file is removed and
the checked map is reset. -/
theorem removeSelected_keeps_unchecked_witness :
    (removeSelected sampleABC).items = ["b.pdf", "c.pdf"] ∧
    (removeSelected sampleABC).selected = SelMap.empty :=
  have h := removeSelected_keeps_unchecked sampleABC
  ⟨h.1.trans (by decide), h.2.1 (by decide)⟩

/-- C4: `removeAt(k)` with `k` in range deletes position `k` (one item fewer, the others
in order) and rebuilds the checked map so that row `i` keeps the old value of row `i` for
`i < k` and of row `i + 1` for `i ≥ k`. -/
theorem removeAt_deletes_and_reindexes (s : State) (k : Int)
    (hk : 0 ≤ k ∧ k < (s.items.length : Int)) :
    (removeAt s k).items = s.items.eraseIdx k.toNat ∧
    (removeAt s k).items.length + 1 = s.items.length ∧
    (∀ i : Nat, (i : Int) < k →
        (removeAt s k).items[i]? = s.items[i]? ∧
        (removeAt s k).selected.get i = s.selected.get i) ∧
    (∀ i : Nat, k ≤ (i : Int) → i + 1 < s.items.length →
        (removeAt s k).items[i]? = s.items[i + 1]? ∧
        (removeAt s k).selected.get i = s.selected.get ((i : Int) + 1)) := by
  have hg : ¬ (k < 0 ∨ k ≥ (s.items.length : Int)) := by omega
  have hkn : k.toNat < s.items.length := by omega
  have hitems : (removeAt s k).items = s.items.eraseIdx k.toNat := by
    unfold removeAt
    rw [if_neg hg]
    simp only [rebuild, onChange_items]
    exact (List.eraseIdx_eq_take_drop_succ s.items k.toNat).symm
  have hlen : (removeAt s k).items.length + 1 = s.items.length := by
    rw [hitems, List.length_eraseIdx_of_lt hkn]
    omega
  have hsel : (removeAt s k).selected
      = fillMap (fun i => s.selected.get (if (i : Int) < k then (i : Int) else (i : Int) + 1))
          (s.items.length - 1) := by
    unfold removeAt
    rw [if_neg hg]
    simp only [rebuild, onChange_selected]
    rw [removeSel_eq_fillMap]
    rw [← List.eraseIdx_eq_take_drop_succ, List.length_eraseIdx_of_lt hkn]
  refine ⟨hitems, hlen, ?_, ?_⟩
  · intro i hi
    constructor
    · rw [hitems, List.getElem?_eraseIdx_of_lt _ _ _ (by omega)]
    · rw [hsel, fillMap_get, if_pos (by omega), Int.toNat_ofNat, if_pos hi]
  · intro i hi1 hi2
    constructor
    · rw [hitems, List.getElem?_eraseIdx_of_ge _ _ _ (by omega)]
    · rw [hsel, fillMap_get, if_pos (by omega), Int.toNat_ofNat, if_neg (by omega)]

/-- C4 at `sampleABCD`: deleting row 1 leaves `[A,C,D]` and `D` is still checked, now at
row 2. -/
theorem removeAt_deletes_and_reindexes_witness :
    (removeAt sampleABCD 1).items = ["A", "C", "D"] ∧
    (removeAt sampleABCD 1).selected.get ((2 : Nat) : Int) = true :=
  have h := removeAt_deletes_and_reindexes sampleABCD 1 (by decide)
  ⟨h.1.trans (by decide), ((h.2.2.2 2 (by decide) (by decide)).2).trans (by decide)⟩

/-- C7: `move(0, -1)`, `move(n-1, n)` and every `move` with a source or a target outside
`0..n-1` return the state unchanged: items, checked map, active index and the count of
change notifications are all as before. -/
theorem move_out_of_range_noop (s : State) :
    move s 0 (-1) = s ∧
    move s ((s.items.length : Int) - 1) (s.items.length : Int) = s ∧
    (∀ frm dst : Int,
        (frm < 0 ∨ (s.items.length : Int) ≤ frm ∨ dst < 0 ∨ (s.items.length : Int) ≤ dst) →
        move s frm dst = s ∧ (move s frm dst).items = s.items ∧
        (move s frm dst).selected = s.selected ∧ (move s frm dst).active = s.active ∧
        (move s frm dst).notified = s.notified) := by
  have key : ∀ frm dst : Int,
      (frm < 0 ∨ (s.items.length : Int) ≤ frm ∨ dst < 0 ∨ (s.items.length : Int) ≤ dst) →
      move s frm dst = s := by
    intro frm dst h
    apply move_of_not_ok
    unfold MoveOk
    omega
  refine ⟨key _ _ (by omega), key _ _ (by omega), ?_⟩
  intro frm dst h
  rw [key frm dst h]
  exact ⟨rfl, rfl, rfl, rfl, rfl⟩

/-- C7 at `sampleABC`: moving the last row past the end changes nothing. -/
theorem move_out_of_range_noop_witness : move sampleABC 2 3 = sampleABC :=
  ((move_out_of_range_noop sampleABC).2.2 2 3 (by decide)).1

/-- C8: "Browse & Add" with picked paths `xs` on a list of length `n` gives a list of
length `n + len(xs)` whose first `n` elements are the old list and whose remaining
elements are `xs` in order; the checked map and the active index are unchanged. -/
theorem addFiles_appends (s : State) (xs : List String) :
    (addFiles s xs).items.length = s.items.length + xs.length ∧
    (addFiles s xs).items.take s.items.length = s.items ∧
    (addFiles s xs).items.drop s.items.length = xs ∧
    (addFiles s xs).selected = s.selected ∧
    ActiveIndex (addFiles s xs) = ActiveIndex s := by
  have hitems : (addFiles s xs).items = s.items ++ xs := by
    unfold addFiles
    split_ifs with h
    · rfl
    · have : xs = [] := List.length_eq_zero.mp (by omega)
      rw [this, List.append_nil]
  have hsel : (addFiles s xs).selected = s.selected := by
    unfold addFiles
    split_ifs <;> rfl
  have hact : (addFiles s xs).active = s.active := by
    unfold addFiles
    split_ifs <;> rfl
  refine ⟨?_, ?_, ?_, hsel, hact⟩
  · rw [hitems, List.length_append]
  · rw [hitems, List.take_left]
  · rw [hitems, List.drop_left]

/-- C9: `endDrag` twice equals `endDrag` once; without a drag in progress it changes
nothing; it never changes items, checked map or active index. -/
theorem endDrag_idempotent (s : State) :
    endDrag (endDrag s) = endDrag s ∧
    (s.dragging = false → endDrag s = s) ∧
    (endDrag s).items = s.items ∧ (endDrag s).selected = s.selected ∧
    ActiveIndex (endDrag s) = ActiveIndex s := by
  unfold endDrag ActiveIndex
  cases hd : s.dragging <;> simp [hd]

/-- C9 at a state that is dragging: the first `endDrag` ends the drag, the second one
changes nothing more. -/
theorem endDrag_idempotent_witness :
    endDrag (endDrag (beginDrag sampleABC 1)) = endDrag (beginDrag sampleABC 1) ∧
    endDrag sampleABC = sampleABC :=
  ⟨(endDrag_idempotent (beginDrag sampleABC 1)).1, (endDrag_idempotent sampleABC).2.1 rfl⟩


/-- C5 (as stated) fails where the difference `a - h` is not a `float32`: with every row
40 high, grabbing row 2 of four rows and one call `onDragDelta(2^30)` commits one swap
downwards and leaves `1073741760`, the `float32` nearest to `2^30 - 40 = 1073741784`. -/
theorem drag_remainder_rounds :
    F32.round (2 ^ 30) = .fin (2 ^ 30) ∧ (40 : F32) = .fin 40 ∧
    (onDragDelta (uniformH 40) (beginDrag sampleABCD 2) (.fin (2 ^ 30))).toOption.map
        (fun t => (t.dragIdx, t.dragDY)) = some (3, .fin 1073741760) ∧
    F32.fin 1073741760 ≠ F32.fin (2 ^ 30 - 40) := by
  refine ⟨by decide!, by decide!, by decide!, by decide!⟩

/-- C5 (amended): with every row 40 high and at least 4 items, after `beginDrag` on row 2
the call `onDragDelta(19)` only stores the offset 19 (no swap, no notification); the next
call `onDragDelta(2)` commits exactly one swap, row 2 goes to row 3, and leaves
`21 - 40 = -19`. For any uniform height `h > 0`, all sums and differences being those of
`float32`: an accumulated offset `a` with `0 < a < h/2` commits nothing and is kept; a
call that commits one downward swap leaves `a - h` rounded to `float32`; in general each
committed swap takes `h` off what is left (or puts it back, upwards), rounded each time,
so the remainder is carried forward and never reset. -/
theorem drag_threshold (s : State) (hidle : s.dragging = false) (hlen : 4 ≤ s.items.length) :
    (onDragDelta (uniformH 40) (beginDrag s 2) 19 = .ok { beginDrag s 2 with dragDY := 19 } ∧
      ({ beginDrag s 2 with dragDY := 19 } : State).items = s.items ∧
      ({ beginDrag s 2 with dragDY := 19 } : State).selected = s.selected ∧
      ({ beginDrag s 2 with dragDY := 19 } : State).dragIdx = 2 ∧
      ({ beginDrag s 2 with dragDY := 19 } : State).notified = s.notified) ∧
    (∃ s2, onDragDelta (uniformH 40) { beginDrag s 2 with dragDY := 19 } 2 = .ok s2 ∧
      s2.dragIdx = 3 ∧ s2.dragDY = 21 - 40 ∧ s2.dragDY = -19 ∧
      s2.items = (move s 2 3).items ∧ s2.selected = (move s 2 3).selected ∧
      s2.items[3]? = s.items[2]? ∧ s2.items[2]? = s.items[3]? ∧
      (∀ j : Nat, j ≠ 2 → j ≠ 3 → s2.items[j]? = s.items[j]?) ∧
      s2.notified = s.notified + 1) ∧
    (∀ (h : F32) (t : State) (deltaY : F32), 0 < h → t.dragging = true →
      0 ≤ t.dragIdx → t.dragIdx < (t.items.length : Int) →
      0 < t.dragDY + deltaY → t.dragDY + deltaY < h.half →
      onDragDelta (uniformH h) t deltaY = .ok { t with dragDY := t.dragDY + deltaY }) ∧
    (∀ (h : F32) (t : State) (deltaY : F32), 0 < h → t.dragging = true →
      0 ≤ t.dragIdx → t.dragIdx < (t.items.length : Int) - 1 →
      0 < t.dragDY + deltaY → ¬ t.dragDY + deltaY < h.half →
      t.dragDY + deltaY - h < h.half → -(t.dragDY + deltaY - h) < h.half →
      ∃ t', onDragDelta (uniformH h) t deltaY = .ok t' ∧
        t'.dragDY = t.dragDY + deltaY - h ∧ t'.dragIdx = t.dragIdx + 1 ∧
        t'.items = (move t t.dragIdx (t.dragIdx + 1)).items ∧
        t'.selected = (move t t.dragIdx (t.dragIdx + 1)).selected ∧
        t'.notified = t.notified + 1) ∧
    (∀ (h : F32) (t : State) (deltaY : F32), 0 < h → t.dragging = true →
      0 ≤ t.dragIdx → t.dragIdx < (t.items.length : Int) →
      ∃ (t' : State) (down up : Nat), onDragDelta (uniformH h) t deltaY = .ok t' ∧
        t'.dragIdx = t.dragIdx + down - up ∧
        t'.dragDY = addRows (subRows (t.dragDY + deltaY) h down) h up) := by
  have hb := beginDrag_idle s 2 hidle
  have gen2 : ∀ (h : F32) (t : State) (deltaY : F32), 0 < h → t.dragging = true →
      0 ≤ t.dragIdx → t.dragIdx < (t.items.length : Int) - 1 →
      0 < t.dragDY + deltaY → ¬ t.dragDY + deltaY < h.half →
      t.dragDY + deltaY - h < h.half → -(t.dragDY + deltaY - h) < h.half →
      ∃ t', onDragDelta (uniformH h) t deltaY = .ok t' ∧
        t'.dragDY = t.dragDY + deltaY - h ∧ t'.dragIdx = t.dragIdx + 1 ∧
        t'.items = (move t t.dragIdx (t.dragIdx + 1)).items ∧
        t'.selected = (move t t.dragIdx (t.dragIdx + 1)).selected ∧
        t'.notified = t.notified + 1 := by
    intro h t deltaY _ hdrag h0 h1 hpos hswap hlow hhigh
    refine ⟨_, onDragDelta_one_swap_down h t deltaY hdrag ⟨h0, h1⟩ hpos hswap hlow hhigh,
      rfl, rfl, ?_, ?_, ?_⟩
    · rw [swapStep_items, move_with_dragDY]
    · rw [swapStep_selected, move_with_dragDY]
    · have hok : MoveOk t t.dragIdx (t.dragIdx + 1) := by
        unfold MoveOk
        omega
      show (move { t with dragDY := t.dragDY + deltaY } t.dragIdx (t.dragIdx + 1)).notified = _
      rw [move_with_dragDY]
      exact move_notified t _ _ hok
  refine ⟨?_, ?_, ?_, gen2, ?_⟩
  · refine ⟨?_, ?_, ?_, ?_, ?_⟩
    · have h1 := onDragDelta_below_half 40 (beginDrag s 2) 19 (by rw [hb])
        (by rw [hb]; dsimp only; omega)
        (by rw [hb]; dsimp only; decide!)
        (by rw [hb]; dsimp only; decide!)
      rw [h1]
      congr 1
      rw [hb]
      have e : (0 : F32) + 19 = 19 := by decide!
      apply State.ext <;> simp [e]
    · rw [hb]
    · rw [hb]
    · rw [hb]
    · rw [hb]
  · obtain ⟨s2, e, h1, h2, h3, h5, h4⟩ := gen2 40 { beginDrag s 2 with dragDY := 19 } 2
      (by decide!) (by rw [hb]) (by rw [hb]; dsimp only; omega)
      (by rw [hb]; dsimp only; omega)
      (by dsimp only; decide!) (by dsimp only; decide!)
      (by dsimp only; decide!) (by dsimp only; decide!)
    have hidx : ({ beginDrag s 2 with dragDY := 19 } : State).dragIdx = 2 := by rw [hb]
    rw [hidx] at h2 h3 h5
    have hcongr := move_congr { beginDrag s 2 with dragDY := 19 } s 2 (2 + 1)
      (by rw [hb]) (by rw [hb])
    have hitems : s2.items = (move s 2 3).items := h3.trans hcongr.1
    have hsw := move_neighbour_items s 2 1 (Or.inl rfl) (by omega) (by omega)
    refine ⟨s2, e, h2, ?_, ?_, hitems, ?_, ?_, ?_, ?_, ?_⟩
    · rw [h1]; dsimp only; decide!
    · rw [h1]; dsimp only; decide!
    · exact h5.trans hcongr.2
    · rw [hitems]; exact hsw 3
    · rw [hitems]; exact hsw 2
    · intro j hj2 hj3
      rw [hitems]
      have h := hsw j
      rw [if_neg (by omega), if_neg (by omega), Int.toNat_ofNat] at h
      exact h
    · rw [h4, hb]
  · intro h t deltaY _ hdrag h0 h1 ha0 ha1
    exact onDragDelta_below_half h t deltaY hdrag ⟨h0, h1⟩ ha0 ha1
  · intro h t deltaY _ hdrag h0 h1
    exact onDragDelta_uniform_remainder h t deltaY hdrag ⟨h0, h1⟩

/-- C5 at `sampleABCD`: the first 19 units after grabbing row 2 are only stored. -/
theorem drag_threshold_witness :
    onDragDelta (uniformH 40) (beginDrag sampleABCD 2) 19
      = .ok { beginDrag sampleABCD 2 with dragDY := 19 } :=
  (drag_threshold sampleABCD rfl (by decide)).1.1

/-- C6 (as stated) fails for a checked map with a true key that is not a row: dragging
row 0 one row down (21) and back up (-2) ends at net displacement 0, whose replay is the
untouched state with key 2 still true, but the two committed moves rebuilt the map for
rows 0 and 1 only and key 2 now reads false. -/
theorem drag_replay_map_differs :
    (dragAll (uniformH 40) (beginDrag twoRowsStaleKey 0) [21, -2]).toOption.map
        (fun sf => (sf.dragIdx, sf.selected.get 2,
          (replayDisplacement twoRowsStaleKey 0 (sf.dragIdx - 0)).selected.get 2,
          (move twoRowsStaleKey 0 sf.dragIdx).selected.get 2))
      = some (0, false, true, true) := by
  decide!

/-- C6 (amended): after `beginDrag(origin)` on an idle list and any sequence of
`onDragDelta` calls, the gesture is still in progress at a valid row, the items equal those
of the replay of the net displacement by neighbour moves and those of one
`move(origin, dragIdx)`, and so does the checked value of every row `0..n-1` (of every key
when the original map has no true key outside the rows); `endDrag` then leaves
`dragging = false` and keeps items and checked map. -/
theorem drag_equals_replay (rowH : HeightLookup) (s : State) (origin : Int) (ds : List F32)
    (hidle : s.dragging = false) (ho : 0 ≤ origin ∧ origin < (s.items.length : Int)) :
    ∃ sf, dragAll rowH (beginDrag s origin) ds = .ok sf ∧
      sf.dragging = true ∧ (0 ≤ sf.dragIdx ∧ sf.dragIdx < (s.items.length : Int)) ∧
      sf.items = (replayDisplacement s origin (sf.dragIdx - origin)).items ∧
      sf.items = (move s origin sf.dragIdx).items ∧
      (∀ i : Int, 0 ≤ i → i < (s.items.length : Int) →
        sf.selected.get i = (replayDisplacement s origin (sf.dragIdx - origin)).selected.get i ∧
        sf.selected.get i = (move s origin sf.dragIdx).selected.get i) ∧
      ((∀ k : Int, s.selected.get k = true → 0 ≤ k ∧ k < (s.items.length : Int)) →
        ∀ i : Int,
          sf.selected.get i
            = (replayDisplacement s origin (sf.dragIdx - origin)).selected.get i ∧
          sf.selected.get i = (move s origin sf.dragIdx).selected.get i) ∧
      (endDrag sf).dragging = false ∧ (endDrag sf).items = sf.items ∧
      (endDrag sf).selected = sf.selected := by
  have h0 : DragInv s origin (beginDrag s origin) := by
    rw [beginDrag_idle s origin hidle]
    exact ⟨rfl, rfl, ho, tracks_init s origin ho⟩
  obtain ⟨sf, e, hdrag, _, hidx, htr⟩ := dragAll_dragInv rowH s origin ho ds _ h0
  have a1 := tracks_agree s origin sf.dragIdx _ _ _ _ htr
    (replayDisplacement_tracks s origin sf.dragIdx ho hidx)
  have a2 := tracks_agree s origin sf.dragIdx _ _ _ _ htr (tracks_move s origin sf.dragIdx ho hidx)
  refine ⟨sf, e, hdrag, hidx, a1.1, a2.1, ?_, ?_, ?_, ?_, ?_⟩
  · intro i hi0 hi1
    exact ⟨a1.2.1 i hi0 hi1, a2.2.1 i hi0 hi1⟩
  · intro hkeys i
    exact ⟨a1.2.2 hkeys i, a2.2.2 hkeys i⟩
  · unfold endDrag
    rw [hdrag]
    rfl
  · unfold endDrag
    rw [hdrag]
    rfl
  · unfold endDrag
    rw [hdrag]
    rfl

/-- C6 (amended) at `sampleABCD`: grabbing row 0 and dragging 21 then 40 further ends
normally with the gesture in progress. -/
theorem drag_equals_replay_witness :
    ∃ sf, dragAll (uniformH 40) (beginDrag sampleABCD 0) [21, 40] = .ok sf ∧
      sf.dragging = true :=
  have h := drag_equals_replay (uniformH 40) sampleABCD 0 [21, 40] rfl (by decide)
  h.elim (fun sf hsf => ⟨sf, hsf.1, hsf.2.1⟩)

/-- C10 (as stated) fails: after adding three files, clicking row 2 and deleting row 2,
a reachable state has two items and `ActiveIndex() = 2`, which is neither `-1` nor a valid
index. -/
theorem activeIndex_stale_after_removeAt :
    Reachable Tab.merge (uniformH 40) listOps clickedThenRemoved ∧
    ActiveIndex clickedThenRemoved = 2 ∧ clickedThenRemoved.items.length = 2 ∧
    ¬ (ActiveIndex clickedThenRemoved = -1 ∨
        (0 ≤ ActiveIndex clickedThenRemoved ∧
          ActiveIndex clickedThenRemoved < (clickedThenRemoved.items.length : Int))) := by
  refine ⟨?_, by decide, by decide, by decide⟩
  have r0 : Reachable Tab.merge (uniformH 40) listOps (NewSortableList [] SelMap.empty) :=
    Reachable.init [] SelMap.empty
  have r1 := Reachable.step _ _ (Op.add ["a.pdf", "b.pdf", "c.pdf"]) r0 trivial trivial rfl
  have r2 := Reachable.step _ _ (Op.click 2 false) r1 trivial
    (show (0 : Int) ≤ 2 ∧ (2 : Int) < _ by decide) rfl
  exact Reachable.step _ _ (Op.removeAt 2) r2 trivial trivial rfl

/-- C10 (amended): in every state reached by row clicks on existing rows, `move`, the drag
operations and the add handler, `ActiveIndex()` is `-1` or a valid index into the items;
`removeAt`, "Clear List" and "Remove Selected" leave `ActiveIndex()` as it was, so with
them included it is only `-1` or non-negative. -/
theorem activeIndex_valid_without_removal (tab : Tab) (rowH : HeightLookup) :
    (∀ s, Reachable tab rowH keepingOps s →
      ActiveIndex s = -1 ∨ (0 ≤ ActiveIndex s ∧ ActiveIndex s < (s.items.length : Int))) ∧
    (∀ s, Reachable tab rowH listOps s → ActiveIndex s = -1 ∨ 0 ≤ ActiveIndex s) ∧
    (∀ s index, ActiveIndex (removeAt s index) = ActiveIndex s) ∧
    (∀ s, ActiveIndex (clearList tab s) = ActiveIndex s) ∧
    (∀ s, ActiveIndex (removeSelected s) = ActiveIndex s) := by
  have hrem : ∀ s index, ActiveIndex (removeAt s index) = ActiveIndex s := by
    intro s index
    unfold ActiveIndex removeAt
    split_ifs <;> simp
  have hclr : ∀ s, ActiveIndex (clearList tab s) = ActiveIndex s := by
    intro s
    cases tab <;> rfl
  have hsel : ∀ s, ActiveIndex (removeSelected s) = ActiveIndex s := by
    intro s
    unfold ActiveIndex removeSelected
    split_ifs <;> rfl
  have hclick : ∀ s index additive, ActiveIndex (onRowClick s index additive) = index := by
    intro s index additive
    unfold ActiveIndex onRowClick
    cases additive <;> simp
  have hbegin : ∀ s index, (beginDrag s index).active = s.active ∧
      (beginDrag s index).items = s.items := by
    intro s index
    unfold beginDrag
    split_ifs <;> exact ⟨rfl, rfl⟩
  have hend : ∀ s, (endDrag s).active = s.active ∧ (endDrag s).items = s.items := by
    intro s
    unfold endDrag
    split_ifs <;> exact ⟨rfl, rfl⟩
  have hadd : ∀ s paths, (addFiles s paths).active = s.active ∧
      s.items.length ≤ (addFiles s paths).items.length := by
    intro s paths
    unfold addFiles
    split_ifs
    · refine ⟨rfl, ?_⟩
      simp only [rebuild, List.length_append]
      omega
    · exact ⟨rfl, le_refl _⟩
  have hclicklen : ∀ s index additive, (onRowClick s index additive).items = s.items := by
    intro s index additive
    unfold onRowClick
    cases additive <;> simp
  refine ⟨?_, ?_, hrem, hclr, hsel⟩
  · intro s hs
    induction hs with
    | init items selected => left; rfl
    | step s s1 op _ hall hen hrun ih =>
      unfold ActiveIndex at ih ⊢
      cases op with
      | click index additive =>
        cases hrun
        right
        have e := hclick s index additive
        unfold ActiveIndex at e
        rw [e, hclicklen]
        exact hen
      | move frm dst =>
        cases hrun
        rw [move_active, move_items_length]
        exact ih
      | beginDrag index =>
        cases hrun
        rw [(hbegin s index).1, (hbegin s index).2]
        exact ih
      | dragDelta deltaY =>
        obtain ⟨h1, h2⟩ := onDragDelta_frame rowH s s1 deltaY hrun
        rw [h1, h2]
        exact ih
      | endDrag =>
        cases hrun
        rw [(hend s).1, (hend s).2]
        exact ih
      | add paths =>
        cases hrun
        rw [(hadd s paths).1]
        have := (hadd s paths).2
        omega
      | check index v => exact absurd hall (by simp [keepingOps])
      | removeAt index => exact absurd hall (by simp [keepingOps])
      | clear => exact absurd hall (by simp [keepingOps])
      | removeSelected => exact absurd hall (by simp [keepingOps])
      | moveUp => exact absurd hall (by simp [keepingOps])
      | moveDown => exact absurd hall (by simp [keepingOps])
  · intro s hs
    induction hs with
    | init items selected => left; rfl
    | step s s1 op _ hall hen hrun ih =>
      cases op with
      | click index additive =>
        cases hrun
        right
        rw [hclick]
        exact hen.1
      | move frm dst =>
        cases hrun
        unfold ActiveIndex at ih ⊢
        rw [move_active]
        exact ih
      | removeAt index =>
        cases hrun
        rw [hrem]
        exact ih
      | beginDrag index =>
        cases hrun
        unfold ActiveIndex at ih ⊢
        rw [(hbegin s index).1]
        exact ih
      | dragDelta deltaY =>
        unfold ActiveIndex at ih ⊢
        rw [(onDragDelta_frame rowH s s1 deltaY hrun).1]
        exact ih
      | endDrag =>
        cases hrun
        unfold ActiveIndex at ih ⊢
        rw [(hend s).1]
        exact ih
      | add paths =>
        cases hrun
        unfold ActiveIndex at ih ⊢
        rw [(hadd s paths).1]
        exact ih
      | clear =>
        cases hrun
        rw [hclr]
        exact ih
      | removeSelected =>
        cases hrun
        rw [hsel]
        exact ih
      | check index v => exact absurd hall (by simp [listOps])
      | moveUp => exact absurd hall (by simp [listOps])
      | moveDown => exact absurd hall (by simp [listOps])

/-- C11 (as stated) fails: with row 0 active, the successful move of row 0 to row 1
leaves `ActiveIndex()` at 0, not at 1. -/
theorem activeIndex_not_following_move :
    ActiveIndex firstRowActive = 0 ∧
    (move firstRowActive 0 (0 + 1)).items = ["b.pdf", "a.pdf", "c.pdf"] ∧
    ActiveIndex (move firstRowActive 0 (0 + 1)) = 0 ∧
    ¬ (ActiveIndex (move firstRowActive 0 (0 + 1)) = 0 + 1) := by
  decide

/-- C11 (amended): a successful neighbour move `move(pos, pos+d)` made while the active
index equals `pos` leaves `ActiveIndex()` equal to `pos`; the active position now holds
the item that was at `pos+d`, and the moved item sits at `pos+d`. -/
theorem move_keeps_activeIndex (s : State) (pos d : Int) (hd : d = 1 ∨ d = -1)
    (hpos : 0 ≤ pos ∧ pos < (s.items.length : Int))
    (hnb : 0 ≤ pos + d ∧ pos + d < (s.items.length : Int))
    (hact : ActiveIndex s = pos) :
    ActiveIndex (move s pos (pos + d)) = pos ∧
    (move s pos (pos + d)).items[(ActiveIndex (move s pos (pos + d))).toNat]?
      = s.items[(pos + d).toNat]? ∧
    (move s pos (pos + d)).items[(pos + d).toNat]? = s.items[pos.toNat]? := by
  have hact2 : ActiveIndex (move s pos (pos + d)) = pos := by
    unfold ActiveIndex at hact ⊢
    rw [move_active]
    exact hact
  have hitems := move_neighbour_items s pos d hd hpos hnb
  refine ⟨hact2, ?_, ?_⟩
  · rw [hact2]
    have h := hitems pos.toNat
    rw [Int.toNat_of_nonneg hpos.1, if_pos rfl] at h
    exact h
  · have h := hitems (pos + d).toNat
    rw [Int.toNat_of_nonneg hnb.1, if_neg (by omega), if_pos rfl] at h
    exact h

/-- C11 (amended) at `firstRowActive`: after moving the active row 0 down, the active
index is still 0. -/
theorem move_keeps_activeIndex_witness :
    ActiveIndex (move firstRowActive 0 (0 + 1)) = 0 :=
  (move_keeps_activeIndex firstRowActive 0 1 (Or.inl rfl) (by decide) (by decide)
    (by decide)).1

/-- C12 fails on the code: with `A` checked at row 0 and focused, the "↓" button swaps
the items to `[B, A]` but leaves the checked map as it was, so `B` is now the checked
row and `A` is not. -/
theorem moveDown_leaves_checked_by_position :
    checkedFirstOfTwo.items = ["A", "B"] ∧ checkedFirstOfTwo.selectedIndex = 0 ∧
    checkedFirstOfTwo.selected.get 0 = true ∧ checkedFirstOfTwo.selected.get 1 = false ∧
    (moveDown checkedFirstOfTwo).items = ["B", "A"] ∧
    (moveDown checkedFirstOfTwo).selected.get 0 = true ∧
    (moveDown checkedFirstOfTwo).selected.get 1 = false ∧
    (moveUp (moveDown checkedFirstOfTwo)).items = ["A", "B"] ∧
    (moveUp (moveDown checkedFirstOfTwo)).selected.get 0 = true := by
  decide

/-- C13 (as stated) fails: "Clear List" during a drag, with row 0 checked and active,
empties the items only: key 0 is still checked, `ActiveIndex()` is still 0, the drag is
still in progress, and a file added afterwards is checked and active. -/
theorem clearList_resets_items_only :
    (clearList Tab.merge draggingCheckedActive).items = [] ∧
    (clearList Tab.merge draggingCheckedActive).selected.get 0 = true ∧
    ActiveIndex (clearList Tab.merge draggingCheckedActive) = 0 ∧
    (clearList Tab.merge draggingCheckedActive).dragging = true ∧
    (clearList Tab.images draggingCheckedActive).selected.get 0 = true ∧
    ActiveIndex (clearList Tab.images draggingCheckedActive) = 0 ∧
    (clearList Tab.images draggingCheckedActive).dragging = true ∧
    (addFiles (clearList Tab.merge draggingCheckedActive) ["x.pdf"]).selected.get 0 = true ∧
    ActiveIndex (addFiles (clearList Tab.merge draggingCheckedActive) ["x.pdf"]) = 0 := by
  decide

/-- C13 (amended): "Clear List" leaves the items empty (on the images tab also the host's
`selectedIndex` absent) and leaves `ActiveIndex()` as it was. -/
theorem clearList_empties_items (tab : Tab) (s : State) :
    (clearList tab s).items = [] ∧
    ActiveIndex (clearList tab s) = ActiveIndex s ∧
    (clearList Tab.images s).selectedIndex = -1 := by
  cases tab <;> exact ⟨rfl, rfl, rfl⟩

/-- C14 (as stated) fails: with row 0 checked and the unchecked row 2 active, "Remove
Selected" leaves two items and resets the host's `selectedIndex`, but `ActiveIndex()` is
still 2. -/
theorem removeSelected_keeps_activeIndex :
    ActiveIndex uncheckedRowActive = 2 ∧
    (removeSelected uncheckedRowActive).items = ["b.pdf", "c.pdf"] ∧
    (removeSelected uncheckedRowActive).selectedIndex = -1 ∧
    ActiveIndex (removeSelected uncheckedRowActive) = 2 ∧
    ¬ ((removeSelected uncheckedRowActive).selectedIndex = -1 ∧
        ActiveIndex (removeSelected uncheckedRowActive) = -1) := by
  decide

/-- C14 (amended): "Remove Selected" on a non-empty list leaves the host's
`selectedIndex` absent (`-1`); it never changes `ActiveIndex()`; on an empty list it
changes nothing. -/
theorem removeSelected_clears_selectedIndex (s : State) :
    (s.items ≠ [] → (removeSelected s).selectedIndex = -1) ∧
    ActiveIndex (removeSelected s) = ActiveIndex s ∧
    (s.items = [] → removeSelected s = s) := by
  refine ⟨?_, ?_, ?_⟩
  · intro hne
    unfold removeSelected
    have : ¬ s.items.length = 0 := fun h => hne (List.length_eq_zero.mp h)
    rw [if_neg this]
    rfl
  · unfold removeSelected ActiveIndex
    split_ifs <;> rfl
  · intro h
    unfold removeSelected
    rw [if_pos (by rw [h]; rfl)]

/-- C14 (amended) at `uncheckedRowActive`, a non-empty list. -/
theorem removeSelected_clears_selectedIndex_witness :
    (removeSelected uncheckedRowActive).selectedIndex = -1 :=
  (removeSelected_clears_selectedIndex uncheckedRowActive).1 (by decide)

/-- C15 (as stated) fails: a ctrl-click on row 1 of a list without an active row makes
row 1 the active row. -/
theorem toggle_click_sets_active :
    ActiveIndex sampleABC = -1 ∧
    (onRowClick sampleABC 1 true).selected.get 1 = true ∧
    ActiveIndex (onRowClick sampleABC 1 true) = 1 ∧
    ¬ (ActiveIndex (onRowClick sampleABC 1 true) = ActiveIndex sampleABC) := by
  decide

/-- C15 (amended): for every `pos`, a row or not, `onRowClick(pos, true)` negates
`checked[pos]`, keeps the checked value of every other key and the items, and sets the active index to
`pos`; doing it twice restores every checked value; ticking the checkbox itself
(`check.OnChanged`) sets `checked[pos]` and leaves the active index alone. -/
theorem toggle_click_negates_checked (s : State) (pos : Int) :
    (onRowClick s pos true).selected.get pos = !s.selected.get pos ∧
    (∀ k : Int, k ≠ pos → (onRowClick s pos true).selected.get k = s.selected.get k) ∧
    (onRowClick s pos true).items = s.items ∧
    ActiveIndex (onRowClick s pos true) = pos ∧
    (∀ k : Int, (onRowClick (onRowClick s pos true) pos true).selected.get k
        = s.selected.get k) ∧
    (∀ v : Bool, (checkChanged s pos v).selected.get pos = v ∧
        ActiveIndex (checkChanged s pos v) = ActiveIndex s) := by
  have hsel : ∀ t : State, (onRowClick t pos true).selected
      = t.selected.set pos (!t.selected.get pos) := by
    intro t
    simp [onRowClick]
  have hget : ∀ (m : SelMap) (v : Bool) (k : Int),
      (m.set pos v).get k = if k = pos then v else m.get k := by
    intro m v k
    unfold SelMap.get SelMap.set
    split_ifs <;> rfl
  refine ⟨?_, ?_, ?_, ?_, ?_, ?_⟩
  · rw [hsel, hget, if_pos rfl]
  · intro k hk
    rw [hsel, hget, if_neg hk]
  · simp [onRowClick]
  · simp [onRowClick, ActiveIndex]
  · intro k
    rw [hsel, hget, hsel, hget]
    by_cases hk : k = pos
    · rw [if_pos hk, if_pos rfl, Bool.not_not, hk]
    · rw [if_neg hk, hget, if_neg hk]
  · intro v
    constructor
    · simp only [checkChanged, onChange_selected]
      rw [hget, if_pos rfl]
    · simp [checkChanged, ActiveIndex]

/-- C15 (amended) at `sampleABC`: a ctrl-click on the checked row 0 unchecks it and makes
it active. -/
theorem toggle_click_negates_checked_witness :
    (onRowClick sampleABC 0 true).selected.get 0 = false ∧
    ActiveIndex (onRowClick sampleABC 0 true) = 0 :=
  have h := toggle_click_negates_checked sampleABC 0
  ⟨h.1.trans (by decide), h.2.2.2.1⟩

/-- C16 (as stated) fails for the toggle: `onRowClick(7, true)` on a list of three rows
has no range guard, so it marks key 7 checked and makes 7 the active index. -/
theorem toggle_click_out_of_range_changes_state :
    sampleABC.items.length = 3 ∧
    sampleABC.selected.get 7 = false ∧ ActiveIndex sampleABC = -1 ∧
    (onRowClick sampleABC 7 true).selected.get 7 = true ∧
    ActiveIndex (onRowClick sampleABC 7 true) = 7 := by
  decide

/-- C16 (amended): for a position outside `0..n-1`, `move(pos, _)`, `move(_, pos)` and
`removeAt(pos)` return the state unchanged; `onRowClick(pos, true)` keeps the items but
flips `checked[pos]` and sets the active index to `pos`. -/
theorem out_of_range_position_ops (s : State) (pos : Int)
    (hout : pos < 0 ∨ (s.items.length : Int) ≤ pos) :
    (∀ other : Int, move s pos other = s ∧ move s other pos = s) ∧
    removeAt s pos = s ∧
    (onRowClick s pos true).items = s.items ∧
    (onRowClick s pos true).selected.get pos = !s.selected.get pos ∧
    ActiveIndex (onRowClick s pos true) = pos := by
  refine ⟨?_, ?_, ?_, ?_, ?_⟩
  · intro other
    constructor
    · apply move_of_not_ok
      unfold MoveOk
      omega
    · apply move_of_not_ok
      unfold MoveOk
      omega
  · unfold removeAt
    rw [if_pos (by omega)]
  · simp [onRowClick]
  · simp [onRowClick, SelMap.get, SelMap.set]
  · simp [onRowClick, ActiveIndex]

/-- C16 (amended) at `sampleABC` and position 3: deleting a row that does not exist
changes nothing. -/
theorem out_of_range_position_ops_witness : removeAt sampleABC 3 = sampleABC :=
  (out_of_range_position_ops sampleABC 3 (by decide)).2.1

/-- C17 fails on the code: with every row 40 high, grabbing row 0 and moving the pointer
by exactly half a row (20) in one call first swaps the row down (drag position 1,
accumulator -20) and then, in the same call, swaps it back up (drag position 0,
accumulator 20): two moves are committed and the list is as before. -/
theorem drag_midpoint_swaps_both_ways :
    (dragDown (uniformH 40) (dragFuel { beginDrag sampleABCD 0 with dragDY := 0 + 20 })
        { beginDrag sampleABCD 0 with dragDY := 0 + 20 }).toOption.map
        (fun u => (u.dragIdx, u.dragDY, u.items, u.notified))
      = some (1, -20, ["B", "A", "C", "D"], 1) ∧
    (onDragDelta (uniformH 40) (beginDrag sampleABCD 0) 20).toOption.map
        (fun u => (u.dragIdx, u.dragDY, u.items, u.notified))
      = some (0, 20, ["A", "B", "C", "D"], 2) := by
  decide!

/-- C18 fails on the code: after a drag has begun on row 2 and two rows have been
deleted, the drag is still in progress with drag position 2 in a list of one row, and the
next `onDragDelta(-1)` reads `box.Objects[1]` and panics. -/
theorem drag_after_removeAt_panics :
    dragThenRemoved.dragging = true ∧ dragThenRemoved.dragIdx = 2 ∧
    dragThenRemoved.items = ["c.pdf"] ∧
    ¬ (0 ≤ dragThenRemoved.dragIdx ∧
        dragThenRemoved.dragIdx < (dragThenRemoved.items.length : Int)) ∧
    onDragDelta (uniformH 40) dragThenRemoved (-1) = .error .indexOutOfRange :=
  ⟨by decide, by decide, by decide, by decide, eq_of_panicked _ (by decide!)⟩


/-- C19 (as stated) fails for a page number beyond the range of `int`: the single token
`99999999999999999999` is a decimal page number `≥ 1`, yet `Atoi` rejects it and the call
returns "invalid page number", whatever `unicode.IsDigit` holds of beyond the ASCII
digits and however large the page slice may grow. -/
theorem parsePageRange_rejects_huge_page :
    decimal "99999999999999999999".toList = 99999999999999999999 ∧
    (∀ sliceCap : Nat,
      parsePageRange sliceCap asciiDigit "99999999999999999999".toList
        = .error .invalidPageNumber) ∧
    ¬ ∃ (sliceCap : Nat) (isDigit : Char → Bool), DigitTable isDigit ∧
        parsePageRange sliceCap isDigit "99999999999999999999".toList
          = .ok [99999999999999999999] := by
  have key : ∀ (sliceCap : Nat) (isDigit : Char → Bool), DigitTable isDigit →
      parsePageRange sliceCap isDigit "99999999999999999999".toList
        = .error .invalidPageNumber := by
    intro sliceCap isDigit hd
    have hn : normalize isDigit "99999999999999999999".toList
        = "99999999999999999999".toList :=
      normalize_token_runes isDigit hd _ (by decide)
    have hsplit : split "99999999999999999999".toList ','
        = ["99999999999999999999".toList] := by decide
    have hts : trimSpace "99999999999999999999".toList ≠ [] := by decide
    unfold parsePageRange
    rw [if_neg hts, hn, hsplit, parseParts_digits _ (by decide) (by decide),
      Atoi_too_large _ (by decide) (by decide)]
  refine ⟨by decide, fun sliceCap => key sliceCap asciiDigit (fun _ h => h), ?_⟩
  rintro ⟨sliceCap, isDigit, hd, h⟩
  rw [key sliceCap isDigit hd] at h
  cases h

/-- C19 (amended): for an input made of one or more tokens, each a decimal page number
`N` with `1 ≤ N ≤ 2^63 - 1` or a range `A-B` with `1 ≤ A ≤ B < 2^63 - 1`, separated by
non-empty runs of commas or of other runes that are not digits, `'-'` or `','`, and
whose pages are together no more than the page slice can hold, `parsePageRange` returns
the concatenation, in input order, of `[N]` for each page and `[A, ..., B]` for each
range, unsorted and with duplicates kept; `"1,3,5-7,10"` gives `[1,3,5,6,7,10]` when the
machine has room for 6 pages. -/
theorem parsePageRange_tokens (sliceCap : Nat) (isDigit : Char → Bool)
    (hd : DigitTable isDigit) (pre : List (Token × List Char)) (last : Token)
    (hpre : PairsOk isDigit pre) (hlast : last.Valid)
    (hfit : (pairsPages pre ++ last.pages).length ≤ sliceLimit sliceCap) :
    parsePageRange sliceCap isDigit (pairsText pre ++ last.text)
      = .ok (pairsPages pre ++ last.pages) ∧
    (6 ≤ sliceCap →
      parsePageRange sliceCap isDigit "1,3,5-7,10".toList = .ok [1, 3, 5, 6, 7, 10]) := by
  have gen : ∀ (pre : List (Token × List Char)) (last : Token),
      PairsOk isDigit pre → last.Valid →
      (pairsPages pre ++ last.pages).length ≤ sliceLimit sliceCap →
      parsePageRange sliceCap isDigit (pairsText pre ++ last.text)
        = .ok (pairsPages pre ++ last.pages) := by
    intro pre last hpre hlast hfit
    rw [List.length_append] at hfit
    unfold parsePageRange
    have hts : trimSpace (pairsText pre ++ last.text) ≠ [] := by
      have := trimSpace_ne_nil_of_token (pairsText pre) [] last hlast
      rwa [List.append_nil] at this
    rw [if_neg hts]
    have hp : parseParts sliceCap (split (normalize isDigit (pairsText pre ++ last.text)) ',') []
        = .ok (pairsPages pre ++ last.pages) := by
      show parseNorm sliceCap _ [] = _
      rw [normalize_append, parseNorm_pairs isDigit hd pre _ [] hpre (by simp; omega),
        normalize_token_runes isDigit hd last.text
          (fun c hc => Or.inl ((token_text_runes last hlast).1 c hc))]
      have h := @parseNorm_token sliceCap last hlast [] (Or.inl rfl)
        ([] ++ pairsPages pre) (by simp; omega)
      rw [List.append_nil] at h
      rw [h, parseNorm_nil, List.nil_append]
    rw [hp]
    have hlen : ¬ (pairsPages pre ++ last.pages).length = 0 := by
      intro h0
      have := List.length_eq_zero.mp h0
      exact token_pages_ne_nil last hlast (List.append_eq_nil.mp this).2
    simp only [if_neg hlen]
  refine ⟨gen pre last hpre hlast hfit, ?_⟩
  intro h6
  have e1 : pairsText [(Token.page "1".toList, ",".toList),
      (Token.page "3".toList, ",".toList), (Token.range "5".toList "7".toList, ",".toList)]
        ++ (Token.page "10".toList).text = "1,3,5-7,10".toList := by decide
  have e2 : pairsPages [(Token.page "1".toList, ",".toList),
      (Token.page "3".toList, ",".toList), (Token.range "5".toList "7".toList, ",".toList)]
        ++ (Token.page "10".toList).pages = [1, 3, 5, 6, 7, 10] := by decide
  have h := gen
    [(Token.page "1".toList, ",".toList), (Token.page "3".toList, ",".toList),
      (Token.range "5".toList "7".toList, ",".toList)] (Token.page "10".toList)
    (fun p hp => by
      simp only [List.mem_cons, List.mem_singleton, List.not_mem_nil, or_false] at hp
      rcases hp with rfl | rfl | rfl <;>
        exact ⟨by decide, by decide, fun c hc => Or.inl (by simpa using hc)⟩)
    (by decide) (by rw [e2]; exact Nat.le_min.mpr ⟨h6, by decide⟩)
  rw [e1, e2] at h
  exact h

/-- C19 (amended) at the input `"1; 5-7"`, with room for four pages. -/
theorem parsePageRange_tokens_witness :
    parsePageRange 4 asciiDigit "1; 5-7".toList = .ok [1, 5, 6, 7] :=
  (parsePageRange_tokens 4 asciiDigit (fun _ h => h)
    [(Token.page "1".toList, "; ".toList)] (Token.range "5".toList "7".toList)
    (by decide) (by decide) (by decide)).1

/-- C20: the claim fails when a range that the page slice cannot hold comes before the
bad token. On `"1-9223372036854775807,0"` the test `i <= end` holds of every `int`, so
the page loop appends until the process is stopped, however much memory there is; on
`"1-9223372036854775806,0"` the range has more pages than any slice of `int` can
hold. The page number 0 is never reached and no error is returned. -/
theorem parsePageRange_no_return_before_bad_token :
    BadToken "0".toList ∧
    (∀ sliceCap : Nat,
      parsePageRange sliceCap asciiDigit "1-9223372036854775807,0".toList
        = .error .noReturn) ∧
    (∀ sliceCap : Nat,
      parsePageRange sliceCap asciiDigit "1-9223372036854775806,0".toList
        = .error .noReturn) ∧
    ¬ ∃ (sliceCap : Nat) (isDigit : Char → Bool), DigitTable isDigit ∧
        TokenError (parsePageRange sliceCap isDigit "1-9223372036854775807,0".toList) := by
  have key : ∀ (sliceCap : Nat) (isDigit : Char → Bool), DigitTable isDigit →
      parsePageRange sliceCap isDigit "1-9223372036854775807,0".toList
        = .error .noReturn := by
    intro sliceCap isDigit hd
    have hn : normalize isDigit "1-9223372036854775807,0".toList
        = "1-9223372036854775807,0".toList :=
      normalize_token_runes isDigit hd _ (by decide)
    have hsplit : split "1-9223372036854775807,0".toList ','
        = ["1".toList ++ '-' :: "9223372036854775807".toList, "0".toList] := by decide
    have hloop : parseParts sliceCap
        ["1".toList ++ '-' :: "9223372036854775807".toList, "0".toList] []
        = .error .noReturn :=
      parseParts_range_maxInt "1".toList "9223372036854775807".toList (by decide) (by decide)
        (by decide) (by decide) (by decide) (by decide) (by decide) _ _
    have hts : trimSpace "1-9223372036854775807,0".toList ≠ [] := by decide
    unfold parsePageRange
    rw [if_neg hts, hn, hsplit, hloop]
  have key2 : ∀ sliceCap : Nat,
      parsePageRange sliceCap asciiDigit "1-9223372036854775806,0".toList
        = .error .noReturn := by
    intro sliceCap
    have hcap : sliceLimit sliceCap ≤ 2 ^ 45 := Nat.min_le_right _ _
    have hn : normalize asciiDigit "1-9223372036854775806,0".toList
        = "1-9223372036854775806,0".toList :=
      normalize_token_runes asciiDigit (fun _ h => h) _ (by decide)
    have hsplit : split "1-9223372036854775806,0".toList ','
        = ["1".toList ++ '-' :: "9223372036854775806".toList, "0".toList] := by decide
    have hdec : decimal "9223372036854775806".toList = 9223372036854775806 := by decide
    have hdec1 : decimal "1".toList = 1 := by decide
    have hloop : parseParts sliceCap
        ["1".toList ++ '-' :: "9223372036854775806".toList, "0".toList] []
        = .error .noReturn :=
      parseParts_range_too_long "1".toList "9223372036854775806".toList (by decide)
        (by decide) (by decide) (by decide) (by decide) (by decide) (by decide) _ _
        (by rw [hdec, hdec1]; simp only [List.length_nil]; omega)
    have hts : trimSpace "1-9223372036854775806,0".toList ≠ [] := by decide
    unfold parsePageRange
    rw [if_neg hts, hn, hsplit, hloop]
  refine ⟨BadToken.pageZero _ (by decide) (by decide) (by decide),
    fun sliceCap => key sliceCap asciiDigit (fun _ h => h), key2, ?_⟩
  rintro ⟨sliceCap, isDigit, hd, h⟩
  rw [key sliceCap isDigit hd] at h
  unfold TokenError at h
  rcases h with h | h | h <;> cases h

/-- The inputs that `parsePageRange` rejects: it returns "empty page range" for an input
that is empty or white space only; it returns that or "no pages parsed" for an input of
separators only; and for an input in which, after separators and valid tokens whose
pages the slice can hold, a token is the page number 0, a range with a bound of 0, a
range with `A > B`, a range with a missing bound or a token with more than one hyphen,
it returns "invalid page number", "invalid range" or "start must be <= end", whatever
follows that token. -/
theorem parsePageRange_rejects (isDigit : Char → Bool) (hd : DigitTable isDigit) :
    (∀ s : List Char, (∀ c ∈ s, isSpace c = true) →
      parsePageRange sliceCap isDigit s = .error .emptyPageRange) ∧
    (∀ s : List Char, (∀ c ∈ s, SepRune isDigit c) →
      parsePageRange sliceCap isDigit s = .error .emptyPageRange ∨
      parsePageRange sliceCap isDigit s = .error .noPagesParsed) ∧
    (∀ (lead : List Char) (pre : List (Token × List Char)) (bad tail : List Char),
      (∀ c ∈ lead, SepRune isDigit c) → PairsOk isDigit pre →
      (pairsPages pre).length ≤ sliceLimit sliceCap → BadToken bad →
      (tail = [] ∨ ∃ c more, tail = c :: more ∧ SepRune isDigit c) →
      TokenError (parsePageRange sliceCap isDigit (lead ++ pairsText pre ++ bad ++ tail))) ∧
    parsePageRange sliceCap isDigit "5-".toList = .error .invalidRange ∧
    parsePageRange sliceCap isDigit "-5".toList = .error .invalidRange ∧
    parsePageRange sliceCap isDigit "1-2-3".toList = .error .invalidRange := by
  have ascii : ∀ s : List Char, (∀ c ∈ s, TokenRune c ∨ c = ',') →
      parsePageRange sliceCap isDigit s = parsePageRange sliceCap asciiDigit s := by
    intro s hs
    unfold parsePageRange
    rw [normalize_token_runes isDigit hd s hs,
      normalize_token_runes asciiDigit (fun _ h => h) s hs]
  refine ⟨?_, ?_, ?_, ?_, ?_, ?_⟩
  · intro s hs
    unfold parsePageRange
    rw [if_pos ((trimSpace_eq_nil_iff s).mpr hs)]
  · intro s hs
    by_cases hts : trimSpace s = []
    · left
      unfold parsePageRange
      rw [if_pos hts]
    · right
      unfold parsePageRange
      rw [if_neg hts]
      have hp : parseParts sliceCap (split (normalize isDigit s) ',') [] = .ok [] := by
        show parseNorm sliceCap _ [] = _
        have h := @parseNorm_commas sliceCap s.length [] []
        rw [List.append_nil] at h
        rw [normalize_seps isDigit s hs, h, parseNorm_nil]
      rw [hp]
      rfl
  · intro lead pre bad tail hlead hpre hfit hbad htail
    exact parsePageRange_first_bad isDigit hd lead pre bad tail hlead hpre hfit hbad htail
  · rw [ascii _ (by decide)]
    rfl
  · rw [ascii _ (by decide)]
    rfl
  · rw [ascii _ (by decide)]
    rfl

/-- C21: whenever `parsePageRange` returns a page list (no error), the list is not
empty and every page number in it is at least 1, for every input string, whatever
`unicode.IsDigit` holds of and however large the page slice may grow. -/
theorem parsePageRange_success_pages (sliceCap : Nat) (isDigit : Char → Bool)
    (rangeStr : List Char) (pages : List Int)
    (h : parsePageRange sliceCap isDigit rangeStr = .ok pages) :
    pages ≠ [] ∧ ∀ p ∈ pages, 1 ≤ p := by
  unfold parsePageRange at h
  split_ifs at h with h1
  split at h
  · cases h
  · rename_i out hout
    split_ifs at h with h2
    cases h
    refine ⟨?_, parseParts_pos _ [] _ hout (by simp)⟩
    intro h3
    rw [h3] at h2
    exact h2 rfl

/-- C21 at the input `"3, 5-7"`, which parses to `[3, 5, 6, 7]` when the slice can hold
eight pages. -/
theorem parsePageRange_success_pages_witness :
    parsePageRange 8 asciiDigit "3, 5-7".toList = .ok [3, 5, 6, 7] ∧
    ([3, 5, 6, 7] : List Int) ≠ [] ∧ ∀ p ∈ ([3, 5, 6, 7] : List Int), 1 ≤ p :=
  ⟨by decide,
    parsePageRange_success_pages 8 asciiDigit "3, 5-7".toList [3, 5, 6, 7] (by decide)⟩

/-- C22 (as stated) fails for one page and `PagesPerFile = 2^63 - 1`, a value the split
tab accepts: after the span 1-1, `start += PagesPerFile` wraps to `-2^63`, which is
`<= pageCount`, so the loop goes on. When `TrimFile` reports no error it produces the
three spans 1-1, `-2^63`-(-2) and (-1)-1; and whatever `TrimFile` does after the first
span, the spans produced are no partition of `1..1`. -/
theorem split_huge_pagesPerFile_extra_spans :
    Split (fun _ _ => true) 1 maxInt 4 = some (.done [(1, 1), (minInt, -2), (-1, 1)]) ∧
    ¬ ∃ (trimFile : Int → Int → Bool) (fuel : Nat) (r : SplitResult),
        trimFile 1 1 = true ∧ Split trimFile 1 maxInt fuel = some r ∧
        IsPartition 1 maxInt r.spans := by
  refine ⟨by decide, ?_⟩
  rintro ⟨trimFile, fuel, r, h11, hr, hpart⟩
  obtain ⟨t, ht⟩ := split_maxInt_spans trimFile h11 fuel r hr
  rw [← ht] at hpart
  have h := hpart.2.1 0 (1, 1) (minInt, -2) (by simp) (by simp)
  revert h
  decide

/-- C22 (amended): for every page count `P ≥ 0` and every `PagesPerFile = k ≥ 1` with
`ceil(P / k) * k < 2^63 - 1` (so that `start` never overflows), and `TrimFile` reporting
no error for spans within `1..P`, the loop of `Split` ends after `ceil(P / k) + 1` tests
and the spans it produces partition `1..P`: the first starts at 1, each next one starts
at the previous end + 1, the last ends at `P`, every span but the last has exactly `k`
pages, the last has between 1 and `k`, there are `ceil(P / k)` of them and every page
lies in exactly one. -/
theorem split_partitions_pages (trimFile : Int → Int → Bool) (P k : Int)
    (hP : 0 ≤ P) (hk : 1 ≤ k) (hfit : ceilDiv P k * k < maxInt)
    (htrim : ∀ a b : Int, 1 ≤ a → a ≤ b → b ≤ P → trimFile a b = true) :
    ceilDiv P k = ⌈(P : ℚ) / (k : ℚ)⌉ ∧
    (∀ fuel : Nat, ceilDiv P k < fuel →
      Split trimFile P k fuel
        = some (.done ((List.range (ceilDiv P k).toNat).map (spanAt P k)))) ∧
    IsPartition P k ((List.range (ceilDiv P k).toNat).map (spanAt P k)) := by
  have h0 := ceilDiv_nonneg P k hP hk
  have hn : (((ceilDiv P k).toNat : Nat) : Int) = ceilDiv P k := Int.toNat_of_nonneg h0
  have hb := ceilDiv_bounds P k hk
  rw [← hn] at hb hfit
  refine ⟨ceilDiv_eq_ceil P k hk, ?_, spans_isPartition P k _ hk hn⟩
  intro fuel hf
  have h := splitLoop_run trimFile P k (ceilDiv P k).toNat hk hb.1 hb.2 hfit htrim
    (ceilDiv P k).toNat 0 fuel (by omega) (by omega)
  simpa [Split] using h

/-- C22 (amended) for 10 pages in files of 4: the spans 1-4, 5-8 and 9-10. -/
theorem split_partitions_pages_witness :
    Split (fun _ _ => true) 10 4 4 = some (.done [(1, 4), (5, 8), (9, 10)]) ∧
    IsPartition 10 4 [(1, 4), (5, 8), (9, 10)] :=
  have h := split_partitions_pages (fun _ _ => true) 10 4 (by decide) (by decide)
    (by decide) (fun _ _ _ _ _ => rfl)
  ⟨h.2.1 4 (by decide), h.2.2⟩

end PdfToolbox
